import Mathlib

/-!
Verification of the memlib segregated-fits allocator (`src/mm.c`).

The allocator is embedded shallowly: memory is a byte-addressed map
`Nat → Nat` (bytes are read modulo 256), multi-byte words are read and
written little-endian, and the global scalars of `mm.c` (`seg_lists`,
`mem_hp`, `mem_bp`) together with the region provider's break pointer are
carried in an explicit state record.  The unbounded loops of the C source
(free-list traversals) are translated as fuelled recursions; exhaustion of
the fuel (which can only happen on a cyclic chain, where the C loop
diverges) is signalled by an outer `Option.none`.

The region provider (`memlib`, whose source is not part of `src/`) is
modelled from the spec, see `mem_sbrk` and `mem_heap_hi` below.
-/

set_option maxRecDepth 2048

namespace Mm

/-- Byte-addressed memory. -/
abbrev Mem := Nat → Nat

/-- Read `n` bytes little-endian starting at address `a`. -/
def readBytes (m : Mem) (a : Nat) : Nat → Nat
  | 0 => 0
  | n + 1 => m a % 256 + 256 * readBytes m (a + 1) n

/-- Write the `n` low-order bytes of `v` little-endian starting at address `a`. -/
def writeBytes (m : Mem) (a n v : Nat) : Mem :=
  fun x => if a ≤ x ∧ x < a + n then v / 256 ^ (x - a) % 256 else m x

/-! ## Word access as used by `mm.c`

`GET`/`PUT` access a 4-byte `unsigned int`; `GET_PTR`/`PUT_PTR` access an
8-byte pointer (`GET_PTR_ADDR`/`PUT_PTR_ADDR` in the source). -/

/-- `GET(p)`: read a 4-byte word. -/
def GET (m : Mem) (p : Nat) : Nat := readBytes m p 4

/-- `PUT(p, val)`: write a 4-byte word. -/
def PUT (m : Mem) (p v : Nat) : Mem := writeBytes m p 4 v

/-- `GET_PTR_ADDR(p)`: read an 8-byte pointer. -/
def GET_PTR (m : Mem) (p : Nat) : Nat := readBytes m p 8

/-- `PUT_PTR_ADDR(p, val)`: write an 8-byte pointer. -/
def PUT_PTR (m : Mem) (p v : Nat) : Mem := writeBytes m p 8 v

/-! ## Constants and macros of `mm.c` -/

def WSIZE : Nat := 4

def DSIZE : Nat := 8

def ALIGNMENT : Nat := 8

def CHUNKSIZE : Nat := 2 ^ 12

def MIN_BLOCK_SIZE : Nat := 2 * DSIZE

def SEG_LIST_COUNT : Nat := 8

/-- `ALIGN(size)`: `((size) + (ALIGNMENT-1)) & ~0x7` in `size_t` (64-bit)
arithmetic; clearing the low three bits is division and multiplication by 8. -/
def ALIGN (size : Nat) : Nat := (size + 7) % 2 ^ 64 / 8 * 8

/-- `SIZE_T_SIZE`: `ALIGN(sizeof(size_t))` with `sizeof(size_t) = 8`. -/
def SIZE_T_SIZE : Nat := ALIGN 8

/-- `PACK(size, alloc)`: bitwise or of the size and the allocated flag. -/
def PACK (size alloc : Nat) : Nat := size ||| alloc

/-- `GET_SIZE(p)`: `GET(p) & ~0x7`.  On the 4-byte word read by `GET` the
mask `~0x7` clears the low three bits, i.e. rounds down to a multiple of 8. -/
def GET_SIZE (m : Mem) (p : Nat) : Nat := GET m p / 8 * 8

/-- `GET_ALLOC(p)`: `GET(p) & 0x1`. -/
def GET_ALLOC (m : Mem) (p : Nat) : Nat := GET m p % 2

/-- `GET_HEADER(p)`: the block header sits 4 bytes below the payload. -/
def GET_HEADER (p : Nat) : Nat := p - 4

/-- `GET_FOOTER(p)`: payload plus (size read from the header) minus 8. -/
def GET_FOOTER (m : Mem) (p : Nat) : Nat := p + GET_SIZE m (GET_HEADER p) - 8

/-- `GET_NEXT(p)`: the next block's payload. -/
def GET_NEXT (m : Mem) (p : Nat) : Nat := p + GET_SIZE m (p - 4)

/-- `GET_PREV(p)`: the previous block's payload, via its footer at `p - 8`. -/
def GET_PREV (m : Mem) (p : Nat) : Nat := p - GET_SIZE m (p - 8)

/-- `size_t` subtraction: `a - b` modulo `2 ^ 64`. -/
def sub64 (a b : Nat) : Nat := (a % 2 ^ 64 + 2 ^ 64 - b % 2 ^ 64) % 2 ^ 64

/-! ## Allocator state

The global scalars of `mm.c` plus the region provider's state.  `brk` is the
current break (end of the supplied region), `maxAddr` the point beyond which
the provider's backing store is exhausted. -/

structure MState where
  mem : Mem
  segLists : Nat
  memHp : Nat
  memBp : Nat
  brk : Nat
  maxAddr : Nat

/-- `INSIDE_HEAP(p)`: `p >= mem_hp && p < mem_bp`. -/
def INSIDE_HEAP (s : MState) (p : Nat) : Prop := s.memHp ≤ p ∧ p < s.memBp

instance (s : MState) (p : Nat) : Decidable (INSIDE_HEAP s p) :=
  inferInstanceAs (Decidable (s.memHp ≤ p ∧ p < s.memBp))

/-- Modelled from the spec: the Region Provider's `grow` operation
(`mem_sbrk` of `memlib`, whose source is not under `src/`): extends the
region monotonically and returns the address of the start of the new
extent, or fails — leaving the state unchanged — when the backing store is
exhausted. -/
def mem_sbrk (s : MState) (incr : Nat) : Option Nat × MState :=
  if s.brk + incr > s.maxAddr then (none, s)
  else (some s.brk, { s with brk := s.brk + incr })

/-- Modelled from the spec: the Region Provider's `currentHighAddress`
query (`mem_heap_hi` of `memlib`): the current end of the region. -/
def mem_heap_hi (s : MState) : Nat := s.brk

/-! ## The functions of `mm.c` -/

/-- `get_size_class`.  `int class = size/64` converts the 64-bit `size_t`
quotient to a 32-bit signed `int` (wrapping, as gcc does); the result is
then clamped into `[0, SEG_LIST_COUNT)`. -/
def get_size_class (size : Nat) : Nat :=
  let c0 : Int := (size / 64 % 2 ^ 32 : Nat)
  let c : Int := if c0 < 2 ^ 31 then c0 else c0 - 2 ^ 32
  if c ≥ SEG_LIST_COUNT then SEG_LIST_COUNT - 1
  else if c < 0 then 0
  else c.toNat

/-- The inner `for` loop of `get_fit`: follow the chain starting at `j`.
`some (some j)` is a fit, `some none` end of list without a fit, `none`
fuel exhaustion (the C loop diverges on a cyclic chain). -/
def get_fit_loop (s : MState) (size : Nat) : Nat → Nat → Option (Option Nat)
  | _, 0 => none
  | j, fuel + 1 =>
    if INSIDE_HEAP s j ∧ j ≠ 0 then
      if GET_ALLOC s.mem (GET_HEADER j) = 0 ∧ GET_SIZE s.mem (GET_HEADER j) ≥ size then
        some (some j)
      else get_fit_loop s size (GET_PTR s.mem j) fuel
    else some none

/-- The outer `while` loop of `get_fit`, scanning classes `i, i+1, …, 7`.
The second argument is structural fuel bounding the number of remaining
iterations; the loop guard `i < SEG_LIST_COUNT` is still tested on every
iteration, and the fuel `SEG_LIST_COUNT` supplied by `get_fit` can never
run out before the guard fails. -/
def get_fit_go (s : MState) (size : Nat) : Nat → Nat → Option (Option Nat)
  | _, 0 => some none
  | i, n + 1 =>
    if i < SEG_LIST_COUNT then
      match get_fit_loop s size (GET_PTR s.mem (s.segLists + 8 * i)) s.memBp with
      | none => none
      | some (some j) => some (some j)
      | some none => get_fit_go s size (i + 1) n
    else some none

/-- `get_fit`: first-fit search of the segregated lists, starting from the
size class of `size`. -/
def get_fit (s : MState) (size : Nat) : Option (Option Nat) :=
  get_fit_go s size (get_size_class size) SEG_LIST_COUNT

/-- `place`: write header and footer with the allocated bit and `size`.
The footer address is computed from the freshly written header. -/
def place (s : MState) (p size : Nat) : MState :=
  if p = 0 ∨ size = 0 then s
  else
    let m1 := PUT s.mem (GET_HEADER p) (PACK size 1)
    { s with mem := PUT m1 (GET_FOOTER m1 p) (PACK size 1) }

/-- `grow_heap`: extend the heap by `size` bytes and tag the new block free. -/
def grow_heap (s : MState) (size : Nat) : Option Nat × MState :=
  if size = 0 then (none, s)
  else
    match mem_sbrk s size with
    | (none, s1) => (none, s1)
    | (some ptr0, s1) =>
      let p := ptr0 + DSIZE
      let m1 := PUT s1.mem (GET_HEADER p) (PACK size 0)
      let m2 := PUT m1 (GET_FOOTER m1 p) (PACK size 0)
      (some p, { s1 with mem := m2, memBp := mem_heap_hi s1 })

/-- `seg_list_add`: push `p` on the head of its size class's list. -/
def seg_list_add (s : MState) (p : Nat) : MState :=
  if p = 0 then s
  else
    let class_size := get_size_class (GET_SIZE s.mem (GET_HEADER p))
    let head := GET_PTR s.mem (s.segLists + class_size * SIZE_T_SIZE)
    let m1 := if head ≠ 0 ∧ head ≠ p then PUT_PTR s.mem p head else PUT_PTR s.mem p 0
    { s with mem := PUT_PTR m1 (s.segLists + class_size * SIZE_T_SIZE) p }

/-- The `for` loop of `seg_list_remove`: walk the class list with trailing
pointer `k`; when `p` is found splice it out and clear its link. -/
def seg_list_remove_go (s : MState) (p : Nat) : Nat → Nat → Nat → Option Mem
  | _, _, 0 => none
  | k, j, fuel + 1 =>
    if INSIDE_HEAP s j ∧ j ≠ 0 then
      if p = j then
        let m1 :=
          if INSIDE_HEAP s (GET_PTR s.mem j) ∧ GET_PTR s.mem j ≠ 0 then
            PUT_PTR s.mem k (GET_PTR s.mem j)
          else PUT_PTR s.mem k 0
        some (PUT_PTR m1 p 0)
      else seg_list_remove_go s p j (GET_PTR s.mem j) fuel
    else some s.mem

/-- `seg_list_remove`: remove the free block `p` from its class's list. -/
def seg_list_remove (s : MState) (p : Nat) : Option MState :=
  let class_size := get_size_class (GET_SIZE s.mem (GET_HEADER p))
  match
    seg_list_remove_go s p (s.segLists + 8 * class_size)
      (GET_PTR s.mem (s.segLists + 8 * class_size)) s.memBp with
  | none => none
  | some m => some { s with mem := m }

/-- Lines 319–323 of `coalesce`: if the predecessor is eligible (in heap
and free, judged on the current memory), fold its size into the running
total (read before the removal), remove it from its list, and restart the
merged block at `GET_PREV(p)` (re-read after the removal, as the source
does).  Returns (state, start_p, free_size). -/
def coalesce_prev_step (s : MState) (p size : Nat) : Option (MState × Nat × Nat) :=
  if INSIDE_HEAP s (GET_PREV s.mem p) ∧
      GET_ALLOC s.mem (GET_HEADER (GET_PREV s.mem p)) = 0 then
    match seg_list_remove s (GET_PREV s.mem p) with
    | none => none
    | some s1 =>
      some (s1, GET_PREV s1.mem p,
        size + GET_SIZE s.mem (GET_HEADER (GET_PREV s.mem p)))
  else some (s, p, size)

/-- Lines 325–329 of `coalesce`: the successor branch.  Eligibility was
computed up front on the original memory `s0.mem` (line 315); the size
read and the removal re-evaluate `GET_NEXT(p)` on the current memory
`s1.mem`. -/
def coalesce_next_step (s0 : MState) (p : Nat) (s1 : MState) (fs1 : Nat) :
    Option (MState × Nat) :=
  if INSIDE_HEAP s0 (GET_NEXT s0.mem p) ∧
      GET_ALLOC s0.mem (GET_HEADER (GET_NEXT s0.mem p)) = 0 then
    match seg_list_remove s1 (GET_NEXT s1.mem p) with
    | none => none
    | some s2 => some (s2, fs1 + GET_SIZE s1.mem (GET_HEADER (GET_NEXT s1.mem p)))
  else some (s1, fs1)

/-- Lines 331–333 of `coalesce`: write the merged block's header and footer
(free, combined size) and push it onto its class's list. -/
def coalesce_merge (s2 : MState) (start_p free_size : Nat) : MState :=
  let m1 := PUT s2.mem (GET_HEADER start_p) (PACK free_size 0)
  let m2 := PUT m1 (GET_FOOTER m1 start_p) (PACK free_size 0)
  seg_list_add { s2 with mem := m2 } start_p

/-- `coalesce`: free the block at `p` of the given size, merging with each
eligible (in-heap and free) physical neighbour, then index the result. -/
def coalesce (s : MState) (p size : Nat) : Option MState :=
  if p = 0 ∨ size = 0 then some s
  else
    match coalesce_prev_step s p size with
    | none => none
    | some (s1, start_p, fs1) =>
      match coalesce_next_step s p s1 fs1 with
      | none => none
      | some (s2, free_size) => some (coalesce_merge s2 start_p free_size)

/-- `mm_free`. -/
def mm_free (s : MState) (p : Nat) : Option MState :=
  if p = 0 then some s
  else coalesce s p (GET_SIZE s.mem (GET_HEADER p))

/-- Lines 119–122 of `mm_malloc`: the block size computed for a request
(`ALIGN(size + DSIZE)`, raised to the 16-byte minimum — note
`size + MIN_BLOCK_SIZE - size` is always `MIN_BLOCK_SIZE`). -/
def blockSizeOf (size : Nat) : Nat :=
  let block_size := ALIGN (size + DSIZE)
  if block_size < MIN_BLOCK_SIZE then ALIGN (size + MIN_BLOCK_SIZE - size)
  else block_size

/-- Lines 127–134 of `mm_malloc`: the splitting branch.  The candidate is
removed from its list first, the carved prefix is placed, and the free
remainder (size `split_remainder`, computed from the pre-removal header)
gets its own tags — the remainder's payload address is computed from the
freshly placed header — and is indexed. -/
def malloc_split (s : MState) (fit_ptr block_size split_remainder : Nat) :
    Option (Option Nat × MState) :=
  match seg_list_remove s fit_ptr with
  | none => none
  | some s1 =>
    let s2 := place s1 fit_ptr block_size
    let new_ptr := GET_SIZE s2.mem (GET_HEADER fit_ptr) + fit_ptr
    let m1 := PUT s2.mem (GET_HEADER new_ptr) (PACK split_remainder 0)
    let m2 := PUT m1 (GET_FOOTER m1 new_ptr) (PACK split_remainder 0)
    some (some fit_ptr, seg_list_add { s2 with mem := m2 } new_ptr)

/-- Lines 135–137 of `mm_malloc`: the absorb (exact-fit) branch.  Note the
source calls `place` on the whole candidate *before* `seg_list_remove`. -/
def malloc_absorb (s : MState) (fit_ptr : Nat) : Option (Option Nat × MState) :=
  match seg_list_remove (place s fit_ptr (GET_SIZE s.mem (GET_HEADER fit_ptr))) fit_ptr with
  | none => none
  | some s2 => some (some fit_ptr, s2)

/-- Lines 140–145 of `mm_malloc`: the heap-growth branch. -/
def malloc_grow (s : MState) (block_size : Nat) : Option (Option Nat × MState) :=
  match grow_heap s block_size with
  | (none, s1) => some (none, s1)
  | (some fit_ptr, s1) => some (some fit_ptr, place s1 fit_ptr block_size)

/-- `mm_malloc`. -/
def mm_malloc (s : MState) (size : Nat) : Option (Option Nat × MState) :=
  if size = 0 then some (none, s)
  else
    match get_fit s (blockSizeOf size) with
    | none => none
    | some (some fit_ptr) =>
      if sub64 (GET_SIZE s.mem (GET_HEADER fit_ptr)) (blockSizeOf size) ≥
          MIN_BLOCK_SIZE then
        malloc_split s fit_ptr (blockSizeOf size)
          (sub64 (GET_SIZE s.mem (GET_HEADER fit_ptr)) (blockSizeOf size))
      else malloc_absorb s fit_ptr
    | some none => malloc_grow s (blockSizeOf size)

/-- `memcpy` over the byte map (the C call requires the regions not to
overlap; the model reads all source bytes from the pre-copy memory). -/
def memcpy (m : Mem) (dst src n : Nat) : Mem :=
  fun x => if dst ≤ x ∧ x < dst + n then m (src + (x - dst)) else m x

/-- Lines 194–204 of `mm_realloc`: after a successful allocation, read the
old block's payload capacity from its header (on the post-allocation
memory, as the source does), clamp the copy length by the requested size,
copy, free the old block, and refresh `mem_bp`. -/
def realloc_copy (s1 : MState) (ptr new_ptr size : Nat) :
    Option (Option Nat × MState) :=
  let copySize0 := sub64 (GET_SIZE s1.mem (GET_HEADER ptr)) DSIZE
  let copySize := if size < copySize0 then size else copySize0
  match mm_free { s1 with mem := memcpy s1.mem new_ptr ptr copySize } ptr with
  | none => none
  | some s2 => some (some new_ptr, { s2 with memBp := mem_heap_hi s2 })

/-- `mm_realloc`. -/
def mm_realloc (s : MState) (ptr size : Nat) : Option (Option Nat × MState) :=
  if ptr = 0 then mm_malloc s size
  else if size = 0 then
    match mm_free s ptr with
    | none => none
    | some s1 => some (none, s1)
  else
    match mm_malloc s size with
    | none => none
    | some (none, s1) => some (none, s1)
    | some (some new_ptr, s1) => realloc_copy s1 ptr new_ptr size

/-- The `for` loop of `mm_init`: zero the `count` first table slots (4-byte
`PUT` into each 8-byte slot, as in the source). -/
def initSlots (m : Mem) (base : Nat) : Nat → Mem
  | 0 => m
  | i + 1 => PUT (initSlots m base i) (base + SIZE_T_SIZE * i) 0

/-- `mm_init`: reserve the table plus one boundary block, zero the table
slots, and write the permanently allocated sentinel block. -/
def mm_init (s : MState) : Int × MState :=
  let seg_lists_size := SIZE_T_SIZE * SEG_LIST_COUNT
  match mem_sbrk s (ALIGN seg_lists_size + MIN_BLOCK_SIZE) with
  | (none, s1) => (-1, s1)
  | (some seg_lists, s1) =>
    let m1 := initSlots s1.mem seg_lists SEG_LIST_COUNT
    let mem_hp := seg_lists + seg_lists_size + DSIZE
    let m2 := PUT m1 (GET_HEADER mem_hp) (PACK MIN_BLOCK_SIZE 1)
    let m3 := PUT m2 (GET_FOOTER m2 mem_hp) (PACK MIN_BLOCK_SIZE 1)
    let s2 := { s1 with mem := m3, segLists := seg_lists, memHp := mem_hp, memBp := mem_heap_hi s1 }
    (0, s2)

/-- The state before `mm_init`: the C globals are zero-initialised, the
provider owns `[base, maxAddr)` and has supplied nothing yet. -/
def initialState (base maxAddr : Nat) : MState :=
  { mem := fun _ => 0, segLists := 0, memHp := 0, memBp := 0,
    brk := base, maxAddr := maxAddr }

/-! ## Abstraction: parsed block lists and represented free-list chains -/

/-- A parsed block: payload address, block size, allocated flag.  The block
occupies the byte range `[p - 4, p + size - 4)`: header at `p - 4`, payload
at `p`, footer at `p + size - 8`. -/
abbrev Blk := Nat × Nat × Nat

/-- Payload address of a block. -/
def blkPtr (b : Blk) : Nat := b.1

/-- Size of a block. -/
def blkSize (b : Blk) : Nat := b.2.1

/-- Allocated flag of a block. -/
def blkAlloc (b : Blk) : Nat := b.2.2

/-- Scan the boundary-tagged blocks of `[p - 4, stop - 4)` by hopping header
sizes, producing payload/size/alloc triples; fails on a malformed layout. -/
def parseFrom (m : Mem) (stop : Nat) : Nat → Nat → Option (List Blk)
  | p, 0 => if p = stop then some [] else none
  | p, fuel + 1 =>
    if p = stop then some []
    else
      let sz := GET_SIZE m (GET_HEADER p)
      if 16 ≤ sz ∧ p + sz ≤ stop then
        match parseFrom m stop (p + sz) fuel with
        | some bs => some ((p, sz, GET_ALLOC m (GET_HEADER p)) :: bs)
        | none => none
      else none

/-- The canonical decomposition of the heap into blocks: from the sentinel's
payload `mem_hp` to the end of the last block at `brk + 8`. -/
def parseBlocks (s : MState) : Option (List Blk) :=
  parseFrom s.mem (s.brk + 8) s.memHp s.brk

/-- Follow a free-list chain from `j` until the null/out-of-bounds
terminator, collecting the visited payload addresses; `none` on fuel
exhaustion (cyclic chain). -/
def chainFrom (s : MState) : Nat → Nat → Option (List Nat)
  | _, 0 => none
  | j, fuel + 1 =>
    if INSIDE_HEAP s j ∧ j ≠ 0 then
      match chainFrom s (GET_PTR s.mem j) fuel with
      | some l => some (j :: l)
      | none => none
    else some []

/-- The members of size class `i`, as traversed from the table slot. -/
def classList (s : MState) (i : Nat) : Option (List Nat) :=
  chainFrom s (GET_PTR s.mem (s.segLists + 8 * i)) s.memBp

/-- The fit finder as claim C6 describes it (the spec side of the
refinement, not translated from the source): scan the member list of one
class front-to-back for the first free block whose size is at least the
request, then each higher class in ascending order; a class's member list
is what the traversal visits, stopping at a null or out-of-heap-bounds
pointer (`classList`). -/
def specFitGo (s : MState) (size : Nat) : Nat → Nat → Option (Option Nat)
  | _, 0 => some none
  | i, fuel + 1 =>
    if i < SEG_LIST_COUNT then
      match classList s i with
      | none => none
      | some l =>
        match l.find? (fun j => decide (GET_ALLOC s.mem (GET_HEADER j) = 0 ∧
            GET_SIZE s.mem (GET_HEADER j) ≥ size)) with
        | some f => some (some f)
        | none => specFitGo s size (i + 1) fuel
    else some none

/-- The whole spec-described search of claim C6: start at class
`min(size / 64, N - 1)` and scan upward. -/
def specFit (s : MState) (size : Nat) : Option (Option Nat) :=
  specFitGo s size (min (size / 64) (SEG_LIST_COUNT - 1)) SEG_LIST_COUNT

/-- `ChainRep s x l`: the chain of embedded `next` links starting at `x`
stays inside the heap, terminates at the null sentinel, and visits exactly
the payloads in `l`.  (This is the invariant shape of a well-formed class
list; a chain ending at a non-null out-of-bounds pointer or cycling has no
`ChainRep`.) -/
inductive ChainRep (s : MState) : Nat → List Nat → Prop
  | nil : ChainRep s 0 []
  | cons (x : Nat) (l : List Nat) (h : INSIDE_HEAP s x) (hx : x ≠ 0)
      (ht : ChainRep s (GET_PTR s.mem x) l) : ChainRep s x (x :: l)

/-- `BlocksRep m p stop bs`: the bytes `[p - 4, stop - 4)` decompose into
the consecutive, well-tagged blocks `bs` (sizes at least 16 and 8-aligned,
header and footer both holding `size + alloc`). -/
inductive BlocksRep (m : Mem) : Nat → Nat → List Blk → Prop
  | nil (p : Nat) : BlocksRep m p p []
  | cons (p stop sz a : Nat) (bs : List Blk)
      (hsz : 16 ≤ sz) (h8 : sz % 8 = 0) (ha : a ≤ 1)
      (hhdr : GET m (p - 4) = sz + a)
      (hftr : GET m (p + sz - 8) = sz + a)
      (ht : BlocksRep m (p + sz) stop bs) :
      BlocksRep m p stop ((p, sz, a) :: bs)

/-! ## Reachable allocator states

`Reachable s L` says: state `s` arises from a successful `mm_init` on a
fresh region (8-aligned base, provider backing store below `2 ^ 32` so
that block sizes fit the 32-bit boundary tags) followed by any sequence of
`mm_malloc` / `mm_free` / `mm_realloc` calls respecting the documented
preconditions (`free`/`realloc` only on null or live pointers, resize
requests small enough that the size arithmetic `ALIGN(size + DSIZE)`
cannot wrap around `2 ^ 64` — a wrapped resize under-allocates and the
copy then overruns the new block), plus arbitrary caller writes into live
payloads.  `L` is the list of live (handed-out, not yet released) payload
pointers. -/

/-- Add an optional freshly returned pointer to the live list. -/
def consOpt (r : Option Nat) (L : List Nat) : List Nat :=
  match r with
  | some q => q :: L
  | none => L

/-- Live-list update for `mm_realloc p n`: per §4.5, null `p` behaves as
allocation, `n = 0` as release, otherwise the old pointer dies and the
returned one (if any) is born. -/
def reallocLive (p n : Nat) (r : Option Nat) (L : List Nat) : List Nat :=
  if p = 0 then consOpt r L
  else if n = 0 then L.erase p
  else
    match r with
    | some q => q :: L.erase p
    | none => L

/-- A caller write of byte `v` at offset `i` into the payload of `p`. -/
def storeByte (s : MState) (p i v : Nat) : MState :=
  { s with mem := fun x => if x = p + i then v % 256 else s.mem x }

inductive Reachable : MState → List Nat → Prop
  | init (base maxA : Nat) (h8 : base % 8 = 0) (hm : maxA < 2 ^ 32)
      (h : (mm_init (initialState base maxA)).1 = 0) :
      Reachable (mm_init (initialState base maxA)).2 []
  | malloc (s : MState) (L : List Nat) (n : Nat) (hr : Reachable s L)
      (h : (mm_malloc s n).isSome = true) :
      Reachable ((mm_malloc s n).get h).2 (consOpt ((mm_malloc s n).get h).1 L)
  | free (s : MState) (L : List Nat) (p : Nat) (hr : Reachable s L)
      (hp : p = 0 ∨ p ∈ L) (h : (mm_free s p).isSome = true) :
      Reachable ((mm_free s p).get h) (L.erase p)
  | realloc (s : MState) (L : List Nat) (p n : Nat) (hr : Reachable s L)
      (hp : p = 0 ∨ p ∈ L) (hn : n ≤ 2 ^ 63)
      (h : (mm_realloc s p n).isSome = true) :
      Reachable ((mm_realloc s p n).get h).2
        (reallocLive p n ((mm_realloc s p n).get h).1 L)
  | store (s : MState) (L : List Nat) (p i v : Nat) (hr : Reachable s L)
      (hp : p ∈ L) (hi : i < GET_SIZE s.mem (GET_HEADER p) - 8) :
      Reachable (storeByte s p i v) L

/-- Address of the class-`i` slot of the segregated table. -/
def slotAddr (s : MState) (i : Nat) : Nat := s.segLists + 8 * i

/-- The head pointer stored in the class-`i` slot. -/
def slotHead (s : MState) (i : Nat) : Nat := GET_PTR s.mem (slotAddr s i)

/-- Bytes of every allocated block (tags and payload) agree between two
memories. -/
def allocBytesEq (bs : List Blk) (m m' : Mem) : Prop :=
  ∀ b ∈ bs, blkAlloc b = 1 →
    ∀ x, blkPtr b - 4 ≤ x → x < blkPtr b + blkSize b - 4 → m' x = m x

/-- The core well-formedness carried through the intermediate states of an
operation: scalar relations, the tagged block decomposition `bs`, and
represented class lists `fl` whose members are free blocks of the right
class.  (Unlike `InvAt` it does not demand that *every* free block is
indexed, nor the no-adjacent-free-blocks property — both are temporarily
broken inside `mm_malloc`/`coalesce`.) -/
structure SegCtx (s : MState) (bs : List Blk) (fl : Nat → List Nat) : Prop where
  bp_eq : s.memBp = s.brk
  hp_eq : s.memHp = s.segLists + 72
  hp_align : s.memHp % 8 = 0
  max_lt : s.maxAddr < 2 ^ 32
  brk_le : s.brk ≤ s.maxAddr
  blocks : BlocksRep s.mem s.memHp (s.brk + 8) bs
  sentinel : ∃ rest, bs = (s.memHp, 16, 1) :: rest
  chains : ∀ i, i < 8 → ChainRep s (slotHead s i) (fl i)
  chain_mem : ∀ i, i < 8 → ∀ q ∈ fl i, ∃ sz, (q, sz, 0) ∈ bs ∧ get_size_class sz = i

/-- Pointwise update of the class lists at index `i`. -/
def flUpd (fl : Nat → List Nat) (i : Nat) (l : List Nat) : Nat → List Nat :=
  fun j => if j = i then l else fl j

/-- The full well-formedness invariant of a reachable allocator state:
`bs` is the decomposition of the heap `[mem_hp - 4, brk + 4)` into
boundary-tagged blocks, `fl i` the represented member list of class `i`,
and `L` the live (handed-out) payload pointers. -/
structure InvAt (s : MState) (L : List Nat) (bs : List Blk)
    (fl : Nat → List Nat) extends SegCtx s bs fl : Prop where
  no_adj_free : List.Chain' (fun b c => blkAlloc b = 1 ∨ blkAlloc c = 1) bs
  free_in_chain : ∀ b ∈ bs, blkAlloc b = 0 → blkPtr b ∈ fl (get_size_class (blkSize b))
  live_mem : ∀ p ∈ L, p ≠ s.memHp ∧ ∃ sz, (p, sz, 1) ∈ bs
  live_nodup : L.Nodup

/-- A state is well formed when some block list and class lists witness it. -/
def Inv (s : MState) (L : List Nat) : Prop := ∃ bs fl, InvAt s L bs fl

/-! ## Concrete traces used by witnesses and counterexamples -/

/-- The state after `mm_init` on a fresh region `[0, maxA)`. -/
def trInit (maxA : Nat) : MState := (mm_init (initialState 0 maxA)).2

/-- Run `mm_malloc`, defaulting to no-op on model divergence (never hit on
the concrete traces below). -/
def trMalloc (s : MState) (n : Nat) : Option Nat × MState :=
  (mm_malloc s n).getD (none, s)

/-- Run `mm_free`, defaulting likewise. -/
def trFree (s : MState) (p : Nat) : MState := (mm_free s p).getD s

/-- init on a 1 KiB region: table at 0, sentinel payload 72, break 80. -/
def exS0 : MState := trInit 1024

/-- … then `mm_malloc 8` hands out payload 88 (16-byte block). -/
def exS1 : MState := (trMalloc exS0 8).2

/-- … then a second `mm_malloc 8` hands out payload 104. -/
def exS2 : MState := (trMalloc exS1 8).2

/-- … then `mm_free 88`: block 88 (guarded by allocated neighbours) becomes
free and heads class 0's list. -/
def exS3 : MState := trFree exS2 88

/-- init on a region of exactly 80 bytes: the table and sentinel fit, but
the provider can never grow again. -/
def exSfull : MState := trInit 80


/-! ## Lemma toolkit -/

theorem readBytes_lt (m : Mem) (a : Nat) : ∀ n, readBytes m a n < 256 ^ n
  | 0 => by simp [readBytes]
  | n + 1 => by
    have h1 : m a % 256 < 256 := Nat.mod_lt _ (by norm_num)
    have h2 := readBytes_lt m (a + 1) n
    have : 256 ^ (n + 1) = 256 * 256 ^ n := by ring
    rw [readBytes, this]
    omega

theorem readBytes_congr {m1 m2 : Mem} {a : Nat} :
    ∀ {n : Nat}, (∀ x, a ≤ x → x < a + n → m1 x = m2 x) →
      readBytes m1 a n = readBytes m2 a n := by
  intro n
  induction n generalizing a with
  | zero => intro _; simp [readBytes]
  | succ n ih =>
    intro h
    rw [readBytes, readBytes, h a (le_refl a) (by omega),
      ih (fun x hx1 hx2 => h x (by omega) (by omega))]

theorem writeBytes_outside {a n x : Nat} (m : Mem) (v : Nat)
    (h : x < a ∨ a + n ≤ x) : writeBytes m a n v x = m x := by
  unfold writeBytes
  rw [if_neg]
  omega

theorem writeBytes_inside {a n x : Nat} (m : Mem) (v : Nat)
    (h1 : a ≤ x) (h2 : x < a + n) :
    writeBytes m a n v x = v / 256 ^ (x - a) % 256 := by
  unfold writeBytes
  rw [if_pos ⟨h1, h2⟩]

theorem readBytes_writeBytes_disjoint {a n a' n' : Nat} (m : Mem) (v : Nat)
    (h : a' + n' ≤ a ∨ a + n ≤ a') :
    readBytes (writeBytes m a n v) a' n' = readBytes m a' n' :=
  readBytes_congr (fun x hx1 hx2 => writeBytes_outside m v (by omega))

theorem readBytes_writeBytes_sub (m : Mem) (a n v : Nat) :
    ∀ (n' a' : Nat), a ≤ a' → a' + n' ≤ a + n →
      readBytes (writeBytes m a n v) a' n' = v / 256 ^ (a' - a) % 256 ^ n' := by
  intro n'
  induction n' with
  | zero => intro a' _ _; simp [readBytes, Nat.mod_one]
  | succ n' ih =>
    intro a' h1 h2
    rw [readBytes, writeBytes_inside m v h1 (by omega),
      ih (a' + 1) (by omega) (by omega)]
    have e1 : v / 256 ^ (a' + 1 - a) = v / 256 ^ (a' - a) / 256 := by
      rw [Nat.div_div_eq_div_mul]
      congr 1
      rw [← pow_succ]
      congr 1
      omega
    rw [e1]
    have e2 : (256 : Nat) ^ (n' + 1) = 256 * 256 ^ n' := by ring
    rw [e2, Nat.mod_mul]
    have e3 : v / 256 ^ (a' - a) % 256 % 256 = v / 256 ^ (a' - a) % 256 :=
      Nat.mod_mod_of_dvd _ dvd_rfl
    omega

theorem readBytes_writeBytes_eq (m : Mem) (a n v : Nat) :
    readBytes (writeBytes m a n v) a n = v % 256 ^ n := by
  rw [readBytes_writeBytes_sub m a n v n a (le_refl a) (le_refl _)]
  simp

theorem sub64_eq_sub {a b : Nat} (h : b ≤ a) (ha : a < 2 ^ 64) :
    sub64 a b = a - b := by
  unfold sub64
  have hb : b < 2 ^ 64 := lt_of_le_of_lt h ha
  rw [Nat.mod_eq_of_lt ha, Nat.mod_eq_of_lt hb]
  omega

/-! ## Basic word-access lemmas -/

theorem GET_lt (m : Mem) (p : Nat) : GET m p < 2 ^ 32 := by
  have := readBytes_lt m p 4
  norm_num [GET] at this ⊢
  exact this

theorem GET_PTR_lt (m : Mem) (p : Nat) : GET_PTR m p < 2 ^ 64 := by
  have := readBytes_lt m p 8
  norm_num [GET_PTR] at this ⊢
  exact this

theorem GET_PUT (m : Mem) (p v : Nat) : GET (PUT m p v) p = v % 2 ^ 32 := by
  have := readBytes_writeBytes_eq m p 4 v
  norm_num [GET, PUT] at this ⊢
  exact this

theorem GET_PUT_out {p q : Nat} (m : Mem) (v : Nat) (h : q + 4 ≤ p ∨ p + 4 ≤ q) :
    GET (PUT m p v) q = GET m q :=
  readBytes_writeBytes_disjoint m v h

theorem GET_PUT_PTR_out {p q : Nat} (m : Mem) (v : Nat) (h : q + 4 ≤ p ∨ p + 8 ≤ q) :
    GET (PUT_PTR m p v) q = GET m q :=
  readBytes_writeBytes_disjoint m v h

theorem GET_PTR_PUT_PTR (m : Mem) (p v : Nat) :
    GET_PTR (PUT_PTR m p v) p = v % 2 ^ 64 := by
  have := readBytes_writeBytes_eq m p 8 v
  norm_num [GET_PTR, PUT_PTR] at this ⊢
  exact this

theorem GET_PTR_PUT_PTR_out {p q : Nat} (m : Mem) (v : Nat)
    (h : q + 8 ≤ p ∨ p + 8 ≤ q) : GET_PTR (PUT_PTR m p v) q = GET_PTR m q :=
  readBytes_writeBytes_disjoint m v h

theorem GET_PTR_PUT_out {p q : Nat} (m : Mem) (v : Nat)
    (h : q + 8 ≤ p ∨ p + 4 ≤ q) : GET_PTR (PUT m p v) q = GET_PTR m q :=
  readBytes_writeBytes_disjoint m v h

theorem lor_one_even (s : Nat) (h : s % 2 = 0) : s ||| 1 = s + 1 := by
  apply Nat.eq_of_testBit_eq
  intro i
  cases i with
  | zero =>
    simp [Nat.testBit_lor, Nat.testBit_zero]
    omega
  | succ i =>
    rw [Nat.testBit_lor, Nat.testBit_succ, Nat.testBit_succ, Nat.testBit_succ]
    have h1 : (s + 1) / 2 = s / 2 := by omega
    rw [h1]
    norm_num

/-- On an 8-aligned size and a one-bit flag, `PACK` is addition. -/
theorem PACK_eq {sz a : Nat} (h8 : sz % 8 = 0) (ha : a ≤ 1) :
    PACK sz a = sz + a := by
  unfold PACK
  interval_cases a
  · simp
  · exact lor_one_even sz (by omega)

theorem GET_SIZE_of_tag {m : Mem} {p sz a : Nat} (h : GET m p = sz + a)
    (h8 : sz % 8 = 0) (ha : a ≤ 1) : GET_SIZE m p = sz := by
  unfold GET_SIZE
  rw [h]
  omega

theorem GET_ALLOC_of_tag {m : Mem} {p sz a : Nat} (h : GET m p = sz + a)
    (h8 : sz % 8 = 0) (ha : a ≤ 1) : GET_ALLOC m p = a := by
  unfold GET_ALLOC
  rw [h]
  omega

/-! ## Structural lemmas for `BlocksRep` -/

theorem BlocksRep.start_le {m : Mem} {p stop : Nat} {bs : List Blk}
    (h : BlocksRep m p stop bs) : p ≤ stop := by
  induction h with
  | nil => exact le_refl _
  | cons p stop sz a bs hsz h8 ha hhdr hftr ht ih => omega

theorem BlocksRep.nil_iff {m : Mem} {p stop : Nat} :
    BlocksRep m p stop [] ↔ p = stop := by
  constructor
  · intro h
    cases h
    rfl
  · intro h
    subst h
    exact BlocksRep.nil p

theorem BlocksRep.cons_iff {m : Mem} {p stop : Nat} {b : Blk} {bs : List Blk} :
    BlocksRep m p stop (b :: bs) ↔
      blkPtr b = p ∧ 16 ≤ blkSize b ∧ blkSize b % 8 = 0 ∧ blkAlloc b ≤ 1 ∧
      GET m (p - 4) = blkSize b + blkAlloc b ∧
      GET m (p + blkSize b - 8) = blkSize b + blkAlloc b ∧
      BlocksRep m (p + blkSize b) stop bs := by
  constructor
  · intro h
    cases h with
    | cons p stop sz a bs hsz h8 ha hhdr hftr ht =>
      exact ⟨rfl, hsz, h8, ha, hhdr, hftr, ht⟩
  · rcases b with ⟨q, sz, a⟩
    rintro ⟨rfl, hsz, h8, ha, hhdr, hftr, ht⟩
    exact BlocksRep.cons _ _ _ _ _ hsz h8 ha hhdr hftr ht

theorem BlocksRep.mem_bounds {m : Mem} {p stop : Nat} {bs : List Blk} :
    BlocksRep m p stop bs →
    ∀ b ∈ bs, p ≤ blkPtr b ∧ blkPtr b + blkSize b ≤ stop ∧ 16 ≤ blkSize b ∧
      blkSize b % 8 = 0 ∧ blkAlloc b ≤ 1 ∧
      GET m (blkPtr b - 4) = blkSize b + blkAlloc b ∧
      GET m (blkPtr b + blkSize b - 8) = blkSize b + blkAlloc b := by
  induction bs generalizing p with
  | nil => intro _ b hb; cases hb
  | cons c bs ih =>
    intro h b hb
    rw [BlocksRep.cons_iff] at h
    obtain ⟨hcp, hsz, h8, ha, hhdr, hftr, ht⟩ := h
    have hse := ht.start_le
    rcases List.mem_cons.mp hb with rfl | hb
    · rw [hcp]
      exact ⟨le_refl _, by omega, hsz, h8, ha, hhdr, hftr⟩
    · have := ih ht b hb
      exact ⟨by omega, this.2.1, this.2.2.1, this.2.2.2.1, this.2.2.2.2.1,
        this.2.2.2.2.2.1, this.2.2.2.2.2.2⟩

theorem BlocksRep.align {m : Mem} {p stop : Nat} {bs : List Blk} :
    BlocksRep m p stop bs → p % 8 = 0 → ∀ b ∈ bs, blkPtr b % 8 = 0 := by
  induction bs generalizing p with
  | nil => intro _ _ b hb; cases hb
  | cons c bs ih =>
    intro h hp b hb
    rw [BlocksRep.cons_iff] at h
    obtain ⟨hcp, hsz, h8, ha, hhdr, hftr, ht⟩ := h
    rcases List.mem_cons.mp hb with rfl | hb
    · rw [hcp]; exact hp
    · exact ih ht (by omega) b hb

theorem BlocksRep.append_iff {m : Mem} {stop : Nat} {bs1 bs2 : List Blk} :
    ∀ {p : Nat}, BlocksRep m p stop (bs1 ++ bs2) ↔
      ∃ q, BlocksRep m p q bs1 ∧ BlocksRep m q stop bs2 := by
  induction bs1 with
  | nil =>
    intro p
    constructor
    · intro h
      exact ⟨p, BlocksRep.nil p, h⟩
    · rintro ⟨q, h1, h2⟩
      rw [BlocksRep.nil_iff] at h1
      rw [h1]
      exact h2
  | cons c bs1 ih =>
    intro p
    constructor
    · intro h
      rw [List.cons_append, BlocksRep.cons_iff] at h
      obtain ⟨hcp, hsz, h8, ha, hhdr, hftr, ht⟩ := h
      obtain ⟨q, hq1, hq2⟩ := ih.mp ht
      exact ⟨q, BlocksRep.cons_iff.mpr ⟨hcp, hsz, h8, ha, hhdr, hftr, hq1⟩, hq2⟩
    · rintro ⟨q, h1, h2⟩
      rw [BlocksRep.cons_iff] at h1
      obtain ⟨hcp, hsz, h8, ha, hhdr, hftr, ht⟩ := h1
      rw [List.cons_append, BlocksRep.cons_iff]
      exact ⟨hcp, hsz, h8, ha, hhdr, hftr, ih.mpr ⟨q, ht, h2⟩⟩

/-- Frame: a memory agreeing on the byte range of the represented blocks
represents them as well. -/
theorem BlocksRep.frame {m m' : Mem} {stop : Nat} {bs : List Blk} :
    ∀ {p : Nat}, BlocksRep m p stop bs → 4 ≤ p →
      (∀ x, p - 4 ≤ x → x < stop - 4 → m' x = m x) → BlocksRep m' p stop bs := by
  induction bs with
  | nil =>
    intro p h _ _
    rw [BlocksRep.nil_iff] at h
    rw [h]
    exact BlocksRep.nil _
  | cons c bs ih =>
    intro p h hp hagree
    rw [BlocksRep.cons_iff] at h
    obtain ⟨hcp, hsz, h8, ha, hhdr, hftr, ht⟩ := h
    have hse := ht.start_le
    rw [BlocksRep.cons_iff]
    refine ⟨hcp, hsz, h8, ha, ?_, ?_, ih ht (by omega)
      (fun x h1 h2 => hagree x (by omega) h2)⟩
    · rw [show GET m' (p - 4) = GET m (p - 4) from
        readBytes_congr (fun x hx1 hx2 => hagree x (by omega) (by omega))]
      exact hhdr
    · rw [show GET m' (p + blkSize c - 8) = GET m (p + blkSize c - 8) from
        readBytes_congr (fun x hx1 hx2 => hagree x (by omega) (by omega))]
      exact hftr

/-! ## Structural lemmas for `ChainRep` -/

theorem ChainRep.chain_nil_iff {s : MState} {x : Nat} : ChainRep s x [] ↔ x = 0 := by
  constructor
  · intro h
    cases h
    rfl
  · intro h
    rw [h]
    exact ChainRep.nil

theorem ChainRep.chain_cons_iff {s : MState} {x y : Nat} {l : List Nat} :
    ChainRep s x (y :: l) ↔
      x = y ∧ INSIDE_HEAP s x ∧ x ≠ 0 ∧ ChainRep s (GET_PTR s.mem x) l := by
  constructor
  · intro h
    cases h with
    | cons x l hin hx ht => exact ⟨rfl, hin, hx, ht⟩
  · rintro ⟨rfl, hin, hx, ht⟩
    exact ChainRep.cons x l hin hx ht

theorem ChainRep.unique {s : MState} {l1 : List Nat} :
    ∀ {x : Nat} {l2 : List Nat}, ChainRep s x l1 → ChainRep s x l2 → l1 = l2 := by
  induction l1 with
  | nil =>
    intro x l2 h1 h2
    rw [ChainRep.chain_nil_iff] at h1
    cases l2 with
    | nil => rfl
    | cons y l2 =>
      rw [ChainRep.chain_cons_iff] at h2
      exact absurd h1 h2.2.2.1
  | cons y l1 ih =>
    intro x l2 h1 h2
    rw [ChainRep.chain_cons_iff] at h1
    obtain ⟨rfl, hin, hx, ht⟩ := h1
    cases l2 with
    | nil =>
      rw [ChainRep.chain_nil_iff] at h2
      exact absurd h2 hx
    | cons z l2 =>
      rw [ChainRep.chain_cons_iff] at h2
      obtain ⟨rfl, _, _, ht2⟩ := h2
      rw [ih ht ht2]

theorem ChainRep.mem_props {s : MState} {l : List Nat} :
    ∀ {x : Nat}, ChainRep s x l → ∀ q ∈ l, INSIDE_HEAP s q ∧ q ≠ 0 := by
  induction l with
  | nil => intro x _ q hq; cases hq
  | cons y l ih =>
    intro x h q hq
    rw [ChainRep.chain_cons_iff] at h
    obtain ⟨rfl, hin, hx, ht⟩ := h
    rcases List.mem_cons.mp hq with rfl | hq
    · exact ⟨hin, hx⟩
    · exact ih ht q hq

theorem ChainRep.mem_suffix {s : MState} {l : List Nat} :
    ∀ {x q : Nat}, ChainRep s x l → q ∈ l →
      ∃ t, ChainRep s q (q :: t) ∧ t.length < l.length := by
  induction l with
  | nil => intro x q _ hq; cases hq
  | cons y l ih =>
    intro x q h hq
    have h' := h
    rw [ChainRep.chain_cons_iff] at h'
    obtain ⟨rfl, hin, hx, ht⟩ := h'
    rcases List.mem_cons.mp hq with rfl | hq
    · exact ⟨l, h, by simp⟩
    · obtain ⟨t, h1, h2⟩ := ih ht hq
      exact ⟨t, h1, by simp; omega⟩

theorem ChainRep.nodup {s : MState} {l : List Nat} :
    ∀ {x : Nat}, ChainRep s x l → l.Nodup := by
  induction l with
  | nil => intro x _; exact List.nodup_nil
  | cons y l ih =>
    intro x h
    have h' := h
    rw [ChainRep.chain_cons_iff] at h'
    obtain ⟨rfl, hin, hx, ht⟩ := h'
    rw [List.nodup_cons]
    refine ⟨?_, ih ht⟩
    intro hmem
    obtain ⟨t, h1, h2⟩ := ChainRep.mem_suffix ht hmem
    have heq := ChainRep.unique h h1
    have hte : l = t := by injection heq
    rw [hte] at h2
    exact absurd h2 (lt_irrefl _)

/-- Frame: a state agreeing on the link cells of a chain's members keeps
representing the chain, provided bounds still contain the members. -/
theorem ChainRep.chain_frame {s s' : MState} {l : List Nat} :
    ∀ {x : Nat}, ChainRep s x l →
      (∀ q ∈ l, GET_PTR s'.mem q = GET_PTR s.mem q) →
      (∀ q ∈ l, INSIDE_HEAP s' q) → ChainRep s' x l := by
  induction l with
  | nil =>
    intro x h _ _
    rw [ChainRep.chain_nil_iff] at h ⊢
    exact h
  | cons y l ih =>
    intro x h hlinks hin
    rw [ChainRep.chain_cons_iff] at h ⊢
    obtain ⟨rfl, hi, hx, ht⟩ := h
    refine ⟨rfl, hin x (by simp), hx, ?_⟩
    rw [hlinks x (by simp)]
    exact ih ht (fun q hq => hlinks q (by simp [hq]))
      (fun q hq => hin q (by simp [hq]))

/-! ## Correspondence between representations and the fuelled code -/

theorem chainFrom_eq {s : MState} {l : List Nat} :
    ∀ {x fuel : Nat}, ChainRep s x l → l.length < fuel →
      chainFrom s x fuel = some l := by
  induction l with
  | nil =>
    intro x fuel h hf
    rw [ChainRep.chain_nil_iff] at h
    subst h
    cases fuel with
    | zero => cases hf
    | succ fuel =>
      unfold chainFrom
      rw [if_neg (by simp)]
  | cons y l ih =>
    intro x fuel h hf
    rw [ChainRep.chain_cons_iff] at h
    obtain ⟨rfl, hin, hx, ht⟩ := h
    cases fuel with
    | zero => cases hf
    | succ fuel =>
      unfold chainFrom
      rw [if_pos ⟨hin, hx⟩, ih ht (by simp at hf; omega)]

theorem BlocksRep.length_bound {m : Mem} {stop : Nat} {bs : List Blk} :
    ∀ {p : Nat}, BlocksRep m p stop bs → p + 16 * bs.length ≤ stop := by
  induction bs with
  | nil =>
    intro p h
    rw [BlocksRep.nil_iff] at h
    simp [h]
  | cons c bs ih =>
    intro p h
    rw [BlocksRep.cons_iff] at h
    obtain ⟨hcp, hsz, h8, ha, hhdr, hftr, ht⟩ := h
    have := ih ht
    simp only [List.length_cons]
    omega

theorem BlocksRep.parseFrom_eq {m : Mem} {stop : Nat} {bs : List Blk} :
    ∀ {p fuel : Nat}, BlocksRep m p stop bs → bs.length ≤ fuel → p < stop →
      parseFrom m stop p fuel = some bs := by
  induction bs with
  | nil =>
    intro p fuel h hf hp
    rw [BlocksRep.nil_iff] at h
    omega
  | cons c bs ih =>
    intro p fuel h hf hp
    rw [BlocksRep.cons_iff] at h
    obtain ⟨hcp, hsz, h8, ha, hhdr, hftr, ht⟩ := h
    cases fuel with
    | zero => simp at hf
    | succ fuel =>
      have hse := ht.start_le
      have hsz' : GET_SIZE m (GET_HEADER p) = blkSize c := by
        unfold GET_SIZE GET_HEADER
        rw [hhdr]
        omega
      have hal : GET_ALLOC m (GET_HEADER p) = blkAlloc c := by
        unfold GET_ALLOC GET_HEADER
        rw [hhdr]
        omega
      unfold parseFrom
      rw [if_neg (by omega)]
      simp only [hsz', hal]
      rw [if_pos ⟨hsz, hse⟩]
      by_cases hend : p + blkSize c = stop
      · have : bs = [] := by
          cases bs with
          | nil => rfl
          | cons d bs =>
            rw [BlocksRep.cons_iff] at ht
            have := ht.2.2.2.2.2.2.start_le
            have h16 := ht.2.1
            omega
        subst this
        rw [BlocksRep.nil_iff] at ht
        cases fuel with
        | zero =>
          unfold parseFrom
          rw [if_pos hend]
          rcases c with ⟨q, sz, a⟩
          simp only [blkPtr] at hcp
          subst hcp
          rfl
        | succ fuel =>
          unfold parseFrom
          rw [if_pos hend]
          rcases c with ⟨q, sz, a⟩
          simp only [blkPtr] at hcp
          subst hcp
          rfl
      · rw [ih ht (by simp at hf; omega) (by omega)]
        rcases c with ⟨q, sz, a⟩
        simp only [blkPtr] at hcp
        subst hcp
        rfl

/-- The inner search loop on a represented chain is `List.find?` of the
fit test. -/
theorem get_fit_loop_eq_find {s : MState} {size : Nat} {l : List Nat} :
    ∀ {x fuel : Nat}, ChainRep s x l → l.length < fuel →
      get_fit_loop s size x fuel =
        some (l.find? (fun j => decide (GET_ALLOC s.mem (GET_HEADER j) = 0 ∧
          GET_SIZE s.mem (GET_HEADER j) ≥ size))) := by
  induction l with
  | nil =>
    intro x fuel h hf
    rw [ChainRep.chain_nil_iff] at h
    subst h
    cases fuel with
    | zero => cases hf
    | succ fuel =>
      unfold get_fit_loop
      rw [if_neg (by simp)]
      rfl
  | cons y l ih =>
    intro x fuel h hf
    rw [ChainRep.chain_cons_iff] at h
    obtain ⟨rfl, hin, hx, ht⟩ := h
    cases fuel with
    | zero => cases hf
    | succ fuel =>
      unfold get_fit_loop
      rw [if_pos ⟨hin, hx⟩]
      rw [List.find?_cons]
      split
      · rename_i hcond
        rw [decide_eq_true hcond]
      · rename_i hcond
        rw [decide_eq_false hcond]
        exact ih ht (by simp at hf; omega)

/-- The removal loop when the target is not on the (represented) chain:
the traversal falls off the end and memory is untouched. -/
theorem seg_list_remove_go_not_mem {s : MState} {p : Nat} {l : List Nat} :
    ∀ {k x fuel : Nat}, ChainRep s x l → p ∉ l → l.length < fuel →
      seg_list_remove_go s p k x fuel = some s.mem := by
  induction l with
  | nil =>
    intro k x fuel h _ hf
    rw [ChainRep.chain_nil_iff] at h
    subst h
    cases fuel with
    | zero => cases hf
    | succ fuel =>
      unfold seg_list_remove_go
      rw [if_neg (by simp)]
  | cons y l ih =>
    intro k x fuel h hp hf
    rw [ChainRep.chain_cons_iff] at h
    obtain ⟨rfl, hin, hx, ht⟩ := h
    cases fuel with
    | zero => cases hf
    | succ fuel =>
      unfold seg_list_remove_go
      rw [if_pos ⟨hin, hx⟩, if_neg (by intro hc; exact hp (by rw [hc]; simp))]
      exact ih ht (fun hc => hp (List.mem_cons_of_mem _ hc)) (by simp at hf; omega)

/-- The removal loop when the target is on the chain: splice via the
predecessor cell (the head slot `k` if the target heads the list, else the
payload cell of the preceding member) and clear the target's link. -/
theorem seg_list_remove_go_mem {s : MState} {p : Nat} {l1 : List Nat} :
    ∀ {k x fuel : Nat} {l2 : List Nat}, ChainRep s x (l1 ++ p :: l2) →
      p ∉ l1 → (l1 ++ p :: l2).length < fuel →
      seg_list_remove_go s p k x fuel =
        some (PUT_PTR
          (if INSIDE_HEAP s (GET_PTR s.mem p) ∧ GET_PTR s.mem p ≠ 0 then
            PUT_PTR s.mem (l1.getLastD k) (GET_PTR s.mem p)
          else PUT_PTR s.mem (l1.getLastD k) 0) p 0) := by
  induction l1 with
  | nil =>
    intro k x fuel l2 h hp hf
    rw [List.nil_append, ChainRep.chain_cons_iff] at h
    obtain ⟨rfl, hin, hx, ht⟩ := h
    cases fuel with
    | zero => cases hf
    | succ fuel =>
      unfold seg_list_remove_go
      rw [if_pos ⟨hin, hx⟩, if_pos rfl]
      simp only [List.getLastD_nil]
  | cons y l1 ih =>
    intro k x fuel l2 h hp hf
    rw [List.cons_append, ChainRep.chain_cons_iff] at h
    obtain ⟨rfl, hin, hx, ht⟩ := h
    cases fuel with
    | zero => cases hf
    | succ fuel =>
      have hyp : p ≠ x := by
        intro hc
        exact hp (by rw [hc]; simp)
      unfold seg_list_remove_go
      rw [if_pos ⟨hin, hx⟩, if_neg hyp]
      rw [ih ht (fun hc => hp (List.mem_cons_of_mem _ hc)) (by simp at hf ⊢; omega)]
      rw [List.getLastD_cons]

/-! ## Geography: derived disjointness facts -/

theorem BlocksRep.ranges_disjoint {m : Mem} {stop : Nat} {bs : List Blk} :
    ∀ {p : Nat}, BlocksRep m p stop bs →
      ∀ b ∈ bs, ∀ c ∈ bs, b ≠ c →
        blkPtr b + blkSize b ≤ blkPtr c ∨ blkPtr c + blkSize c ≤ blkPtr b := by
  induction bs with
  | nil => intro p _ b hb; cases hb
  | cons d bs ih =>
    intro p h b hb c hc hne
    rw [BlocksRep.cons_iff] at h
    obtain ⟨hcp, hsz, h8, ha, hhdr, hftr, ht⟩ := h
    rcases List.mem_cons.mp hb with hb1 | hb2
    · rcases List.mem_cons.mp hc with hc1 | hc2
      · rw [hb1, hc1] at hne
        exact absurd rfl hne
      · left
        have := (BlocksRep.mem_bounds ht c hc2).1
        rw [hb1]
        omega
    · rcases List.mem_cons.mp hc with hc1 | hc2
      · right
        have := (BlocksRep.mem_bounds ht b hb2).1
        rw [hc1]
        omega
      · exact ih ht b hb2 c hc2 hne

theorem BlocksRep.ptr_inj {m : Mem} {stop : Nat} {bs : List Blk} {p : Nat}
    (h : BlocksRep m p stop bs) {b c : Blk} (hb : b ∈ bs) (hc : c ∈ bs)
    (heq : blkPtr b = blkPtr c) : b = c := by
  by_contra hne
  have hd := BlocksRep.ranges_disjoint h b hb c hc hne
  have h1 := (BlocksRep.mem_bounds h b hb).2.2.1
  have h2 := (BlocksRep.mem_bounds h c hc).2.2.1
  omega

/-- A duplicate-free list of values inside `[lo, hi)` with `1 ≤ lo` is
shorter than `hi`. -/
theorem nodup_length_lt {l : List Nat} {lo hi : Nat} (hn : l.Nodup)
    (hm : ∀ q ∈ l, lo ≤ q ∧ q < hi) (hlo : 1 ≤ lo) (hhi : 1 ≤ hi) :
    l.length < hi := by
  have h1 : l.toFinset ⊆ Finset.Ico lo hi := by
    intro q hq
    rw [Finset.mem_Ico]
    exact hm q (List.mem_toFinset.mp hq)
  have h2 := Finset.card_le_card h1
  rw [Nat.card_Ico, List.toFinset_card_of_nodup hn] at h2
  omega

theorem SegCtx.block_geo {s : MState} {bs : List Blk}
    {fl : Nat → List Nat} (h : SegCtx s bs fl) :
    ∀ b ∈ bs, s.segLists + 72 ≤ blkPtr b ∧ blkPtr b + blkSize b ≤ s.brk + 8 ∧
      16 ≤ blkSize b ∧ blkSize b % 8 = 0 ∧ blkPtr b % 8 = 0 ∧ blkAlloc b ≤ 1 ∧
      GET s.mem (blkPtr b - 4) = blkSize b + blkAlloc b ∧
      GET s.mem (blkPtr b + blkSize b - 8) = blkSize b + blkAlloc b := by
  intro b hb
  have h1 := BlocksRep.mem_bounds h.blocks b hb
  have h2 := BlocksRep.align h.blocks h.hp_align b hb
  have h3 := h.hp_eq
  exact ⟨by omega, h1.2.1, h1.2.2.1, h1.2.2.2.1, h2, h1.2.2.2.2.1,
    h1.2.2.2.2.2.1, h1.2.2.2.2.2.2⟩

theorem SegCtx.size_lt {s : MState} {bs : List Blk}
    {fl : Nat → List Nat} (h : SegCtx s bs fl) :
    ∀ b ∈ bs, blkSize b < 2 ^ 32 := by
  intro b hb
  have h1 := h.block_geo b hb
  have h2 := h.brk_le
  have h3 := h.max_lt
  omega

theorem SegCtx.slot_lt_blocks {s : MState} {bs : List Blk}
    {fl : Nat → List Nat} (h : SegCtx s bs fl) {i : Nat} (hi : i < 8) :
    slotAddr s i + 8 ≤ s.memHp - 4 ∧ 72 ≤ s.memHp := by
  have h1 := h.hp_eq
  unfold slotAddr
  omega

/-- Link cells of distinct chain members (free blocks) are disjoint, and a
member's link cell is disjoint from every tag byte of every block. -/
theorem SegCtx.brk_lb {s : MState} {bs : List Blk}
    {fl : Nat → List Nat} (h : SegCtx s bs fl) : s.memHp + 8 ≤ s.brk := by
  obtain ⟨rest, hbs⟩ := h.sentinel
  have hb := h.blocks
  rw [hbs, BlocksRep.cons_iff] at hb
  have h1 := hb.2.2.2.2.2.2.start_le
  have h16 : blkSize (s.memHp, (16 : Nat), (1 : Nat)) = 16 := rfl
  omega

theorem SegCtx.chain_len {s : MState} {bs : List Blk}
    {fl : Nat → List Nat} (h : SegCtx s bs fl) {i : Nat} (hi : i < 8) :
    (fl i).length < s.memBp := by
  have hc := h.chains i hi
  have hmem := ChainRep.mem_props hc
  have hhp : 72 ≤ s.memHp := by
    have := h.hp_eq
    omega
  have hbp : 1 ≤ s.memBp := by
    have h1 := h.brk_lb
    have h2 := h.bp_eq
    omega
  exact nodup_length_lt (ChainRep.nodup hc)
    (fun q hq => (hmem q hq).1) (by omega) hbp

/-! ## Splice and frame toolkit for the list operations -/

theorem get_size_class_lt (size : Nat) : get_size_class size < 8 := by
  unfold get_size_class SEG_LIST_COUNT
  dsimp only
  set d : Int := if ((size / 64 % 2 ^ 32 : Nat) : Int) < 2 ^ 31
    then ((size / 64 % 2 ^ 32 : Nat) : Int)
    else ((size / 64 % 2 ^ 32 : Nat) : Int) - 2 ^ 32 with hd
  by_cases h1 : d ≥ (8 : Nat)
  · rw [if_pos h1]
    omega
  · rw [if_neg h1]
    by_cases h2 : d < 0
    · rw [if_pos h2]
      omega
    · rw [if_neg h2]
      omega

theorem getLastD_irrel {l : List Nat} (h : l ≠ []) (d1 d2 : Nat) :
    l.getLastD d1 = l.getLastD d2 := by
  cases l with
  | nil => exact absurd rfl h
  | cons a l => rw [List.getLastD_cons, List.getLastD_cons]

theorem getLastD_mem {l : List Nat} (h : l ≠ []) (d : Nat) : l.getLastD d ∈ l := by
  cases l with
  | nil => exact absurd rfl h
  | cons a l =>
    rw [List.getLastD_cons]
    rcases List.mem_cons.mp (List.getLastD_mem_cons l a) with h1 | h1
    · rw [h1]
      exact List.mem_cons_self _ _
    · exact List.mem_cons_of_mem _ h1

/-- Walking a represented chain reaches the chain of any suffix. -/
theorem ChainRep.suffix_of_append {s : MState} {q : Nat} {l2 : List Nat} :
    ∀ {l1 : List Nat} {x : Nat}, ChainRep s x (l1 ++ q :: l2) →
      ChainRep s q (q :: l2) := by
  intro l1
  induction l1 with
  | nil =>
    intro x h
    rw [List.nil_append] at h
    have h' := h
    rw [ChainRep.chain_cons_iff] at h'
    rw [h'.1] at h
    exact h
  | cons a l1 ih =>
    intro x h
    rw [List.cons_append, ChainRep.chain_cons_iff] at h
    exact ih h.2.2.2

/-- Splicing one element out of a represented chain: if the links of the
prefix members are unchanged except that the last one (or the head slot,
handled by the caller when the prefix is empty) now points at `tgt`, the
head of a represented `l2`, then the chain represents `l1 ++ l2`. -/
theorem ChainRep.splice {s sN : MState} (hhp : sN.memHp = s.memHp)
    (hbp : sN.memBp = s.memBp) {q tgt : Nat} {l2 : List Nat}
    (htgt : ChainRep sN tgt l2) :
    ∀ {l1 : List Nat} {x k0 : Nat}, l1 ≠ [] →
      ChainRep s x (l1 ++ q :: l2) →
      (∀ r ∈ l1, r ≠ l1.getLastD k0 → GET_PTR sN.mem r = GET_PTR s.mem r) →
      GET_PTR sN.mem (l1.getLastD k0) = tgt →
      l1.Nodup →
      ChainRep sN x (l1 ++ l2) := by
  intro l1
  induction l1 with
  | nil => intro x k0 hne; exact absurd rfl hne
  | cons a l1 ih =>
    intro x k0 _ h hlinks hlast hnd
    rw [List.cons_append, ChainRep.chain_cons_iff] at h
    obtain ⟨rfl, hin, hx, ht⟩ := h
    rw [List.cons_append, ChainRep.chain_cons_iff]
    refine ⟨rfl, ⟨by rw [hhp]; exact hin.1, by rw [hbp]; exact hin.2⟩, hx, ?_⟩
    cases hl1 : l1 with
    | nil =>
      subst hl1
      rw [List.getLastD_cons, List.getLastD_nil] at hlast
      rw [hlast]
      exact htgt
    | cons b l1' =>
      have hl1ne : l1 ≠ [] := by rw [hl1]; simp
      rw [← hl1]
      have hane : x ≠ (x :: l1).getLastD k0 := by
        rw [List.getLastD_cons]
        intro hc
        have hmem : l1.getLastD x ∈ l1 := getLastD_mem hl1ne x
        rw [← hc] at hmem
        rw [List.nodup_cons] at hnd
        exact hnd.1 hmem
      rw [hlinks x (List.mem_cons_self _ _) hane]
      have hlast' : GET_PTR sN.mem (l1.getLastD k0) = tgt := by
        rw [getLastD_irrel hl1ne k0 x, ← List.getLastD_cons k0 x l1]
        exact hlast
      refine ih hl1ne ht ?_ hlast' (List.nodup_cons.mp hnd).2
      intro r hr hrne
      refine hlinks r (List.mem_cons_of_mem _ hr) ?_
      rw [List.getLastD_cons]
      rw [getLastD_irrel hl1ne k0 x] at hrne
      exact hrne

/-- A write cell: either a table slot, or the first pointer-sized word of
a block's payload. -/
def cellW (s : MState) (bs : List Blk) (w : Nat) : Prop :=
  (∃ i, i < 8 ∧ w = slotAddr s i) ∨ (∃ szw aw, (w, szw, aw) ∈ bs)

/-- Writing a pointer into any slot or payload cell leaves every block tag
unchanged. -/
theorem SegCtx.tags_frame_cellW {s : MState} {bs : List Blk}
    {fl : Nat → List Nat} (h : SegCtx s bs fl) {w : Nat} (hw : cellW s bs w)
    (mm : Mem) (v : Nat) : ∀ b ∈ bs,
      GET (PUT_PTR mm w v) (blkPtr b - 4) = GET mm (blkPtr b - 4) ∧
      GET (PUT_PTR mm w v) (blkPtr b + blkSize b - 8) =
        GET mm (blkPtr b + blkSize b - 8) := by
  intro b hb
  have hgb := h.block_geo b hb
  rcases hw with ⟨i, hi, rfl⟩ | ⟨szw, aw, hwb⟩
  · have hs := h.slot_lt_blocks hi
    have hhp := h.hp_eq
    unfold slotAddr at *
    constructor
    · exact GET_PUT_PTR_out mm v (Or.inr (by omega))
    · exact GET_PUT_PTR_out mm v (Or.inr (by omega))
  · have hgw := h.block_geo _ hwb
    simp only [blkPtr, blkSize, blkAlloc] at hgw
    by_cases heq : b = (w, szw, aw)
    · subst heq
      simp only [blkPtr, blkSize, blkAlloc] at hgb ⊢
      constructor
      · exact GET_PUT_PTR_out mm v (Or.inl (by omega))
      · exact GET_PUT_PTR_out mm v (Or.inr (by omega))
    · have hd := BlocksRep.ranges_disjoint h.blocks b hb _ hwb heq
      simp only [blkPtr, blkSize, blkAlloc] at hd hgb ⊢
      constructor
      · refine GET_PUT_PTR_out mm v ?_
        rcases hd with hd | hd
        · left; omega
        · right; omega
      · refine GET_PUT_PTR_out mm v ?_
        rcases hd with hd | hd
        · left; omega
        · right; omega

/-- Writing a pointer into a payload cell leaves every *other* block's
payload cell unchanged. -/
theorem SegCtx.link_frame_cell {s : MState} {bs : List Blk}
    {fl : Nat → List Nat} (h : SegCtx s bs fl) {w szw aw : Nat}
    (hwb : (w, szw, aw) ∈ bs) {r szr ar : Nat} (hrb : (r, szr, ar) ∈ bs)
    (hne : w ≠ r) (mm : Mem) (v : Nat) :
    GET_PTR (PUT_PTR mm w v) r = GET_PTR mm r := by
  have hbne : ((w, szw, aw) : Blk) ≠ (r, szr, ar) := by
    intro hc
    exact hne (congrArg blkPtr hc)
  have hd := BlocksRep.ranges_disjoint h.blocks _ hwb _ hrb hbne
  have hgw := h.block_geo _ hwb
  have hgr := h.block_geo _ hrb
  simp only [blkPtr, blkSize] at hd hgw hgr
  refine GET_PTR_PUT_PTR_out mm v ?_
  rcases hd with hd | hd
  · right; omega
  · left; omega

/-- Writing a pointer into a slot leaves every block's payload cell
unchanged. -/
theorem SegCtx.link_frame_slot {s : MState} {bs : List Blk}
    {fl : Nat → List Nat} (h : SegCtx s bs fl) {i : Nat} (hi : i < 8)
    {r szr ar : Nat} (hrb : (r, szr, ar) ∈ bs) (mm : Mem) (v : Nat) :
    GET_PTR (PUT_PTR mm (slotAddr s i) v) r = GET_PTR mm r := by
  have hs := h.slot_lt_blocks hi
  have hgr := h.block_geo _ hrb
  have hhp := h.hp_eq
  simp only [blkPtr] at hgr
  refine GET_PTR_PUT_PTR_out mm v (Or.inr (by omega))

/-- Writing a pointer into a payload cell leaves every slot unchanged. -/
theorem SegCtx.slot_frame_cell {s : MState} {bs : List Blk}
    {fl : Nat → List Nat} (h : SegCtx s bs fl) {w szw aw : Nat}
    (hwb : (w, szw, aw) ∈ bs) {j : Nat} (hj : j < 8) (mm : Mem) (v : Nat) :
    GET_PTR (PUT_PTR mm w v) (slotAddr s j) = GET_PTR mm (slotAddr s j) := by
  have hs := h.slot_lt_blocks hj
  have hgw := h.block_geo _ hwb
  have hhp := h.hp_eq
  simp only [blkPtr] at hgw
  refine GET_PTR_PUT_PTR_out mm v (Or.inl (by omega))

/-- Writing a pointer into slot `i` leaves slot `j ≠ i` unchanged. -/
theorem SegCtx.slot_frame_slot {s : MState} {bs : List Blk}
    {fl : Nat → List Nat} (h : SegCtx s bs fl) {i j : Nat} (hi : i < 8)
    (hj : j < 8) (hne : i ≠ j) (mm : Mem) (v : Nat) :
    GET_PTR (PUT_PTR mm (slotAddr s i) v) (slotAddr s j) =
      GET_PTR mm (slotAddr s j) := by
  unfold slotAddr
  refine GET_PTR_PUT_PTR_out mm v ?_
  rcases Nat.lt_or_ge i j with hij | hij
  · right; omega
  · left; omega

/-- Writing a pointer into a *free* payload cell or a slot leaves the bytes
of every allocated block unchanged. -/
theorem SegCtx.alloc_frame_cellW {s : MState} {bs : List Blk}
    {fl : Nat → List Nat} (h : SegCtx s bs fl) {w : Nat}
    (hw : (∃ i, i < 8 ∧ w = slotAddr s i) ∨ ∃ szw, (w, szw, 0) ∈ bs)
    (mm : Mem) (v : Nat) {b : Blk} (hb : b ∈ bs) (hba : blkAlloc b = 1)
    {x : Nat} (hx1 : blkPtr b - 4 ≤ x) (hx2 : x < blkPtr b + blkSize b - 4) :
    PUT_PTR mm w v x = mm x := by
  have hgb := h.block_geo b hb
  rcases hw with ⟨i, hi, rfl⟩ | ⟨szw, hwb⟩
  · have hs := h.slot_lt_blocks hi
    have hhp := h.hp_eq
    unfold slotAddr at *
    exact writeBytes_outside mm v (by omega)
  · have hgw := h.block_geo _ hwb
    simp only [blkPtr, blkSize, blkAlloc] at hgw
    have hbne : b ≠ (w, szw, 0) := by
      intro hc
      rw [hc] at hba
      simp [blkAlloc] at hba
    have hd := BlocksRep.ranges_disjoint h.blocks b hb _ hwb hbne
    simp only [blkPtr, blkSize, blkAlloc] at hd hgb hx1 hx2
    refine writeBytes_outside mm v ?_
    rcases hd with hd | hd
    · left; omega
    · right; omega

/-- Reading a block's tag through `GET_SIZE`/`GET_ALLOC`. -/
theorem SegCtx.read_tag {s : MState} {bs : List Blk} {fl : Nat → List Nat}
    (h : SegCtx s bs fl) {q szq aq : Nat} (hq : (q, szq, aq) ∈ bs) :
    GET_SIZE s.mem (GET_HEADER q) = szq ∧ GET_ALLOC s.mem (GET_HEADER q) = aq := by
  have hg := h.block_geo _ hq
  simp only [blkPtr, blkSize, blkAlloc] at hg
  obtain ⟨g1, g2, g3, g4, g5, g6, g7, g8⟩ := hg
  exact ⟨GET_SIZE_of_tag g7 g4 g6, GET_ALLOC_of_tag g7 g4 g6⟩

/-- Every block's payload is a non-null in-heap address. -/
theorem SegCtx.inside_of {s : MState} {bs : List Blk} {fl : Nat → List Nat}
    (h : SegCtx s bs fl) {q szq aq : Nat} (hq : (q, szq, aq) ∈ bs) :
    INSIDE_HEAP s q ∧ q ≠ 0 := by
  have hg := h.block_geo _ hq
  simp only [blkPtr, blkSize, blkAlloc] at hg
  have h1 := h.hp_eq
  have h2 := h.bp_eq
  refine ⟨⟨by omega, by omega⟩, by omega⟩

/-- Members of different class lists are different payloads. -/
theorem SegCtx.chain_cross {s : MState} {bs : List Blk} {fl : Nat → List Nat}
    (h : SegCtx s bs fl) {i j q r : Nat} (hi : i < 8) (hj : j < 8)
    (hne : i ≠ j) (hqi : q ∈ fl i) (hrj : r ∈ fl j) : q ≠ r := by
  obtain ⟨szq, hqb, hqc⟩ := h.chain_mem i hi q hqi
  obtain ⟨szr, hrb, hrc⟩ := h.chain_mem j hj r hrj
  intro hc
  subst hc
  have := BlocksRep.ptr_inj h.blocks hqb hrb rfl
  have hsz : szq = szr := by
    simp only [Prod.mk.injEq] at this
    exact this.2.1
  rw [hsz, hrc] at hqc
  exact hne hqc.symm

/-- Frame for `BlocksRep` demanding agreement only at the tag words. -/
theorem BlocksRep.frame_tags {m m' : Mem} {stop : Nat} {bs : List Blk} :
    ∀ {p : Nat}, BlocksRep m p stop bs →
      (∀ b ∈ bs, GET m' (blkPtr b - 4) = GET m (blkPtr b - 4) ∧
        GET m' (blkPtr b + blkSize b - 8) = GET m (blkPtr b + blkSize b - 8)) →
      BlocksRep m' p stop bs := by
  induction bs with
  | nil =>
    intro p h _
    rw [BlocksRep.nil_iff] at h
    rw [h]
    exact BlocksRep.nil _
  | cons c bs ih =>
    intro p h hagree
    rw [BlocksRep.cons_iff] at h ⊢
    obtain ⟨hcp, hsz, h8, ha, hhdr, hftr, ht⟩ := h
    have hc := hagree c (List.mem_cons_self _ _)
    rw [hcp] at hc
    exact ⟨hcp, hsz, h8, ha, by rw [hc.1]; exact hhdr, by rw [hc.2]; exact hftr,
      ih ht (fun b hb => hagree b (List.mem_cons_of_mem _ hb))⟩

theorem erase_append_cons {q : Nat} : ∀ {l1 l2 : List Nat}, q ∉ l1 →
    (l1 ++ q :: l2).erase q = l1 ++ l2 := by
  intro l1
  induction l1 with
  | nil => intro l2 _; simp
  | cons a l1 ih =>
    intro l2 hq
    have haq : ¬(a == q) := by
      simp only [beq_iff_eq]
      intro hc
      exact hq (by rw [hc]; exact List.mem_cons_self _ _)
    rw [List.cons_append, List.erase_cons, if_neg haq,
      ih (fun hc => hq (List.mem_cons_of_mem _ hc)), List.cons_append]

/-- Correctness of `seg_list_remove` on an indexed free block: the block
is spliced out of its class list; all block tags, all other class lists,
and the bytes of every allocated block are untouched. -/
theorem seg_list_remove_correct {s : MState} {bs : List Blk}
    {fl : Nat → List Nat} (h : SegCtx s bs fl) {q szq : Nat}
    (hq : (q, szq, 0) ∈ bs) (hqfl : q ∈ fl (get_size_class szq)) :
    ∃ sR, seg_list_remove s q = some sR ∧
      sR.segLists = s.segLists ∧ sR.memHp = s.memHp ∧ sR.memBp = s.memBp ∧
      sR.brk = s.brk ∧ sR.maxAddr = s.maxAddr ∧
      SegCtx sR bs
        (flUpd fl (get_size_class szq) ((fl (get_size_class szq)).erase q)) ∧
      allocBytesEq bs s.mem sR.mem := by
  have hi : get_size_class szq < 8 := get_size_class_lt szq
  have htag := h.read_tag hq
  have hch := h.chains _ hi
  have hflen := h.chain_len hi
  obtain ⟨l1, l2, hfl⟩ := List.append_of_mem hqfl
  have hnd : (fl (get_size_class szq)).Nodup := ChainRep.nodup hch
  have hndsplit := hnd
  rw [hfl, List.nodup_append] at hndsplit
  have hq1 : q ∉ l1 := fun hc => hndsplit.2.2 hc (List.mem_cons_self _ _)
  have hqnl2 : q ∉ l2 := by
    have := hndsplit.2.1
    rw [List.nodup_cons] at this
    exact this.1
  have herase : (fl (get_size_class szq)).erase q = l1 ++ l2 := by
    rw [hfl]
    exact erase_append_cons hq1
  have hchfull : ChainRep s (slotHead s (get_size_class szq)) (l1 ++ q :: l2) := by
    rw [← hfl]
    exact hch
  have hchq : ChainRep s q (q :: l2) := ChainRep.suffix_of_append hchfull
  have hnxt : ChainRep s (GET_PTR s.mem q) l2 := (ChainRep.chain_cons_iff.mp hchq).2.2.2
  have hl2mem : ∀ r ∈ l2, r ∈ fl (get_size_class szq) := by
    intro r hr
    rw [hfl]
    exact List.mem_append_right _ (List.mem_cons_of_mem _ hr)
  have hl1mem : ∀ r ∈ l1, r ∈ fl (get_size_class szq) := by
    intro r hr
    rw [hfl]
    exact List.mem_append_left _ hr
  set kq := l1.getLastD (slotAddr s (get_size_class szq)) with hkqdef
  -- the predecessor cell is the class slot or a free member block
  have hkqcases : (l1 = [] ∧ kq = slotAddr s (get_size_class szq)) ∨
      (l1 ≠ [] ∧ kq ∈ l1) := by
    by_cases hl1e : l1 = []
    · refine Or.inl ⟨hl1e, ?_⟩
      rw [hkqdef, hl1e]
      rfl
    · exact Or.inr ⟨hl1e, by rw [hkqdef]; exact getLastD_mem hl1e _⟩
  have hblk_ne_slot : ∀ r szr ar, (r, szr, ar) ∈ bs → ∀ j, j < 8 →
      r ≠ slotAddr s j := by
    intro r szr ar hrb j hj hc
    have hs := h.slot_lt_blocks hj
    have hg := h.block_geo _ hrb
    simp only [blkPtr] at hg
    have := h.hp_eq
    unfold slotAddr at hc
    omega
  have hkqfree : l1 ≠ [] → ∃ szk, (kq, szk, 0) ∈ bs := by
    intro hne
    rcases hkqcases with ⟨hl1e, _⟩ | ⟨_, hkqv⟩
    · exact absurd hl1e hne
    · obtain ⟨szk, hkb, _⟩ := h.chain_mem _ hi _ (hl1mem _ hkqv)
      exact ⟨szk, hkb⟩
  have hkqW : cellW s bs kq := by
    rcases hkqcases with ⟨_, hkq⟩ | ⟨hne, _⟩
    · exact Or.inl ⟨_, hi, hkq⟩
    · obtain ⟨szk, hkb⟩ := hkqfree hne
      exact Or.inr ⟨szk, 0, hkb⟩
  -- the conditional written into the predecessor cell is just the successor
  have hifeq : (if INSIDE_HEAP s (GET_PTR s.mem q) ∧ GET_PTR s.mem q ≠ 0 then
        PUT_PTR s.mem kq (GET_PTR s.mem q)
      else PUT_PTR s.mem kq 0) =
      PUT_PTR s.mem kq (GET_PTR s.mem q) := by
    cases hl2e : l2 with
    | nil =>
      rw [hl2e, ChainRep.chain_nil_iff] at hnxt
      rw [hnxt, if_neg (by simp)]
    | cons z l2x =>
      rw [hl2e, ChainRep.chain_cons_iff] at hnxt
      rw [if_pos ⟨hnxt.2.1, hnxt.2.2.1⟩]
  have hgo := seg_list_remove_go_mem (k := slotAddr s (get_size_class szq))
    hchfull hq1 (by rw [← hfl]; exact hflen)
  rw [← hkqdef, hifeq] at hgo
  set mR := PUT_PTR (PUT_PTR s.mem kq (GET_PTR s.mem q)) q 0 with hmRdef
  -- link cell preservation for block payloads other than q and kq
  have hlink_pres : ∀ r szr ar, (r, szr, ar) ∈ bs → r ≠ q → r ≠ kq →
      GET_PTR mR r = GET_PTR s.mem r := by
    intro r szr ar hrb hrq hrkq
    rw [hmRdef]
    rw [h.link_frame_cell hq hrb (fun hc => hrq hc.symm)]
    rcases hkqcases with ⟨_, hkqv⟩ | ⟨hne, _⟩
    · rw [hkqv]
      exact h.link_frame_slot hi hrb _ _
    · obtain ⟨szk, hkb⟩ := hkqfree hne
      exact h.link_frame_cell hkb hrb (fun hc => hrkq hc.symm) _ _
  have hslot_pres : ∀ j, j < 8 → kq ≠ slotAddr s j →
      GET_PTR mR (slotAddr s j) = GET_PTR s.mem (slotAddr s j) := by
    intro j hj hne
    rw [hmRdef]
    rw [h.slot_frame_cell hq hj]
    rcases hkqcases with ⟨_, hkqv⟩ | ⟨hnel1, _⟩
    · by_cases hij : get_size_class szq = j
      · exact absurd (by rw [hkqv, hij]) hne
      · rw [hkqv]
        exact h.slot_frame_slot hi hj hij _ _
    · obtain ⟨szk, hkb⟩ := hkqfree hnel1
      exact h.slot_frame_cell hkb hj _ _
  have hblocksR : BlocksRep mR s.memHp (s.brk + 8) bs := by
    refine BlocksRep.frame_tags h.blocks ?_
    intro b hb
    rw [hmRdef]
    have t1 := h.tags_frame_cellW (Or.inr ⟨szq, 0, hq⟩)
      (PUT_PTR s.mem kq (GET_PTR s.mem q)) 0 b hb
    have t2 := h.tags_frame_cellW hkqW s.mem (GET_PTR s.mem q) b hb
    exact ⟨by rw [t1.1, t2.1], by rw [t1.2, t2.2]⟩
  refine ⟨{ s with mem := mR }, ?_, rfl, rfl, rfl, rfl, rfl, ?_, ?_⟩
  · -- the remove equation
    unfold seg_list_remove
    dsimp only
    rw [htag.1]
    rw [show s.segLists + 8 * get_size_class szq =
      slotAddr s (get_size_class szq) from rfl]
    rw [show GET_PTR s.mem (slotAddr s (get_size_class szq)) =
      slotHead s (get_size_class szq) from rfl]
    rw [hgo]
  · -- the new SegCtx
    have hchainsR : ∀ j, j < 8 →
        ChainRep { s with mem := mR } (slotHead { s with mem := mR } j)
          (flUpd fl (get_size_class szq) ((fl (get_size_class szq)).erase q) j) := by
      intro j hj
      unfold flUpd
      by_cases hji : j = get_size_class szq
      · rw [if_pos hji, hji, herase]
        have htgtR : ChainRep { s with mem := mR } (GET_PTR s.mem q) l2 := by
          refine ChainRep.chain_frame hnxt ?_ ?_
          · intro r hr
            obtain ⟨szr, hrb, _⟩ := h.chain_mem _ hi r (hl2mem r hr)
            refine hlink_pres r szr 0 hrb (fun hc => hqnl2 (hc ▸ hr)) ?_
            rcases hkqcases with ⟨_, hkqv⟩ | ⟨_, hkqv⟩
            · rw [hkqv]
              exact hblk_ne_slot r szr 0 hrb _ hi
            · intro hc
              exact hndsplit.2.2 (hc ▸ hkqv) (List.mem_cons_of_mem _ hr)
          · intro r hr
            exact (ChainRep.mem_props hnxt r hr).1
        rcases hkqcases with ⟨hl1e, hkqv⟩ | ⟨hl1ne, hkqv⟩
        · subst hl1e
          have hhead : slotHead { s with mem := mR } (get_size_class szq) =
              GET_PTR s.mem q := by
            show GET_PTR mR (slotAddr s (get_size_class szq)) = _
            rw [hmRdef]
            rw [h.slot_frame_cell hq hi]
            rw [← hkqv, GET_PTR_PUT_PTR]
            exact Nat.mod_eq_of_lt (GET_PTR_lt _ _)
          rw [List.nil_append, hhead]
          exact htgtR
        · obtain ⟨szk, hkb⟩ := hkqfree hl1ne
          have hkqq : kq ≠ q := fun hc => hq1 (hc ▸ hkqv)
          have hhead : slotHead { s with mem := mR } (get_size_class szq) =
              slotHead s (get_size_class szq) := by
            show GET_PTR mR (slotAddr s (get_size_class szq)) = _
            exact hslot_pres _ hi (hblk_ne_slot _ _ _ hkb _ hi)
          rw [hhead]
          refine @ChainRep.splice s { s with mem := mR } rfl rfl q
            (GET_PTR s.mem q) l2 htgtR l1
            (slotHead s (get_size_class szq))
            (slotAddr s (get_size_class szq)) hl1ne hchfull ?_ ?_ hndsplit.1
          · intro r hr hrne
            obtain ⟨szr, hrb, _⟩ := h.chain_mem _ hi r (hl1mem r hr)
            exact hlink_pres r szr 0 hrb (fun hc => hq1 (hc ▸ hr))
              (by rw [← hkqdef] at hrne; exact hrne)
          · rw [← hkqdef]
            rw [hmRdef]
            rw [h.link_frame_cell hq hkb (Ne.symm hkqq)]
            rw [GET_PTR_PUT_PTR]
            exact Nat.mod_eq_of_lt (GET_PTR_lt _ _)
      · rw [if_neg hji]
        have hhead : slotHead { s with mem := mR } j = slotHead s j := by
          show GET_PTR mR (slotAddr s j) = _
          refine hslot_pres j hj ?_
          rcases hkqcases with ⟨_, hkqv⟩ | ⟨hl1ne, hkqv⟩
          · rw [hkqv]
            intro hc
            unfold slotAddr at hc
            omega
          · obtain ⟨szk, hkb⟩ := hkqfree hl1ne
            exact hblk_ne_slot _ _ _ hkb j hj
        rw [hhead]
        refine ChainRep.chain_frame (h.chains j hj) ?_ ?_
        · intro r hr
          obtain ⟨szr, hrb, _⟩ := h.chain_mem j hj r hr
          have hrq : r ≠ q := h.chain_cross hj hi hji hr hqfl
          refine hlink_pres r szr 0 hrb hrq ?_
          rcases hkqcases with ⟨_, hkqv⟩ | ⟨_, hkqv⟩
          · rw [hkqv]
            exact hblk_ne_slot r szr 0 hrb _ hi
          · exact h.chain_cross hj hi hji hr (hl1mem _ hkqv)
        · intro r hr
          exact (ChainRep.mem_props (h.chains j hj) r hr).1
    refine SegCtx.mk h.bp_eq h.hp_eq h.hp_align h.max_lt h.brk_le hblocksR
      h.sentinel hchainsR ?_
    intro j hj r hr
    unfold flUpd at hr
    by_cases hji : j = get_size_class szq
    · rw [if_pos hji] at hr
      rw [hji]
      exact h.chain_mem _ hi r (List.mem_of_mem_erase hr)
    · rw [if_neg hji] at hr
      exact h.chain_mem j hj r hr
  · -- allocated bytes preserved
    intro b hb hba x hx1 hx2
    show mR x = s.mem x
    rw [hmRdef]
    rw [h.alloc_frame_cellW (Or.inr ⟨szq, hq⟩) _ 0 hb hba hx1 hx2]
    rcases hkqcases with ⟨_, hkqv⟩ | ⟨hl1ne, hkqv⟩
    · rw [hkqv]
      exact h.alloc_frame_cellW (Or.inl ⟨_, hi, rfl⟩) _ _ hb hba hx1 hx2
    · obtain ⟨szk, hkb⟩ := hkqfree hl1ne
      exact h.alloc_frame_cellW (Or.inr ⟨szk, hkb⟩) _ _ hb hba hx1 hx2

/-- Chains after the two writes of `seg_list_add`: the class of the added
block gains `q` at its head, every other class is untouched. -/
theorem seg_list_add_chains {s : MState} {bs : List Blk} {fl : Nat → List Nat}
    (h : SegCtx s bs fl) {q szq : Nat} (hq : (q, szq, 0) ∈ bs)
    (hnl : ∀ j, j < 8 → q ∉ fl j) {mA : Mem}
    (hmAdef : mA = PUT_PTR (PUT_PTR s.mem q (slotHead s (get_size_class szq)))
      (slotAddr s (get_size_class szq)) q) :
    ∀ i2, i2 < 8 →
      ChainRep { s with mem := mA } (slotHead { s with mem := mA } i2)
        (flUpd fl (get_size_class szq) (q :: fl (get_size_class szq)) i2) := by
  have hi : get_size_class szq < 8 := get_size_class_lt szq
  have hins := h.inside_of hq
  have hqlt : q < 2 ^ 64 := by
    have hg := h.block_geo _ hq
    simp only [blkPtr, blkSize] at hg
    have h1 := h.brk_le
    have h2 := h.max_lt
    omega
  intro j hj
  unfold flUpd
  have hch' := h.chains _ hi
  by_cases hji : j = get_size_class szq
  · rw [if_pos hji, hji]
    have hhead : slotHead { s with mem := mA } (get_size_class szq) = q := by
      show GET_PTR mA (slotAddr s (get_size_class szq)) = q
      rw [hmAdef, GET_PTR_PUT_PTR]
      exact Nat.mod_eq_of_lt hqlt
    rw [hhead]
    refine ChainRep.cons q _ hins.1 hins.2 ?_
    have hlq : GET_PTR mA q = slotHead s (get_size_class szq) := by
      rw [hmAdef]
      rw [h.link_frame_slot hi hq]
      rw [GET_PTR_PUT_PTR]
      exact Nat.mod_eq_of_lt (GET_PTR_lt _ _)
    rw [hlq]
    refine ChainRep.chain_frame hch' ?_ ?_
    · intro r hr
      obtain ⟨szr, hrb, _⟩ := h.chain_mem _ hi r hr
      rw [hmAdef]
      rw [h.link_frame_slot hi hrb]
      exact h.link_frame_cell hq hrb
        (fun hc => hnl _ hi (hc ▸ hr)) _ _
    · intro r hr
      exact (ChainRep.mem_props hch' r hr).1
  · rw [if_neg hji]
    have hhead : slotHead { s with mem := mA } j = slotHead s j := by
      show GET_PTR mA (slotAddr s j) = _
      rw [hmAdef]
      rw [h.slot_frame_slot hi hj (fun hc => hji hc.symm)]
      exact h.slot_frame_cell hq hj _ _
    rw [hhead]
    refine ChainRep.chain_frame (h.chains j hj) ?_ ?_
    · intro r hr
      obtain ⟨szr, hrb, _⟩ := h.chain_mem j hj r hr
      rw [hmAdef]
      rw [h.link_frame_slot hi hrb]
      exact h.link_frame_cell hq hrb (fun hc => hnl _ hj (hc ▸ hr)) _ _
    · intro r hr
      exact (ChainRep.mem_props (h.chains j hj) r hr).1

/-- The invariant context after the two writes of `seg_list_add`. -/
theorem seg_list_add_ctx {s : MState} {bs : List Blk} {fl : Nat → List Nat}
    (h : SegCtx s bs fl) {q szq : Nat} (hq : (q, szq, 0) ∈ bs)
    (hnl : ∀ j, j < 8 → q ∉ fl j) {mA : Mem}
    (hmAdef : mA = PUT_PTR (PUT_PTR s.mem q (slotHead s (get_size_class szq)))
      (slotAddr s (get_size_class szq)) q) :
    SegCtx { s with mem := mA } bs
      (flUpd fl (get_size_class szq) (q :: fl (get_size_class szq))) := by
  have hi : get_size_class szq < 8 := get_size_class_lt szq
  refine SegCtx.mk h.bp_eq h.hp_eq h.hp_align h.max_lt h.brk_le ?_
    h.sentinel (seg_list_add_chains h hq hnl hmAdef) ?_
  · refine BlocksRep.frame_tags h.blocks ?_
    intro b hb
    rw [hmAdef]
    have t1 := h.tags_frame_cellW (Or.inl ⟨_, hi, rfl⟩)
      (PUT_PTR s.mem q (slotHead s (get_size_class szq))) q b hb
    have t2 := h.tags_frame_cellW (Or.inr ⟨szq, 0, hq⟩) s.mem
      (slotHead s (get_size_class szq)) b hb
    exact ⟨by rw [t1.1, t2.1], by rw [t1.2, t2.2]⟩
  · intro j hj r hr
    unfold flUpd at hr
    by_cases hji : j = get_size_class szq
    · rw [if_pos hji] at hr
      rcases List.mem_cons.mp hr with rfl | hr
      · exact ⟨szq, hq, hji.symm⟩
      · rw [hji]
        exact h.chain_mem _ hi r hr
    · rw [if_neg hji] at hr
      exact h.chain_mem j hj r hr

/-- Allocated bytes are untouched by the two writes of `seg_list_add`. -/
theorem seg_list_add_alloc_eq {s : MState} {bs : List Blk} {fl : Nat → List Nat}
    (h : SegCtx s bs fl) {q szq : Nat} (hq : (q, szq, 0) ∈ bs) {mA : Mem}
    (hmAdef : mA = PUT_PTR (PUT_PTR s.mem q (slotHead s (get_size_class szq)))
      (slotAddr s (get_size_class szq)) q) :
    allocBytesEq bs s.mem mA := by
  have hi : get_size_class szq < 8 := get_size_class_lt szq
  intro b hb hba x hx1 hx2
  show mA x = s.mem x
  rw [hmAdef]
  rw [h.alloc_frame_cellW (Or.inl ⟨_, hi, rfl⟩) _ q hb hba hx1 hx2]
  exact h.alloc_frame_cellW (Or.inr ⟨szq, hq⟩) _ _ hb hba hx1 hx2

/-- Correctness of `seg_list_add` on an unindexed free block: the block is
pushed onto its class's list; tags, other lists, and allocated bytes are
untouched. -/
theorem seg_list_add_correct {s : MState} {bs : List Blk} {fl : Nat → List Nat}
    (h : SegCtx s bs fl) {q szq : Nat} (hq : (q, szq, 0) ∈ bs)
    (hnl : ∀ j, j < 8 → q ∉ fl j) :
    ∃ sA, seg_list_add s q = sA ∧
      sA.segLists = s.segLists ∧ sA.memHp = s.memHp ∧ sA.memBp = s.memBp ∧
      sA.brk = s.brk ∧ sA.maxAddr = s.maxAddr ∧
      SegCtx sA bs
        (flUpd fl (get_size_class szq) (q :: fl (get_size_class szq))) ∧
      allocBytesEq bs s.mem sA.mem := by
  have hi : get_size_class szq < 8 := get_size_class_lt szq
  have htag := h.read_tag hq
  have hins := h.inside_of hq
  have hch := h.chains _ hi
  have hslot_eq : ∀ c : Nat, s.segLists + c * SIZE_T_SIZE = slotAddr s c := by
    intro c
    show s.segLists + c * SIZE_T_SIZE = s.segLists + 8 * c
    have hsz : SIZE_T_SIZE = 8 := by norm_num [SIZE_T_SIZE, ALIGN]
    rw [hsz]
    ring
  have hlink : (if slotHead s (get_size_class szq) ≠ 0 ∧
        slotHead s (get_size_class szq) ≠ q then
        PUT_PTR s.mem q (slotHead s (get_size_class szq))
      else PUT_PTR s.mem q 0) =
      PUT_PTR s.mem q (slotHead s (get_size_class szq)) := by
    cases hfle : fl (get_size_class szq) with
    | nil =>
      rw [hfle, ChainRep.chain_nil_iff] at hch
      rw [hch, if_neg (by simp)]
    | cons z l =>
      rw [hfle, ChainRep.chain_cons_iff] at hch
      refine if_pos ⟨hch.2.2.1, ?_⟩
      rw [hch.1]
      intro hc
      exact hnl _ hi (by rw [hfle, hc]; exact List.mem_cons_self _ _)
  set mA := PUT_PTR (PUT_PTR s.mem q (slotHead s (get_size_class szq)))
    (slotAddr s (get_size_class szq)) q with hmAdef
  clear_value mA
  have heqn : seg_list_add s q = { s with mem := mA } := by
    unfold seg_list_add
    rw [if_neg hins.2]
    dsimp only
    rw [htag.1, hslot_eq]
    rw [show GET_PTR s.mem (slotAddr s (get_size_class szq)) =
      slotHead s (get_size_class szq) from rfl]
    rw [hlink, hmAdef]
  exact ⟨{ s with mem := mA }, heqn, rfl, rfl, rfl, rfl, rfl,
    seg_list_add_ctx h hq hnl hmAdef, seg_list_add_alloc_eq h hq hmAdef⟩

/-! ## Characterisation of the fit search under the invariant -/

theorem get_size_class_eq_min {sz : Nat} (h : sz < 2 ^ 37) :
    get_size_class sz = min (sz / 64) 7 := by
  unfold get_size_class SEG_LIST_COUNT
  dsimp only
  have h1 : sz / 64 % 2 ^ 32 = sz / 64 := Nat.mod_eq_of_lt (by omega)
  rw [h1]
  have h2 : ((sz / 64 : Nat) : Int) < 2 ^ 31 := by
    have h3 : sz / 64 < 2 ^ 31 := by omega
    exact_mod_cast h3
  rw [if_pos h2]
  split
  · rename_i h3
    omega
  · rename_i h3
    split
    · rename_i h4
      omega
    · rename_i h4
      omega

theorem get_size_class_mono_of {sz szb : Nat} (h1 : sz ≤ szb)
    (h2 : szb < 2 ^ 32) : get_size_class sz ≤ get_size_class szb := by
  have hsz : sz < 2 ^ 37 := by omega
  rw [get_size_class_eq_min hsz, get_size_class_eq_min (by omega)]
  have h3 : sz / 64 ≤ szb / 64 := Nat.div_le_div_right h1
  omega

/-- The per-class search on a represented class list, under the invariant:
returns `find?` of the size test over the members. -/
theorem get_fit_loop_class {s : MState} {bs : List Blk} {fl : Nat → List Nat}
    (h : SegCtx s bs fl) (sz : Nat) {i : Nat} (hi : i < 8) :
    get_fit_loop s sz (GET_PTR s.mem (s.segLists + 8 * i)) s.memBp =
      some ((fl i).find? (fun j => decide (GET_ALLOC s.mem (GET_HEADER j) = 0 ∧
        GET_SIZE s.mem (GET_HEADER j) ≥ sz))) :=
  get_fit_loop_eq_find (h.chains i hi) (h.chain_len hi)

/-- One unrolling of the outer class scan under the invariant. -/
theorem get_fit_go_step {s : MState} {bs : List Blk} {fl : Nat → List Nat}
    (h : SegCtx s bs fl) (sz : Nat) {i : Nat} (hi : i < 8) (n : Nat) :
    get_fit_go s sz i (n + 1) =
      match (fl i).find? (fun j => decide (GET_ALLOC s.mem (GET_HEADER j) = 0 ∧
          GET_SIZE s.mem (GET_HEADER j) ≥ sz)) with
      | some f => some (some f)
      | none => get_fit_go s sz (i + 1) n := by
  conv_lhs => unfold get_fit_go
  rw [if_pos (show i < SEG_LIST_COUNT by unfold SEG_LIST_COUNT; omega)]
  rw [get_fit_loop_class h sz hi]
  cases (fl i).find? (fun j => decide (GET_ALLOC s.mem (GET_HEADER j) = 0 ∧
      GET_SIZE s.mem (GET_HEADER j) ≥ sz)) with
  | some f => rfl
  | none => rfl

/-- The class scan never runs out of fuel under the invariant. -/
theorem get_fit_go_total {s : MState} {bs : List Blk} {fl : Nat → List Nat}
    (h : SegCtx s bs fl) (sz : Nat) :
    ∀ (n i : Nat), get_fit_go s sz i n ≠ none := by
  intro n
  induction n with
  | zero =>
    intro i
    show (some none : Option (Option Nat)) ≠ none
    simp
  | succ n ih =>
    intro i
    by_cases hi : i < 8
    · rw [get_fit_go_step h sz hi n]
      cases hfind : (fl i).find? (fun j => decide
          (GET_ALLOC s.mem (GET_HEADER j) = 0 ∧
            GET_SIZE s.mem (GET_HEADER j) ≥ sz)) with
      | some f => simp
      | none => exact ih (i + 1)
    · unfold get_fit_go
      rw [if_neg (show ¬ i < SEG_LIST_COUNT by unfold SEG_LIST_COUNT; omega)]
      simp

/-- Result of the whole class scan from a starting index. -/
theorem get_fit_go_characterization {s : MState} {bs : List Blk}
    {fl : Nat → List Nat} (h : SegCtx s bs fl) (sz : Nat) :
    ∀ (n i : Nat), 8 ≤ i + n →
      (get_fit_go s sz i n = some none ↔
        ∀ j, i ≤ j → j < 8 → ∀ q ∈ fl j, ∀ szq, (q, szq, 0) ∈ bs → szq < sz) ∧
      (∀ f, get_fit_go s sz i n = some (some f) →
        ∃ j szf, i ≤ j ∧ j < 8 ∧ f ∈ fl j ∧ (f, szf, 0) ∈ bs ∧ sz ≤ szf) := by
  intro n
  induction n with
  | zero =>
    intro i hin
    constructor
    · constructor
      · intro _ j hj1 hj2
        omega
      · intro _
        rfl
    · intro f hf
      have hf2 : (some none : Option (Option Nat)) = some (some f) := hf
      cases hf2
  | succ n ih =>
    intro i hin
    by_cases hi : i < 8
    · constructor
      · constructor
        · intro hnone j hj1 hj2 q hq szq hqb
          rw [get_fit_go_step h sz hi n] at hnone
          cases hfind : (fl i).find? (fun j => decide
              (GET_ALLOC s.mem (GET_HEADER j) = 0 ∧
                GET_SIZE s.mem (GET_HEADER j) ≥ sz)) with
          | some f =>
            rw [hfind] at hnone
            exact absurd hnone (by simp)
          | none =>
            rw [hfind] at hnone
            by_cases hji : j = i
            · subst hji
              have hno := List.find?_eq_none.mp hfind q hq
              rw [decide_eq_true_eq] at hno
              have ht := h.read_tag hqb
              by_contra hc
              exact hno ⟨ht.2, by rw [ht.1]; omega⟩
            · exact ((ih (i + 1) (by omega)).1.mp hnone) j (by omega) hj2 q hq
                szq hqb
        · intro hall
          rw [get_fit_go_step h sz hi n]
          cases hfind : (fl i).find? (fun j => decide
              (GET_ALLOC s.mem (GET_HEADER j) = 0 ∧
                GET_SIZE s.mem (GET_HEADER j) ≥ sz)) with
          | some f =>
            exfalso
            have hf1 := List.find?_some hfind
            have hf2 := List.mem_of_find?_eq_some hfind
            rw [decide_eq_true_eq] at hf1
            obtain ⟨szf, hfb, _⟩ := h.chain_mem i hi f hf2
            have hlt := hall i (le_refl i) hi f hf2 szf hfb
            have ht := h.read_tag hfb
            rw [ht.1] at hf1
            omega
          | none =>
            exact (ih (i + 1) (by omega)).1.mpr
              (fun j hj1 hj2 q hq szq hqb => hall j (by omega) hj2 q hq szq hqb)
      · intro f hf
        rw [get_fit_go_step h sz hi n] at hf
        cases hfind : (fl i).find? (fun j => decide
            (GET_ALLOC s.mem (GET_HEADER j) = 0 ∧
              GET_SIZE s.mem (GET_HEADER j) ≥ sz)) with
        | some f2 =>
          rw [hfind] at hf
          have hf2eq : (some (some f2) : Option (Option Nat)) = some (some f) := hf
          cases hf2eq
          have hf1 := List.find?_some hfind
          have hf2 := List.mem_of_find?_eq_some hfind
          rw [decide_eq_true_eq] at hf1
          obtain ⟨szf, hfb, _⟩ := h.chain_mem i hi _ hf2
          have ht := h.read_tag hfb
          rw [ht.1] at hf1
          exact ⟨i, szf, le_refl i, hi, hf2, hfb, hf1.2⟩
        | none =>
          rw [hfind] at hf
          obtain ⟨j, szf, hj1, hj2, hjm, hjb, hjs⟩ :=
            (ih (i + 1) (by omega)).2 f hf
          exact ⟨j, szf, by omega, hj2, hjm, hjb, hjs⟩
    · have hred : get_fit_go s sz i (n + 1) = some none := by
        unfold get_fit_go
        rw [if_neg (show ¬ i < SEG_LIST_COUNT by unfold SEG_LIST_COUNT; omega)]
      rw [hred]
      constructor
      · constructor
        · intro _ j hj1 hj2
          omega
        · intro _
          rfl
      · intro f hf
        cases hf

/-- Characterisation of `get_fit` under the invariant (with every free
block indexed): it never diverges, reports no fit exactly when no free
block is large enough, and a returned pointer is a free indexed block
that fits. -/
theorem get_fit_characterization {s : MState} {bs : List Blk}
    {fl : Nat → List Nat} (h : SegCtx s bs fl)
    (hfree : ∀ b ∈ bs, blkAlloc b = 0 →
      blkPtr b ∈ fl (get_size_class (blkSize b))) (sz : Nat) :
    (get_fit s sz = some none ↔ ∀ b ∈ bs, blkAlloc b = 0 → blkSize b < sz) ∧
    (∀ f, get_fit s sz = some (some f) →
      ∃ szf, (f, szf, 0) ∈ bs ∧ sz ≤ szf ∧ f ∈ fl (get_size_class szf)) ∧
    (∃ r, get_fit s sz = some r) := by
  have hchar := get_fit_go_characterization h sz SEG_LIST_COUNT
    (get_size_class sz) (by unfold SEG_LIST_COUNT; omega)
  have hgf : get_fit s sz = get_fit_go s sz (get_size_class sz) SEG_LIST_COUNT :=
    rfl
  rw [hgf]
  refine ⟨⟨?_, ?_⟩, ?_, ?_⟩
  · intro hnone b hb hba
    by_contra hc
    rcases b with ⟨q, szq, aq⟩
    simp only [blkAlloc] at hba
    subst hba
    simp only [blkPtr, blkSize] at hc hfree
    have hqfl := hfree _ hb rfl
    have hszlt := h.size_lt _ hb
    simp only [blkSize] at hszlt
    have hmono : get_size_class sz ≤ get_size_class szq :=
      get_size_class_mono_of (by omega) hszlt
    have := (hchar.1.mp hnone) (get_size_class szq) hmono
      (get_size_class_lt szq) q hqfl szq hb
    omega
  · intro hall
    refine hchar.1.mpr ?_
    intro j hj1 hj2 q hq szq hqb
    exact hall (q, szq, 0) hqb rfl
  · intro f hf
    obtain ⟨j, szf, hj1, hj2, hjm, hjb, hjs⟩ := hchar.2 f hf
    refine ⟨szf, hjb, hjs, ?_⟩
    obtain ⟨szf2, hjb2, hjc⟩ := h.chain_mem j hj2 f hjm
    have hinj := BlocksRep.ptr_inj h.blocks hjb hjb2 rfl
    have hsz : szf = szf2 := by
      simp only [Prod.mk.injEq] at hinj
      exact hinj.2.1
    rw [hsz, hjc]
    exact hjm
  · cases hres : get_fit_go s sz (get_size_class sz) SEG_LIST_COUNT with
    | none =>
      exact absurd hres (get_fit_go_total h sz SEG_LIST_COUNT (get_size_class sz))
    | some r => exact ⟨r, rfl⟩

/-- Under the invariant context every class's traversal terminates and
returns the represented member list. -/
theorem classList_eq {s : MState} {bs : List Blk} {fl : Nat → List Nat}
    (h : SegCtx s bs fl) {i : Nat} (hi : i < 8) :
    classList s i = some (fl i) :=
  chainFrom_eq (h.chains i hi) (h.chain_len hi)

/-- The spec-side class scan of claim C6 coincides with the code's class
scan under the invariant context, from any start index. -/
theorem specFitGo_eq {s : MState} {bs : List Blk} {fl : Nat → List Nat}
    (h : SegCtx s bs fl) (sz : Nat) :
    ∀ (n i : Nat), specFitGo s sz i n = get_fit_go s sz i n := by
  intro n
  induction n with
  | zero => intro i; rfl
  | succ n ih =>
    intro i
    by_cases hi : i < 8
    · rw [get_fit_go_step h sz hi n]
      unfold specFitGo
      rw [if_pos (show i < SEG_LIST_COUNT by unfold SEG_LIST_COUNT; omega)]
      rw [classList_eq h hi]
      dsimp only
      cases hfind : (fl i).find? (fun j =>
          decide (GET_ALLOC s.mem (GET_HEADER j) = 0 ∧
            GET_SIZE s.mem (GET_HEADER j) ≥ sz)) with
      | some f => rfl
      | none => exact ih (i + 1)
    · unfold specFitGo get_fit_go
      rw [if_neg (show ¬ i < SEG_LIST_COUNT by unfold SEG_LIST_COUNT; omega),
        if_neg (show ¬ i < SEG_LIST_COUNT by unfold SEG_LIST_COUNT; omega)]

/-- Claim C6 at the `SegCtx` level: in a state whose chains are
represented, the code's `get_fit` computes exactly the search described by
the spec.  (For sizes with `size / 64` beyond `2 ^ 31` the code's class
index comes out of 32-bit signed arithmetic, but every represented block
is smaller than `2 ^ 32`, so both scans report no fit.) -/
theorem get_fit_eq_specFit {s : MState} {bs : List Blk} {fl : Nat → List Nat}
    (h : SegCtx s bs fl) (sz : Nat) : get_fit s sz = specFit s sz := by
  unfold get_fit specFit
  rw [specFitGo_eq h sz]
  by_cases hlt : sz < 2 ^ 37
  · rw [get_size_class_eq_min hlt]
    rw [show SEG_LIST_COUNT - 1 = 7 from rfl]
  · have hall : ∀ i0 : Nat, get_fit_go s sz i0 SEG_LIST_COUNT = some none := by
      intro i0
      refine (get_fit_go_characterization h sz SEG_LIST_COUNT i0
        (by unfold SEG_LIST_COUNT; omega)).1.mpr ?_
      intro j hj1 hj2 q hq szq hqb
      have hs := h.size_lt _ hqb
      simp only [blkSize] at hs
      omega
    rw [hall, hall]

/-! ## Byte-frame toolkit for tag surgery -/

theorem allocBytesEq_refl (bs : List Blk) (m : Mem) : allocBytesEq bs m m :=
  fun _ _ _ _ _ _ => rfl

theorem allocBytesEq_trans {bs : List Blk} {m1 m2 m3 : Mem}
    (h1 : allocBytesEq bs m1 m2) (h2 : allocBytesEq bs m2 m3) :
    allocBytesEq bs m1 m3 :=
  fun b hb hba x hx1 hx2 => (h2 b hb hba x hx1 hx2).trans (h1 b hb hba x hx1 hx2)

theorem mem_replace_mid {b c c' : Blk} {bs1 bs2 : List Blk}
    (hb : b ∈ bs1 ++ c :: bs2) (hne : b ≠ c) : b ∈ bs1 ++ c' :: bs2 := by
  rcases List.mem_append.mp hb with h | h
  · exact List.mem_append.mpr (Or.inl h)
  · rcases List.mem_cons.mp h with h | h
    · exact absurd h hne
    · exact List.mem_append.mpr (Or.inr (List.mem_cons_of_mem _ h))

theorem mem_replace_mid₂ {b c c1 c2 : Blk} {bs1 bs2 : List Blk}
    (hb : b ∈ bs1 ++ c :: bs2) (hne : b ≠ c) : b ∈ bs1 ++ c1 :: c2 :: bs2 := by
  rcases List.mem_append.mp hb with h | h
  · exact List.mem_append.mpr (Or.inl h)
  · rcases List.mem_cons.mp h with h | h
    · exact absurd h hne
    · exact List.mem_append.mpr
        (Or.inr (List.mem_cons_of_mem _ (List.mem_cons_of_mem _ h)))

theorem mem_replace_back₂ {b c c1 c2 : Blk} {bs1 bs2 : List Blk}
    (hb : b ∈ bs1 ++ c1 :: c2 :: bs2) (h1 : b ≠ c1) (h2 : b ≠ c2) :
    b ∈ bs1 ++ c :: bs2 := by
  rcases List.mem_append.mp hb with h | h
  · exact List.mem_append.mpr (Or.inl h)
  · rcases List.mem_cons.mp h with h | h
    · exact absurd h h1
    · rcases List.mem_cons.mp h with h | h
      · exact absurd h h2
      · exact List.mem_append.mpr (Or.inr (List.mem_cons_of_mem _ h))

theorem sentinel_shape {c hd : Blk} {bs1 bs2 rest : List Blk}
    (h : bs1 ++ c :: bs2 = hd :: rest) (hne : c ≠ hd) :
    ∃ tl, bs1 = hd :: tl := by
  cases bs1 with
  | nil =>
    simp only [List.nil_append, List.cons.injEq] at h
    exact absurd h.1 hne
  | cons d tl =>
    simp only [List.cons_append, List.cons.injEq] at h
    exact ⟨tl, by rw [h.1]⟩

/-- Frame for writes confined to one block's byte range: the table slots
are unchanged. -/
theorem SegCtx.slots_frame_outside {s : MState} {bs : List Blk}
    {fl : Nat → List Nat} (h : SegCtx s bs fl) {f szf af : Nat}
    (hf : (f, szf, af) ∈ bs) {m' : Mem}
    (hm : ∀ x, x < f - 4 ∨ f + szf - 4 ≤ x → m' x = s.mem x) :
    ∀ j, j < 8 → GET_PTR m' (slotAddr s j) = slotHead s j := by
  intro j hj
  have hs := h.slot_lt_blocks hj
  have hg := h.block_geo _ hf
  have hhp := h.hp_eq
  simp only [blkPtr, blkSize] at hg
  unfold slotHead GET_PTR
  exact readBytes_congr (fun x hx1 hx2 => hm x (Or.inl (by omega)))

/-- Writes confined to one block's byte range leave every other block's
bytes unchanged. -/
theorem SegCtx.others_frame_outside {s : MState} {bs : List Blk}
    {fl : Nat → List Nat} (h : SegCtx s bs fl) {f szf af : Nat}
    (hf : (f, szf, af) ∈ bs) {m' : Mem}
    (hm : ∀ x, x < f - 4 ∨ f + szf - 4 ≤ x → m' x = s.mem x) :
    ∀ b ∈ bs, blkPtr b ≠ f → ∀ x, blkPtr b - 4 ≤ x →
      x < blkPtr b + blkSize b - 4 → m' x = s.mem x := by
  intro b hb hbne x hx1 hx2
  have hbne' : b ≠ (f, szf, af) := fun hc => hbne (by rw [hc]; rfl)
  have hd := BlocksRep.ranges_disjoint h.blocks b hb _ hf hbne'
  have hgb := h.block_geo b hb
  have hgf := h.block_geo _ hf
  simp only [blkPtr, blkSize] at hd hgf hgb hx1 hx2
  refine hm x ?_
  rcases hd with hd | hd
  · left; omega
  · right; omega

/-- Writes confined to one block's byte range leave every other block's
tag words unchanged. -/
theorem SegCtx.tags_frame_outside {s : MState} {bs : List Blk}
    {fl : Nat → List Nat} (h : SegCtx s bs fl) {f szf af : Nat}
    (hf : (f, szf, af) ∈ bs) {m' : Mem}
    (hm : ∀ x, x < f - 4 ∨ f + szf - 4 ≤ x → m' x = s.mem x) :
    ∀ b ∈ bs, blkPtr b ≠ f →
      GET m' (blkPtr b - 4) = GET s.mem (blkPtr b - 4) ∧
      GET m' (blkPtr b + blkSize b - 8) =
        GET s.mem (blkPtr b + blkSize b - 8) := by
  intro b hb hbne
  have hgb := h.block_geo b hb
  constructor
  · exact readBytes_congr (fun x hx1 hx2 =>
      h.others_frame_outside hf hm b hb hbne x (by omega) (by omega))
  · exact readBytes_congr (fun x hx1 hx2 =>
      h.others_frame_outside hf hm b hb hbne x (by omega) (by omega))

/-- Writes confined to one block's byte range, with the block out of every
chain, keep every chain represented. -/
theorem SegCtx.chains_frame_outside {s : MState} {bs : List Blk}
    {fl : Nat → List Nat} (h : SegCtx s bs fl) {f szf af : Nat}
    (hf : (f, szf, af) ∈ bs) {m' : Mem}
    (hm : ∀ x, x < f - 4 ∨ f + szf - 4 ≤ x → m' x = s.mem x)
    (hnofl : ∀ j, j < 8 → f ∉ fl j) :
    ∀ j, j < 8 → ChainRep { s with mem := m' }
      (slotHead { s with mem := m' } j) (fl j) := by
  intro j hj
  have hslot : slotHead { s with mem := m' } j = slotHead s j :=
    h.slots_frame_outside hf hm j hj
  rw [hslot]
  refine ChainRep.chain_frame (h.chains j hj) ?_ ?_
  · intro q hq
    obtain ⟨szq, hqb, _⟩ := h.chain_mem j hj q hq
    have hqf : q ≠ f := fun hc => hnofl j hj (hc ▸ hq)
    have hgq := h.block_geo _ hqb
    simp only [blkPtr, blkSize] at hgq
    exact readBytes_congr (fun x hx1 hx2 =>
      h.others_frame_outside hf hm _ hqb hqf x
        (by simp only [blkPtr]; omega) (by simp only [blkPtr, blkSize]; omega))
  · intro q hq
    exact (ChainRep.mem_props (h.chains j hj) q hq).1

theorem PACK_zero (sz : Nat) : PACK sz 0 = sz := by
  unfold PACK
  exact Nat.or_zero sz

/-- `place` on a nonzero pointer and size is the two tag writes, the footer
address read back from the freshly written header. -/
theorem place_eq {s : MState} {f szf : Nat} (hf : f ≠ 0) (hsz : szf ≠ 0)
    (h8 : szf % 8 = 0) (hlt : szf + 1 < 2 ^ 32) :
    place s f szf = { s with mem := (PUT (PUT s.mem (f - 4) (szf + 1))
      (f + szf - 8) (szf + 1)) } := by
  have hpack : PACK szf 1 = szf + 1 := PACK_eq h8 (by norm_num)
  unfold place
  rw [if_neg (by push_neg; exact ⟨hf, hsz⟩)]
  have hread : GET_SIZE (PUT s.mem (GET_HEADER f) (PACK szf 1)) (GET_HEADER f)
      = szf := by
    unfold GET_SIZE
    rw [GET_PUT, hpack, Nat.mod_eq_of_lt hlt]
    omega
  unfold GET_FOOTER
  dsimp only
  rw [hread, hpack]
  rfl

/-- Retagging one parsed free block as allocated (same size), assuming it
is out of every chain: the core of `place` on a whole block. -/
theorem retag_alloc {s : MState} {bs1 bs2 : List Blk} {fl : Nat → List Nat}
    {f szf : Nat} (h : SegCtx s (bs1 ++ (f, szf, 0) :: bs2) fl)
    (hnofl : ∀ j, j < 8 → f ∉ fl j) :
    SegCtx { s with mem := (PUT (PUT s.mem (f - 4) (szf + 1))
        (f + szf - 8) (szf + 1)) }
      (bs1 ++ (f, szf, 1) :: bs2) fl ∧
    allocBytesEq (bs1 ++ (f, szf, 0) :: bs2) s.mem
      (PUT (PUT s.mem (f - 4) (szf + 1)) (f + szf - 8) (szf + 1)) := by
  have hfb : ((f, szf, 0) : Blk) ∈ bs1 ++ (f, szf, 0) :: bs2 :=
    List.mem_append.mpr (Or.inr (List.mem_cons_self _ _))
  have hg := h.block_geo _ hfb
  simp only [blkPtr, blkSize, blkAlloc] at hg
  have hhp := h.hp_eq
  have hszlt : szf < 2 ^ 32 := by
    have := h.size_lt _ hfb
    simpa [blkSize] using this
  have hm : ∀ x, x < f - 4 ∨ f + szf - 4 ≤ x →
      PUT (PUT s.mem (f - 4) (szf + 1)) (f + szf - 8) (szf + 1) x = s.mem x := by
    intro x hx
    unfold PUT
    rw [writeBytes_outside _ _ (by omega), writeBytes_outside _ _ (by omega)]
  obtain ⟨q, hq1, hq2⟩ := BlocksRep.append_iff.mp h.blocks
  rw [BlocksRep.cons_iff] at hq2
  obtain ⟨hfp, hsz, h8, _, hhdr, hftr, ht⟩ := hq2
  simp only [blkPtr, blkSize, blkAlloc] at hfp hsz h8 hhdr hftr ht
  subst hfp
  have hnewhdr : GET (PUT (PUT s.mem (f - 4) (szf + 1)) (f + szf - 8) (szf + 1))
      (f - 4) = szf + 1 := by
    rw [GET_PUT_out _ _ (Or.inl (by omega)), GET_PUT,
      Nat.mod_eq_of_lt (by omega)]
  have hnewftr : GET (PUT (PUT s.mem (f - 4) (szf + 1)) (f + szf - 8) (szf + 1))
      (f + szf - 8) = szf + 1 := by
    rw [GET_PUT, Nat.mod_eq_of_lt (by omega)]
  have hblocks : BlocksRep
      (PUT (PUT s.mem (f - 4) (szf + 1)) (f + szf - 8) (szf + 1))
      s.memHp (s.brk + 8) (bs1 ++ (f, szf, 1) :: bs2) := by
    refine BlocksRep.append_iff.mpr ⟨f, ?_, ?_⟩
    · exact BlocksRep.frame hq1 (by omega)
        (fun x hx1 hx2 => hm x (Or.inl (by omega)))
    · refine BlocksRep.cons_iff.mpr ⟨rfl, hsz, h8, Nat.le_refl 1, ?_, ?_, ?_⟩
      · exact hnewhdr
      · exact hnewftr
      · show BlocksRep _ (f + szf) (s.brk + 8) bs2
        exact BlocksRep.frame ht (by omega)
          (fun x hx1 hx2 => hm x (Or.inr (by omega)))
  refine ⟨SegCtx.mk h.bp_eq h.hp_eq h.hp_align h.max_lt h.brk_le hblocks ?_ ?_ ?_,
    ?_⟩
  · obtain ⟨rest, hrest⟩ := h.sentinel
    obtain ⟨tl, htl⟩ := sentinel_shape hrest (by
      intro hc
      have : (0 : Nat) = 1 := congrArg blkAlloc hc
      cases this)
    exact ⟨tl ++ (f, szf, 1) :: bs2, by rw [htl]; rfl⟩
  · exact h.chains_frame_outside hfb hm hnofl
  · intro i hi r hr
    obtain ⟨szr, hrb, hclass⟩ := h.chain_mem i hi r hr
    have hrf : r ≠ f := fun hc => hnofl i hi (hc ▸ hr)
    refine ⟨szr, mem_replace_mid hrb ?_, hclass⟩
    intro hc
    exact hrf (congrArg blkPtr hc)
  · intro b hb hba x hx1 hx2
    have hbf : blkPtr b ≠ f := by
      intro hc
      have := BlocksRep.ptr_inj h.blocks hb hfb hc
      rw [this] at hba
      simp [blkAlloc] at hba
    exact h.others_frame_outside hfb hm b hb hbf x hx1 hx2

/-- Retagging one parsed free block, out of every chain, as an allocated
prefix of size `bsz` followed by a free remainder: the tag writes of the
splitting branch of `mm_malloc`. -/
theorem retag_split {s : MState} {bs1 bs2 : List Blk} {fl : Nat → List Nat}
    {f szf bsz : Nat} (h : SegCtx s (bs1 ++ (f, szf, 0) :: bs2) fl)
    (hnofl : ∀ j, j < 8 → f ∉ fl j)
    (hb16 : 16 ≤ bsz) (hb8 : bsz % 8 = 0) (hrem : bsz + 16 ≤ szf) :
    SegCtx { s with mem := (PUT (PUT (PUT (PUT s.mem (f - 4) (bsz + 1))
        (f + bsz - 8) (bsz + 1)) (f + bsz - 4) (szf - bsz))
        (f + szf - 8) (szf - bsz)) }
      (bs1 ++ (f, bsz, 1) :: (f + bsz, szf - bsz, 0) :: bs2) fl ∧
    allocBytesEq (bs1 ++ (f, szf, 0) :: bs2) s.mem
      (PUT (PUT (PUT (PUT s.mem (f - 4) (bsz + 1)) (f + bsz - 8) (bsz + 1))
        (f + bsz - 4) (szf - bsz)) (f + szf - 8) (szf - bsz)) := by
  have hfb : ((f, szf, 0) : Blk) ∈ bs1 ++ (f, szf, 0) :: bs2 :=
    List.mem_append.mpr (Or.inr (List.mem_cons_self _ _))
  have hg := h.block_geo _ hfb
  simp only [blkPtr, blkSize, blkAlloc] at hg
  have hhp := h.hp_eq
  have hszlt : szf < 2 ^ 32 := by
    have := h.size_lt _ hfb
    simpa [blkSize] using this
  have hm : ∀ x, x < f - 4 ∨ f + szf - 4 ≤ x →
      PUT (PUT (PUT (PUT s.mem (f - 4) (bsz + 1)) (f + bsz - 8) (bsz + 1))
        (f + bsz - 4) (szf - bsz)) (f + szf - 8) (szf - bsz) x = s.mem x := by
    intro x hx
    unfold PUT
    rw [writeBytes_outside _ _ (by omega), writeBytes_outside _ _ (by omega),
      writeBytes_outside _ _ (by omega), writeBytes_outside _ _ (by omega)]
  obtain ⟨q, hq1, hq2⟩ := BlocksRep.append_iff.mp h.blocks
  rw [BlocksRep.cons_iff] at hq2
  obtain ⟨hfp, hsz, h8, _, hhdr, hftr, ht⟩ := hq2
  simp only [blkPtr, blkSize, blkAlloc] at hfp hsz h8 hhdr hftr ht
  subst hfp
  have hhdr1 : GET (PUT (PUT (PUT (PUT s.mem (f - 4) (bsz + 1))
      (f + bsz - 8) (bsz + 1)) (f + bsz - 4) (szf - bsz))
      (f + szf - 8) (szf - bsz)) (f - 4) = bsz + 1 := by
    rw [GET_PUT_out _ _ (Or.inl (by omega)), GET_PUT_out _ _ (Or.inl (by omega)),
      GET_PUT_out _ _ (Or.inl (by omega)), GET_PUT, Nat.mod_eq_of_lt (by omega)]
  have hftr1 : GET (PUT (PUT (PUT (PUT s.mem (f - 4) (bsz + 1))
      (f + bsz - 8) (bsz + 1)) (f + bsz - 4) (szf - bsz))
      (f + szf - 8) (szf - bsz)) (f + bsz - 8) = bsz + 1 := by
    rw [GET_PUT_out _ _ (Or.inl (by omega)), GET_PUT_out _ _ (Or.inl (by omega)),
      GET_PUT, Nat.mod_eq_of_lt (by omega)]
  have hhdr2 : GET (PUT (PUT (PUT (PUT s.mem (f - 4) (bsz + 1))
      (f + bsz - 8) (bsz + 1)) (f + bsz - 4) (szf - bsz))
      (f + szf - 8) (szf - bsz)) (f + bsz - 4) = szf - bsz := by
    rw [GET_PUT_out _ _ (Or.inl (by omega)), GET_PUT, Nat.mod_eq_of_lt (by omega)]
  have hftr2 : GET (PUT (PUT (PUT (PUT s.mem (f - 4) (bsz + 1))
      (f + bsz - 8) (bsz + 1)) (f + bsz - 4) (szf - bsz))
      (f + szf - 8) (szf - bsz)) (f + szf - 8) = szf - bsz := by
    rw [GET_PUT, Nat.mod_eq_of_lt (by omega)]
  have hblocks : BlocksRep
      (PUT (PUT (PUT (PUT s.mem (f - 4) (bsz + 1)) (f + bsz - 8) (bsz + 1))
        (f + bsz - 4) (szf - bsz)) (f + szf - 8) (szf - bsz))
      s.memHp (s.brk + 8)
      (bs1 ++ (f, bsz, 1) :: (f + bsz, szf - bsz, 0) :: bs2) := by
    refine BlocksRep.append_iff.mpr ⟨f, ?_, ?_⟩
    · exact BlocksRep.frame hq1 (by omega)
        (fun x hx1 hx2 => hm x (Or.inl (by omega)))
    · refine BlocksRep.cons_iff.mpr ⟨rfl, hb16, hb8, Nat.le_refl 1, hhdr1,
        ?_, ?_⟩
      · exact hftr1
      · refine BlocksRep.cons_iff.mpr ⟨rfl, by
          simp only [blkSize]; omega, by simp only [blkSize]; omega,
          Nat.zero_le 1, ?_, ?_, ?_⟩
        · simp only [blkSize, blkAlloc]
          have he : f + bsz - 4 = f + bsz - 4 := rfl
          rw [Nat.add_zero]
          exact hhdr2
        · simp only [blkSize, blkAlloc]
          have he : f + bsz + (szf - bsz) - 8 = f + szf - 8 := by omega
          rw [Nat.add_zero, he]
          exact hftr2
        · show BlocksRep _ (f + bsz + (szf - bsz)) (s.brk + 8) bs2
          have he : f + bsz + (szf - bsz) = f + szf := by omega
          rw [he]
          exact BlocksRep.frame ht (by omega)
            (fun x hx1 hx2 => hm x (Or.inr (by omega)))
  refine ⟨SegCtx.mk h.bp_eq h.hp_eq h.hp_align h.max_lt h.brk_le hblocks ?_ ?_ ?_,
    ?_⟩
  · obtain ⟨rest, hrest⟩ := h.sentinel
    obtain ⟨tl, htl⟩ := sentinel_shape hrest (by
      intro hc
      have : (0 : Nat) = 1 := congrArg blkAlloc hc
      cases this)
    exact ⟨tl ++ (f, bsz, 1) :: (f + bsz, szf - bsz, 0) :: bs2, by rw [htl]; rfl⟩
  · exact h.chains_frame_outside hfb hm hnofl
  · intro i hi r hr
    obtain ⟨szr, hrb, hclass⟩ := h.chain_mem i hi r hr
    have hrf : r ≠ f := fun hc => hnofl i hi (hc ▸ hr)
    refine ⟨szr, mem_replace_mid₂ hrb ?_, hclass⟩
    intro hc
    exact hrf (congrArg blkPtr hc)
  · intro b hb hba x hx1 hx2
    have hbf : blkPtr b ≠ f := by
      intro hc
      have := BlocksRep.ptr_inj h.blocks hb hfb hc
      rw [this] at hba
      simp [blkAlloc] at hba
    exact h.others_frame_outside hfb hm b hb hbf x hx1 hx2

/-- Writes to disjoint byte ranges commute. -/
theorem writeBytes_comm {a n a' n' : Nat} (m : Mem) (v v' : Nat)
    (h : a + n ≤ a' ∨ a' + n' ≤ a) :
    writeBytes (writeBytes m a n v) a' n' v' =
      writeBytes (writeBytes m a' n' v') a n v := by
  funext x
  by_cases h1 : a ≤ x ∧ x < a + n
  · have hL : writeBytes (writeBytes m a n v) a' n' v' x =
        v / 256 ^ (x - a) % 256 := by
      rw [writeBytes_outside _ _ (by omega)]
      exact writeBytes_inside _ _ h1.1 h1.2
    rw [hL, writeBytes_inside _ _ h1.1 h1.2]
  · by_cases h2 : a' ≤ x ∧ x < a' + n'
    · have hR : writeBytes (writeBytes m a' n' v') a n v x =
          v' / 256 ^ (x - a') % 256 := by
        rw [writeBytes_outside _ _ (by omega)]
        exact writeBytes_inside _ _ h2.1 h2.2
      rw [hR, writeBytes_inside _ _ h2.1 h2.2]
    · rw [writeBytes_outside _ _ (by omega), writeBytes_outside _ _ (by omega),
        writeBytes_outside _ _ (by omega), writeBytes_outside _ _ (by omega)]

/-- A free block is in no chain of a class other than its own. -/
theorem SegCtx.not_in_other_chains {s : MState} {bs : List Blk}
    {fl : Nat → List Nat} (h : SegCtx s bs fl) {f szf : Nat}
    (hfb : (f, szf, 0) ∈ bs) {j : Nat} (hj : j < 8)
    (hne : j ≠ get_size_class szf) : f ∉ fl j := by
  intro hc
  obtain ⟨sz', hfb', hcl⟩ := h.chain_mem j hj f hc
  have heq := BlocksRep.ptr_inj h.blocks hfb' hfb rfl
  have hsz : sz' = szf := by
    simp only [Prod.mk.injEq] at heq
    exact heq.2.1
  rw [hsz] at hcl
  exact hne hcl.symm

/-- Explicit evaluation of `seg_list_remove` on a state whose target class
chain is represented with the target on it: the splice is the two pointer
writes. -/
theorem seg_list_remove_eval {s : MState} {f i : Nat} {l1 l2 : List Nat}
    (hclass : get_size_class (GET_SIZE s.mem (GET_HEADER f)) = i)
    (hchain : ChainRep s (GET_PTR s.mem (s.segLists + 8 * i)) (l1 ++ f :: l2))
    (hnl1 : f ∉ l1) (hlen : (l1 ++ f :: l2).length < s.memBp) :
    seg_list_remove s f = some { s with mem :=
      (PUT_PTR (PUT_PTR s.mem (l1.getLastD (s.segLists + 8 * i))
        (if INSIDE_HEAP s (GET_PTR s.mem f) ∧ GET_PTR s.mem f ≠ 0 then
          GET_PTR s.mem f else 0)) f 0) } := by
  unfold seg_list_remove
  dsimp only
  rw [hclass]
  rw [seg_list_remove_go_mem hchain hnl1 hlen]
  show some _ = some _
  rw [← apply_ite (PUT_PTR s.mem (l1.getLastD (s.segLists + 8 * i)))]

/-- The splice of an indexed free block commutes with first retagging the
block allocated (`place` before `seg_list_remove`, as the absorb branch of
`mm_malloc` does): the class lookup still reads the unchanged size field,
the walk follows unchanged links, and the write sets are disjoint. -/
theorem seg_list_remove_place_comm {s : MState} {bs1 bs2 : List Blk}
    {fl : Nat → List Nat} {f szf : Nat}
    (h : SegCtx s (bs1 ++ (f, szf, 0) :: bs2) fl)
    (hfI : f ∈ fl (get_size_class szf)) :
    ∃ mR : Mem, seg_list_remove s f = some { s with mem := mR } ∧
      seg_list_remove (place s f szf) f =
        some { s with mem :=
          (PUT (PUT mR (f - 4) (szf + 1)) (f + szf - 8) (szf + 1)) } := by
  have hfb : ((f, szf, 0) : Blk) ∈ bs1 ++ (f, szf, 0) :: bs2 :=
    List.mem_append.mpr (Or.inr (List.mem_cons_self _ _))
  have hg := h.block_geo _ hfb
  simp only [blkPtr, blkSize, blkAlloc] at hg
  have hhp := h.hp_eq
  have hszlt : szf < 2 ^ 32 := by
    have := h.size_lt _ hfb
    simpa [blkSize] using this
  have htag := h.read_tag hfb
  set i := get_size_class szf with hidef
  have hi : i < 8 := get_size_class_lt szf
  have hch := h.chains i hi
  have hlen := h.chain_len hi
  have hplace : place s f szf = { s with mem :=
      (PUT (PUT s.mem (f - 4) (szf + 1)) (f + szf - 8) (szf + 1)) } :=
    place_eq (by omega) (by omega) (by omega) (by omega)
  have hm : ∀ x, x < f - 4 ∨ f + szf - 4 ≤ x →
      PUT (PUT s.mem (f - 4) (szf + 1)) (f + szf - 8) (szf + 1) x = s.mem x := by
    intro x hx
    unfold PUT
    rw [writeBytes_outside _ _ (by omega), writeBytes_outside _ _ (by omega)]
  have hlinkf : GET_PTR (PUT (PUT s.mem (f - 4) (szf + 1))
      (f + szf - 8) (szf + 1)) f = GET_PTR s.mem f := by
    rw [GET_PTR_PUT_out _ _ (Or.inl (by omega)),
      GET_PTR_PUT_out _ _ (Or.inr (by omega))]
  have hlinks : ∀ q ∈ fl i, GET_PTR (PUT (PUT s.mem (f - 4) (szf + 1))
      (f + szf - 8) (szf + 1)) q = GET_PTR s.mem q := by
    intro q hq
    by_cases hqf : q = f
    · subst hqf
      exact hlinkf
    · obtain ⟨szq, hqb, _⟩ := h.chain_mem i hi q hq
      have hgq := h.block_geo _ hqb
      simp only [blkPtr, blkSize] at hgq
      exact readBytes_congr (fun x hx1 hx2 =>
        h.others_frame_outside hfb hm _ hqb hqf x
          (by simp only [blkPtr]; omega) (by simp only [blkPtr, blkSize]; omega))
  have hslot : GET_PTR (PUT (PUT s.mem (f - 4) (szf + 1))
      (f + szf - 8) (szf + 1)) (s.segLists + 8 * i) = slotHead s i :=
    h.slots_frame_outside hfb hm i hi
  obtain ⟨l1, l2, hfl⟩ := List.append_of_mem hfI
  have hnd : (fl i).Nodup := ChainRep.nodup hch
  have hndsplit := hnd
  rw [hfl, List.nodup_append] at hndsplit
  have hq1 : f ∉ l1 := fun hc => hndsplit.2.2 hc (List.mem_cons_self _ _)
  have hkq : l1.getLastD (s.segLists + 8 * i) + 8 ≤ f - 4 ∨
      f + szf - 4 ≤ l1.getLastD (s.segLists + 8 * i) := by
    by_cases hl1e : l1 = []
    · subst hl1e
      simp only [List.getLastD_nil]
      left
      have hs := h.slot_lt_blocks hi
      unfold slotAddr at hs
      omega
    · have hkmem : l1.getLastD (s.segLists + 8 * i) ∈ l1 := getLastD_mem hl1e _
      have hkfl : l1.getLastD (s.segLists + 8 * i) ∈ fl i := by
        rw [hfl]
        exact List.mem_append.mpr (Or.inl hkmem)
      obtain ⟨szk, hkb, _⟩ := h.chain_mem i hi _ hkfl
      have hkf : l1.getLastD (s.segLists + 8 * i) ≠ f :=
        fun hc => hq1 (hc ▸ hkmem)
      have hgk := h.block_geo _ hkb
      simp only [blkPtr, blkSize] at hgk
      have hbne : ((l1.getLastD (s.segLists + 8 * i), szk, 0) : Blk) ≠
          (f, szf, 0) := fun hc => hkf (congrArg blkPtr hc)
      have hd := BlocksRep.ranges_disjoint h.blocks _ hkb _ hfb hbne
      simp only [blkPtr, blkSize] at hd
      rcases hd with hd | hd
      · left; omega
      · right; omega
  -- explicit evaluation on `s`
  have hrem : seg_list_remove s f = some { s with mem :=
      (PUT_PTR (PUT_PTR s.mem (l1.getLastD (s.segLists + 8 * i))
        (if INSIDE_HEAP s (GET_PTR s.mem f) ∧ GET_PTR s.mem f ≠ 0 then
          GET_PTR s.mem f else 0)) f 0) } := by
    refine @seg_list_remove_eval s f i l1 l2 ?_ ?_ hq1 ?_
    · rw [htag.1, ← hidef]
    · rw [← hfl]
      exact hch
    · rw [← hfl]
      exact hlen
  -- explicit evaluation on the placed state
  have hhdrP : GET (PUT (PUT s.mem (f - 4) (szf + 1)) (f + szf - 8) (szf + 1))
      (f - 4) = szf + 1 := by
    rw [GET_PUT_out _ _ (Or.inl (by omega)), GET_PUT, Nat.mod_eq_of_lt (by omega)]
  have hremP : seg_list_remove { s with mem :=
      (PUT (PUT s.mem (f - 4) (szf + 1)) (f + szf - 8) (szf + 1)) } f =
      some { s with mem :=
        (PUT_PTR (PUT_PTR (PUT (PUT s.mem (f - 4) (szf + 1))
            (f + szf - 8) (szf + 1)) (l1.getLastD (s.segLists + 8 * i))
          (if INSIDE_HEAP s (GET_PTR s.mem f) ∧ GET_PTR s.mem f ≠ 0 then
            GET_PTR s.mem f else 0)) f 0) } := by
    have hev := @seg_list_remove_eval ({ s with mem :=
        (PUT (PUT s.mem (f - 4) (szf + 1)) (f + szf - 8) (szf + 1)) }) f i l1
      l2 ?_ ?_ hq1 ?_
    · rw [hev]
      dsimp only
      show some _ = some _
      have hw : (if INSIDE_HEAP { s with mem :=
            (PUT (PUT s.mem (f - 4) (szf + 1)) (f + szf - 8) (szf + 1)) }
            (GET_PTR (PUT (PUT s.mem (f - 4) (szf + 1))
              (f + szf - 8) (szf + 1)) f) ∧
            GET_PTR (PUT (PUT s.mem (f - 4) (szf + 1))
              (f + szf - 8) (szf + 1)) f ≠ 0 then
          GET_PTR (PUT (PUT s.mem (f - 4) (szf + 1)) (f + szf - 8) (szf + 1)) f
        else 0) =
          (if INSIDE_HEAP s (GET_PTR s.mem f) ∧ GET_PTR s.mem f ≠ 0 then
            GET_PTR s.mem f else 0) := by
        rw [hlinkf]
        rfl
      rw [hw]
    · show get_size_class (GET_SIZE (PUT (PUT s.mem (f - 4) (szf + 1))
        (f + szf - 8) (szf + 1)) (GET_HEADER f)) = i
      unfold GET_SIZE GET_HEADER
      rw [hhdrP]
      rw [hidef]
      have h88 : (szf + 1) / 8 * 8 = szf := by omega
      rw [h88]
    · show ChainRep { s with mem :=
          (PUT (PUT s.mem (f - 4) (szf + 1)) (f + szf - 8) (szf + 1)) }
        (GET_PTR (PUT (PUT s.mem (f - 4) (szf + 1)) (f + szf - 8) (szf + 1))
          (s.segLists + 8 * i)) (l1 ++ f :: l2)
      rw [hslot, ← hfl]
      refine ChainRep.chain_frame hch hlinks ?_
      intro q hq
      exact (ChainRep.mem_props hch q hq).1
    · show (l1 ++ f :: l2).length < s.memBp
      rw [← hfl]
      exact hlen
  refine ⟨PUT_PTR (PUT_PTR s.mem (l1.getLastD (s.segLists + 8 * i))
      (if INSIDE_HEAP s (GET_PTR s.mem f) ∧ GET_PTR s.mem f ≠ 0 then
        GET_PTR s.mem f else 0)) f 0, hrem, ?_⟩
  rw [hplace, hremP]
  show some _ = some _
  have hcomm : PUT_PTR (PUT_PTR (PUT (PUT s.mem (f - 4) (szf + 1))
        (f + szf - 8) (szf + 1)) (l1.getLastD (s.segLists + 8 * i))
      (if INSIDE_HEAP s (GET_PTR s.mem f) ∧ GET_PTR s.mem f ≠ 0 then
        GET_PTR s.mem f else 0)) f 0 =
      PUT (PUT (PUT_PTR (PUT_PTR s.mem (l1.getLastD (s.segLists + 8 * i))
        (if INSIDE_HEAP s (GET_PTR s.mem f) ∧ GET_PTR s.mem f ≠ 0 then
          GET_PTR s.mem f else 0)) f 0) (f - 4) (szf + 1))
        (f + szf - 8) (szf + 1) := by
    unfold PUT PUT_PTR
    rw [writeBytes_comm (writeBytes s.mem (f - 4) 4 (szf + 1)) (szf + 1) _
      (by omega)]
    rw [writeBytes_comm s.mem (szf + 1) _ (by omega)]
    rw [writeBytes_comm (writeBytes
      (writeBytes s.mem (l1.getLastD (s.segLists + 8 * i)) 8
        (if INSIDE_HEAP s (GET_PTR s.mem f) ∧ GET_PTR s.mem f ≠ 0 then
          GET_PTR s.mem f else 0)) (f - 4) 4 (szf + 1)) (szf + 1) 0 (by omega)]
    rw [writeBytes_comm (writeBytes s.mem
      (l1.getLastD (s.segLists + 8 * i)) 8
        (if INSIDE_HEAP s (GET_PTR s.mem f) ∧ GET_PTR s.mem f ≠ 0 then
          GET_PTR s.mem f else 0)) (szf + 1) 0 (by omega)]
  rw [hcomm]

/-- Correctness of the absorb branch of `mm_malloc` on an indexed free
fit: the block is retagged allocated and spliced out of its class list;
everything else is untouched. -/
theorem malloc_absorb_correct {s : MState} {bs1 bs2 : List Blk}
    {fl : Nat → List Nat} {f szf : Nat}
    (h : SegCtx s (bs1 ++ (f, szf, 0) :: bs2) fl)
    (hfI : f ∈ fl (get_size_class szf)) :
    ∃ s', malloc_absorb s f = some (some f, s') ∧
      s'.segLists = s.segLists ∧ s'.memHp = s.memHp ∧ s'.memBp = s.memBp ∧
      s'.brk = s.brk ∧ s'.maxAddr = s.maxAddr ∧
      SegCtx s' (bs1 ++ (f, szf, 1) :: bs2)
        (flUpd fl (get_size_class szf) ((fl (get_size_class szf)).erase f)) ∧
      allocBytesEq (bs1 ++ (f, szf, 0) :: bs2) s.mem s'.mem := by
  have hfb : ((f, szf, 0) : Blk) ∈ bs1 ++ (f, szf, 0) :: bs2 :=
    List.mem_append.mpr (Or.inr (List.mem_cons_self _ _))
  have htag := h.read_tag hfb
  obtain ⟨mR, hrem, hremP⟩ := seg_list_remove_place_comm h hfI
  obtain ⟨sR, hsR, hs1, hs2, hs3, hs4, hs5, hctxR, habeR⟩ :=
    seg_list_remove_correct h hfb hfI
  rw [hrem] at hsR
  have hsReq : { s with mem := mR } = sR := Option.some.inj hsR
  subst hsReq
  have hnofl : ∀ j, j < 8 → f ∉ (flUpd fl (get_size_class szf)
      ((fl (get_size_class szf)).erase f)) j := by
    intro j hj
    unfold flUpd
    by_cases hji : j = get_size_class szf
    · rw [if_pos hji]
      intro hc
      have hnd : (fl (get_size_class szf)).Nodup :=
        ChainRep.nodup (h.chains _ (get_size_class_lt szf))
      exact ((List.Nodup.mem_erase_iff hnd).mp hc).1 rfl
    · rw [if_neg hji]
      exact h.not_in_other_chains hfb hj hji
  obtain ⟨hctxF, habeF⟩ := retag_alloc hctxR hnofl
  refine ⟨{ s with mem :=
      (PUT (PUT mR (f - 4) (szf + 1)) (f + szf - 8) (szf + 1)) },
    ?_, rfl, rfl, rfl, rfl, rfl, hctxF, allocBytesEq_trans habeR habeF⟩
  unfold malloc_absorb
  rw [htag.1, hremP]

/-- Correctness of the splitting branch of `mm_malloc` on an indexed free
fit with a usable remainder: the candidate is spliced out, its prefix
retagged allocated, and the remainder tagged free and indexed under its
own class. -/
theorem malloc_split_correct {s : MState} {bs1 bs2 : List Blk}
    {fl : Nat → List Nat} {f szf bsz : Nat}
    (h : SegCtx s (bs1 ++ (f, szf, 0) :: bs2) fl)
    (hfI : f ∈ fl (get_size_class szf))
    (hb16 : 16 ≤ bsz) (hb8 : bsz % 8 = 0) (hrem : bsz + 16 ≤ szf) :
    ∃ s', malloc_split s f bsz (szf - bsz) = some (some f, s') ∧
      s'.segLists = s.segLists ∧ s'.memHp = s.memHp ∧ s'.memBp = s.memBp ∧
      s'.brk = s.brk ∧ s'.maxAddr = s.maxAddr ∧
      SegCtx s' (bs1 ++ (f, bsz, 1) :: (f + bsz, szf - bsz, 0) :: bs2)
        (flUpd (flUpd fl (get_size_class szf)
            ((fl (get_size_class szf)).erase f))
          (get_size_class (szf - bsz))
          ((f + bsz) :: (flUpd fl (get_size_class szf)
            ((fl (get_size_class szf)).erase f)) (get_size_class (szf - bsz)))) ∧
      allocBytesEq (bs1 ++ (f, szf, 0) :: bs2) s.mem s'.mem := by
  have hfb : ((f, szf, 0) : Blk) ∈ bs1 ++ (f, szf, 0) :: bs2 :=
    List.mem_append.mpr (Or.inr (List.mem_cons_self _ _))
  have hg := h.block_geo _ hfb
  simp only [blkPtr, blkSize, blkAlloc] at hg
  have hszlt : szf < 2 ^ 32 := by
    have := h.size_lt _ hfb
    simpa [blkSize] using this
  obtain ⟨sR, hsR, hs1, hs2, hs3, hs4, hs5, hctxR, habeR⟩ :=
    seg_list_remove_correct h hfb hfI
  have hnofl : ∀ j, j < 8 → f ∉ (flUpd fl (get_size_class szf)
      ((fl (get_size_class szf)).erase f)) j := by
    intro j hj
    unfold flUpd
    by_cases hji : j = get_size_class szf
    · rw [if_pos hji]
      intro hc
      have hnd : (fl (get_size_class szf)).Nodup :=
        ChainRep.nodup (h.chains _ (get_size_class_lt szf))
      exact ((List.Nodup.mem_erase_iff hnd).mp hc).1 rfl
    · rw [if_neg hji]
      exact h.not_in_other_chains hfb hj hji
  obtain ⟨hctxT, habeT⟩ := retag_split hctxR hnofl hb16 hb8 hrem
  have hnp_notin : ∀ j, j < 8 → f + bsz ∉ fl j := by
    intro j hj hc
    obtain ⟨sz', hb', _⟩ := h.chain_mem j hj _ hc
    have hbne : ((f + bsz, sz', 0) : Blk) ≠ (f, szf, 0) := by
      intro hcc
      have := congrArg blkPtr hcc
      simp only [blkPtr] at this
      omega
    have hd := BlocksRep.ranges_disjoint h.blocks _ hb' _ hfb hbne
    have hg' := h.block_geo _ hb'
    simp only [blkPtr, blkSize] at hd hg'
    omega
  have hnl : ∀ j, j < 8 → f + bsz ∉ (flUpd fl (get_size_class szf)
      ((fl (get_size_class szf)).erase f)) j := by
    intro j hj hc
    apply hnp_notin j hj
    unfold flUpd at hc
    by_cases hji : j = get_size_class szf
    · rw [if_pos hji] at hc
      rw [hji]
      exact List.mem_of_mem_erase hc
    · rw [if_neg hji] at hc
      exact hc
  have hnewb : ((f + bsz, szf - bsz, 0) : Blk) ∈
      bs1 ++ (f, bsz, 1) :: (f + bsz, szf - bsz, 0) :: bs2 :=
    List.mem_append.mpr (Or.inr (List.mem_cons_of_mem _ (List.mem_cons_self _ _)))
  obtain ⟨sA, hAeq, hA1, hA2, hA3, hA4, hA5, hctxA, habeA⟩ :=
    seg_list_add_correct hctxT hnewb hnl
  have habe3 : allocBytesEq (bs1 ++ (f, szf, 0) :: bs2)
      s.mem sA.mem := by
    refine allocBytesEq_trans (allocBytesEq_trans habeR habeT) ?_
    intro b hb hba x hx1 hx2
    have hbne : b ≠ (f, szf, 0) := by
      intro hc
      rw [hc] at hba
      simp [blkAlloc] at hba
    exact habeA b (mem_replace_mid₂ hb hbne) hba x hx1 hx2
  refine ⟨sA, ?_, by rw [hA1, hs1], by rw [hA2, hs2], by rw [hA3, hs3],
    by rw [hA4, hs4], by rw [hA5, hs5], hctxA, habe3⟩
  -- evaluate the code path
  unfold malloc_split
  rw [hsR]
  show some _ = some _
  have hplace2 : place sR f bsz = { sR with mem :=
      (PUT (PUT sR.mem (f - 4) (bsz + 1)) (f + bsz - 8) (bsz + 1)) } :=
    place_eq (by omega) (by omega) hb8 (by omega)
  rw [hplace2]
  have hszread : GET_SIZE (PUT (PUT sR.mem (f - 4) (bsz + 1))
      (f + bsz - 8) (bsz + 1)) (GET_HEADER f) = bsz := by
    unfold GET_SIZE GET_HEADER
    rw [GET_PUT_out _ _ (Or.inl (by omega)), GET_PUT,
      Nat.mod_eq_of_lt (by omega)]
    omega
  dsimp only
  rw [hszread]
  rw [PACK_zero]
  have hhdr2 : GET_HEADER (bsz + f) = f + bsz - 4 := by
    unfold GET_HEADER
    omega
  rw [hhdr2]
  have hftraddr : GET_FOOTER (PUT (PUT (PUT sR.mem (f - 4) (bsz + 1))
      (f + bsz - 8) (bsz + 1)) (f + bsz - 4) (szf - bsz)) (bsz + f) =
      f + szf - 8 := by
    unfold GET_FOOTER GET_SIZE
    rw [hhdr2, GET_PUT, Nat.mod_eq_of_lt (by omega)]
    omega
  rw [hftraddr]
  rw [show bsz + f = f + bsz from Nat.add_comm bsz f]
  rw [hAeq]

/-- Correctness of the growth branch of `mm_malloc` when the provider can
supply `bsz` more bytes: the break advances by exactly `bsz` and the new
extent becomes one allocated block appended to the decomposition. -/
theorem malloc_grow_correct {s : MState} {bs : List Blk} {fl : Nat → List Nat}
    (h : SegCtx s bs fl) {bsz : Nat} (hb16 : 16 ≤ bsz) (hb8 : bsz % 8 = 0)
    (hok : s.brk + bsz ≤ s.maxAddr) :
    ∃ s', malloc_grow s bsz = some (some (s.brk + 8), s') ∧
      s'.segLists = s.segLists ∧ s'.memHp = s.memHp ∧
      s'.memBp = s.brk + bsz ∧ s'.brk = s.brk + bsz ∧ s'.maxAddr = s.maxAddr ∧
      SegCtx s' (bs ++ [(s.brk + 8, bsz, 1)]) fl ∧
      allocBytesEq bs s.mem s'.mem := by
  have hhp := h.hp_eq
  have hbr := h.brk_lb
  have hbp := h.bp_eq
  have hmax := h.max_lt
  have hbsz32 : bsz < 2 ^ 32 := by omega
  have hgrow : grow_heap s bsz = (some (s.brk + 8),
      { s with
        mem := (PUT (PUT s.mem (s.brk + 8 - 4) bsz) (s.brk + 8 + bsz - 8) bsz),
        memBp := s.brk + bsz,
        brk := s.brk + bsz }) := by
    unfold grow_heap mem_sbrk
    rw [if_neg (by omega : ¬ bsz = 0), if_neg (by omega : ¬ s.brk + bsz > s.maxAddr)]
    dsimp only [mem_heap_hi]
    rw [PACK_zero]
    rw [show GET_HEADER (s.brk + DSIZE) = s.brk + 8 - 4 from rfl]
    rw [show GET_FOOTER (PUT s.mem (s.brk + 8 - 4) bsz) (s.brk + DSIZE) =
        s.brk + 8 + bsz - 8 from by
      unfold GET_FOOTER GET_SIZE
      rw [show GET_HEADER (s.brk + DSIZE) = s.brk + 8 - 4 from rfl, GET_PUT,
        Nat.mod_eq_of_lt (by omega)]
      unfold DSIZE
      omega]
    rfl
  have hplaceG : place { s with
        mem := (PUT (PUT s.mem (s.brk + 8 - 4) bsz) (s.brk + 8 + bsz - 8) bsz),
        memBp := s.brk + bsz,
        brk := s.brk + bsz } (s.brk + 8) bsz =
      { s with
        mem := (PUT (PUT (PUT (PUT s.mem (s.brk + 8 - 4) bsz)
          (s.brk + 8 + bsz - 8) bsz) (s.brk + 8 - 4) (bsz + 1))
          (s.brk + 8 + bsz - 8) (bsz + 1)),
        memBp := s.brk + bsz,
        brk := s.brk + bsz } :=
    place_eq (by omega) (by omega) hb8 (by omega)
  have hm : ∀ x, x < s.brk + 4 →
      PUT (PUT (PUT (PUT s.mem (s.brk + 8 - 4) bsz) (s.brk + 8 + bsz - 8) bsz)
        (s.brk + 8 - 4) (bsz + 1)) (s.brk + 8 + bsz - 8) (bsz + 1) x =
      s.mem x := by
    intro x hx
    unfold PUT
    rw [writeBytes_outside _ _ (by omega), writeBytes_outside _ _ (by omega),
      writeBytes_outside _ _ (by omega), writeBytes_outside _ _ (by omega)]
  have hhdrN : GET (PUT (PUT (PUT (PUT s.mem (s.brk + 8 - 4) bsz)
      (s.brk + 8 + bsz - 8) bsz) (s.brk + 8 - 4) (bsz + 1))
      (s.brk + 8 + bsz - 8) (bsz + 1)) (s.brk + 8 - 4) = bsz + 1 := by
    rw [GET_PUT_out _ _ (Or.inl (by omega)), GET_PUT, Nat.mod_eq_of_lt (by omega)]
  have hftrN : GET (PUT (PUT (PUT (PUT s.mem (s.brk + 8 - 4) bsz)
      (s.brk + 8 + bsz - 8) bsz) (s.brk + 8 - 4) (bsz + 1))
      (s.brk + 8 + bsz - 8) (bsz + 1)) (s.brk + 8 + bsz - 8) = bsz + 1 := by
    rw [GET_PUT, Nat.mod_eq_of_lt (by omega)]
  have hbounds := BlocksRep.mem_bounds h.blocks
  refine ⟨{ s with
      mem := (PUT (PUT (PUT (PUT s.mem (s.brk + 8 - 4) bsz)
        (s.brk + 8 + bsz - 8) bsz) (s.brk + 8 - 4) (bsz + 1))
        (s.brk + 8 + bsz - 8) (bsz + 1)),
      memBp := s.brk + bsz,
      brk := s.brk + bsz }, ?_, rfl, rfl, rfl, rfl, rfl, ?_, ?_⟩
  · unfold malloc_grow
    rw [hgrow]
    show some _ = some _
    rw [hplaceG]
  · refine SegCtx.mk rfl hhp h.hp_align hmax (by
      show s.brk + bsz ≤ s.maxAddr
      omega) ?_ ?_ ?_ ?_
    · show BlocksRep _ s.memHp (s.brk + bsz + 8) _
      refine BlocksRep.append_iff.mpr ⟨s.brk + 8, ?_, ?_⟩
      · exact BlocksRep.frame h.blocks (by omega)
          (fun x hx1 hx2 => hm x (by omega))
      · refine BlocksRep.cons_iff.mpr ⟨rfl, hb16, hb8, Nat.le_refl 1,
          hhdrN, hftrN, ?_⟩
        show BlocksRep _ (s.brk + 8 + bsz) (s.brk + bsz + 8) []
        rw [BlocksRep.nil_iff]
        omega
    · obtain ⟨rest, hrest⟩ := h.sentinel
      rw [hrest]
      exact ⟨rest ++ [(s.brk + 8, bsz, 1)], List.cons_append _ _ _⟩
    · intro j hj
      have hslot : GET_PTR (PUT (PUT (PUT (PUT s.mem (s.brk + 8 - 4) bsz)
          (s.brk + 8 + bsz - 8) bsz) (s.brk + 8 - 4) (bsz + 1))
          (s.brk + 8 + bsz - 8) (bsz + 1)) (slotAddr s j) = slotHead s j := by
        have hs := h.slot_lt_blocks hj
        exact readBytes_congr (fun x hx1 hx2 => hm x (by omega))
      show ChainRep _ (GET_PTR _ (s.segLists + 8 * j)) (fl j)
      rw [show (GET_PTR (PUT (PUT (PUT (PUT s.mem (s.brk + 8 - 4) bsz)
          (s.brk + 8 + bsz - 8) bsz) (s.brk + 8 - 4) (bsz + 1))
          (s.brk + 8 + bsz - 8) (bsz + 1)) (s.segLists + 8 * j)) =
          slotHead s j from hslot]
      refine ChainRep.chain_frame (h.chains j hj) ?_ ?_
      · intro q hq
        obtain ⟨szq, hqb, _⟩ := h.chain_mem j hj q hq
        have hgq := hbounds _ hqb
        simp only [blkPtr, blkSize] at hgq
        exact readBytes_congr (fun x hx1 hx2 => hm x (by omega))
      · intro q hq
        have := (ChainRep.mem_props (h.chains j hj) q hq).1
        unfold INSIDE_HEAP at this ⊢
        show s.memHp ≤ q ∧ q < s.brk + bsz
        omega
    · intro j hj q hq
      obtain ⟨szq, hqb, hcl⟩ := h.chain_mem j hj q hq
      exact ⟨szq, List.mem_append.mpr (Or.inl hqb), hcl⟩
  · intro b hb hba x hx1 hx2
    have hgb := hbounds b hb
    exact hm x (by omega)

/-! ## Invariant preservation of the `mm_malloc` branches -/

/-- In a tiled decomposition around a distinguished block, no side block
shares its payload address. -/
theorem side_ptr_ne {m : Mem} {start stop : Nat} {bs1 bs2 : List Blk}
    {f szf af : Nat}
    (h : BlocksRep m start stop (bs1 ++ (f, szf, af) :: bs2)) :
    ∀ b, (b ∈ bs1 ∨ b ∈ bs2) →
      blkPtr b + blkSize b ≤ f ∧ 16 ≤ blkSize b ∨ f + szf ≤ blkPtr b := by
  obtain ⟨q, hq1, hq2⟩ := BlocksRep.append_iff.mp h
  rw [BlocksRep.cons_iff] at hq2
  obtain ⟨hfp, hsz, h8, _, hhdr, hftr, ht⟩ := hq2
  simp only [blkPtr, blkSize] at hfp hsz
  subst hfp
  intro b hb
  rcases hb with hb | hb
  · have := BlocksRep.mem_bounds hq1 b hb
    exact Or.inl ⟨this.2.1, this.2.2.1⟩
  · have := BlocksRep.mem_bounds ht b hb
    have hstart := this.1
    right
    simp only [blkSize] at hstart ⊢
    omega

/-- The splitting branch preserves the full invariant; the carved prefix
becomes live. -/
theorem malloc_split_invat {s : MState} {L : List Nat} {bs1 bs2 : List Blk}
    {fl : Nat → List Nat} {f szf bsz : Nat}
    (h : InvAt s L (bs1 ++ (f, szf, 0) :: bs2) fl)
    (hfI : f ∈ fl (get_size_class szf))
    (hb16 : 16 ≤ bsz) (hb8 : bsz % 8 = 0) (hrem : bsz + 16 ≤ szf) :
    ∃ s', malloc_split s f bsz (szf - bsz) = some (some f, s') ∧
      InvAt s' (f :: L) (bs1 ++ (f, bsz, 1) :: (f + bsz, szf - bsz, 0) :: bs2)
        (flUpd (flUpd fl (get_size_class szf)
            ((fl (get_size_class szf)).erase f))
          (get_size_class (szf - bsz))
          ((f + bsz) :: (flUpd fl (get_size_class szf)
            ((fl (get_size_class szf)).erase f))
            (get_size_class (szf - bsz)))) ∧
      (∀ b ∈ bs1 ++ (f, szf, 0) :: bs2, blkAlloc b = 1 →
        b ∈ bs1 ++ (f, bsz, 1) :: (f + bsz, szf - bsz, 0) :: bs2) ∧
      allocBytesEq (bs1 ++ (f, szf, 0) :: bs2) s.mem s'.mem ∧
      ((f, bsz, 1) : Blk) ∈
        bs1 ++ (f, bsz, 1) :: (f + bsz, szf - bsz, 0) :: bs2 ∧
      f ∉ L ∧
      s'.segLists = s.segLists ∧ s'.memHp = s.memHp ∧ s'.brk = s.brk ∧
      s'.maxAddr = s.maxAddr := by
  have hctx := h.toSegCtx
  have hfb : ((f, szf, 0) : Blk) ∈ bs1 ++ (f, szf, 0) :: bs2 :=
    List.mem_append.mpr (Or.inr (List.mem_cons_self _ _))
  have hside := side_ptr_ne hctx.blocks
  have halloc_pres : ∀ b ∈ bs1 ++ (f, szf, 0) :: bs2, blkAlloc b = 1 →
      b ∈ bs1 ++ (f, bsz, 1) :: (f + bsz, szf - bsz, 0) :: bs2 := by
    intro b hb hba
    refine mem_replace_mid₂ hb ?_
    intro hc
    rw [hc] at hba
    simp [blkAlloc] at hba
  have hfnotL : f ∉ L := by
    intro hc
    obtain ⟨_, sz1, hp1⟩ := h.live_mem f hc
    have := BlocksRep.ptr_inj hctx.blocks hp1 hfb rfl
    simp only [Prod.mk.injEq] at this
    exact absurd this.2.2 (by norm_num)
  obtain ⟨s', heq, hc1, hc2, hc3, hc4, hc5, hctx', habe⟩ :=
    malloc_split_correct hctx hfI hb16 hb8 hrem
  refine ⟨s', heq, ?_, halloc_pres, habe,
    List.mem_append.mpr (Or.inr (List.mem_cons_self _ _)), hfnotL,
    hc1, hc2, hc4, hc5⟩
  refine InvAt.mk hctx' ?_ ?_ ?_ ?_
  · -- no adjacent free blocks
    have hno := h.no_adj_free
    rw [List.chain'_append] at hno ⊢
    obtain ⟨hC1, hC2, hBr⟩ := hno
    rw [List.chain'_cons'] at hC2
    obtain ⟨hHd, hCbs2⟩ := hC2
    refine ⟨hC1, ?_, ?_⟩
    · rw [List.chain'_cons']
      refine ⟨?_, ?_⟩
      · intro y hy
        simp only [List.head?_cons, Option.mem_def, Option.some.injEq] at hy
        subst hy
        exact Or.inl rfl
      · rw [List.chain'_cons']
        refine ⟨?_, hCbs2⟩
        intro y hy
        have := hHd y hy
        rcases this with h01 | h1
        · simp [blkAlloc] at h01
        · exact Or.inr h1
    · intro x hx y hy
      simp only [List.head?_cons, Option.mem_def, Option.some.injEq] at hy
      subst hy
      exact Or.inr rfl
  · -- every free block is indexed
    intro b hb hba
    rcases List.mem_append.mp hb with hb1 | hb1
    · have hold : b ∈ bs1 ++ (f, szf, 0) :: bs2 :=
        List.mem_append.mpr (Or.inl hb1)
      have hbfi := h.free_in_chain b hold hba
      have hbne : blkPtr b ≠ f := by
        rcases hside b (Or.inl hb1) with ⟨hs1, hs2⟩ | hs1 <;> omega
      have hbne2 : blkPtr b ≠ f + bsz := by
        rcases hside b (Or.inl hb1) with ⟨hs1, hs2⟩ | hs1 <;> omega
      unfold flUpd
      by_cases hc2 : get_size_class (blkSize b) = get_size_class (szf - bsz)
      · rw [if_pos hc2]
        refine List.mem_cons_of_mem _ ?_
        by_cases hci : get_size_class (szf - bsz) = get_size_class szf
        · rw [if_pos hci]
          refine (List.mem_erase_of_ne hbne).mpr ?_
          rw [← hci, ← hc2]
          exact hbfi
        · rw [if_neg hci, ← hc2]
          exact hbfi
      · rw [if_neg hc2]
        by_cases hci : get_size_class (blkSize b) = get_size_class szf
        · rw [if_pos hci]
          refine (List.mem_erase_of_ne hbne).mpr ?_
          rw [← hci]
          exact hbfi
        · rw [if_neg hci]
          exact hbfi
    · rcases List.mem_cons.mp hb1 with hb2 | hb2
      · rw [hb2] at hba
        simp [blkAlloc] at hba
      · rcases List.mem_cons.mp hb2 with hb3 | hb3
        · rw [hb3]
          simp only [blkPtr, blkSize]
          unfold flUpd
          rw [if_pos rfl]
          exact List.mem_cons_self _ _
        · have hold : b ∈ bs1 ++ (f, szf, 0) :: bs2 :=
            List.mem_append.mpr (Or.inr (List.mem_cons_of_mem _ hb3))
          have hbfi := h.free_in_chain b hold hba
          have hbne : blkPtr b ≠ f := by
            rcases hside b (Or.inr hb3) with ⟨hs1, hs2⟩ | hs1 <;> omega
          unfold flUpd
          by_cases hc2 : get_size_class (blkSize b) = get_size_class (szf - bsz)
          · rw [if_pos hc2]
            refine List.mem_cons_of_mem _ ?_
            by_cases hci : get_size_class (szf - bsz) = get_size_class szf
            · rw [if_pos hci]
              refine (List.mem_erase_of_ne hbne).mpr ?_
              rw [← hci, ← hc2]
              exact hbfi
            · rw [if_neg hci, ← hc2]
              exact hbfi
          · rw [if_neg hc2]
            by_cases hci : get_size_class (blkSize b) = get_size_class szf
            · rw [if_pos hci]
              refine (List.mem_erase_of_ne hbne).mpr ?_
              rw [← hci]
              exact hbfi
            · rw [if_neg hci]
              exact hbfi
  · -- live pointers
    intro p hp
    rcases List.mem_cons.mp hp with hpf | hp
    · rw [hpf]
      constructor
      · intro hc
        rw [hc2] at hc
        obtain ⟨rest, hrest⟩ := hctx.sentinel
        have hcontra : ((f, szf, 0) : Blk) = (s.memHp, 16, 1) := by
          refine BlocksRep.ptr_inj hctx.blocks hfb ?_ hc
          rw [hrest]
          exact List.mem_cons_self _ _
        simp only [Prod.mk.injEq] at hcontra
        exact absurd hcontra.2.2 (by norm_num)
      · exact ⟨bsz, List.mem_append.mpr (Or.inr (List.mem_cons_self _ _))⟩
    · obtain ⟨hne, sz1, hp1⟩ := h.live_mem p hp
      rw [hc2]
      refine ⟨hne, sz1, ?_⟩
      refine mem_replace_mid₂ hp1 ?_
      intro hc
      have hca := congrArg blkAlloc hc
      simp [blkAlloc] at hca
  · exact List.Nodup.cons hfnotL h.live_nodup

/-- The absorb branch preserves the full invariant; the whole candidate
becomes live. -/
theorem malloc_absorb_invat {s : MState} {L : List Nat} {bs1 bs2 : List Blk}
    {fl : Nat → List Nat} {f szf : Nat}
    (h : InvAt s L (bs1 ++ (f, szf, 0) :: bs2) fl)
    (hfI : f ∈ fl (get_size_class szf)) :
    ∃ s', malloc_absorb s f = some (some f, s') ∧
      InvAt s' (f :: L) (bs1 ++ (f, szf, 1) :: bs2)
        (flUpd fl (get_size_class szf) ((fl (get_size_class szf)).erase f)) ∧
      (∀ b ∈ bs1 ++ (f, szf, 0) :: bs2, blkAlloc b = 1 →
        b ∈ bs1 ++ (f, szf, 1) :: bs2) ∧
      allocBytesEq (bs1 ++ (f, szf, 0) :: bs2) s.mem s'.mem ∧
      ((f, szf, 1) : Blk) ∈ bs1 ++ (f, szf, 1) :: bs2 ∧
      f ∉ L ∧
      s'.segLists = s.segLists ∧ s'.memHp = s.memHp ∧ s'.brk = s.brk ∧
      s'.maxAddr = s.maxAddr := by
  have hctx := h.toSegCtx
  have hfb : ((f, szf, 0) : Blk) ∈ bs1 ++ (f, szf, 0) :: bs2 :=
    List.mem_append.mpr (Or.inr (List.mem_cons_self _ _))
  have hside := side_ptr_ne hctx.blocks
  have halloc_pres : ∀ b ∈ bs1 ++ (f, szf, 0) :: bs2, blkAlloc b = 1 →
      b ∈ bs1 ++ (f, szf, 1) :: bs2 := by
    intro b hb hba
    refine mem_replace_mid hb ?_
    intro hc
    rw [hc] at hba
    simp [blkAlloc] at hba
  have hfnotL : f ∉ L := by
    intro hc
    obtain ⟨_, sz1, hp1⟩ := h.live_mem f hc
    have := BlocksRep.ptr_inj hctx.blocks hp1 hfb rfl
    simp only [Prod.mk.injEq] at this
    exact absurd this.2.2 (by norm_num)
  obtain ⟨s', heq, hc1, hc2, hc3, hc4, hc5, hctx', habe⟩ :=
    malloc_absorb_correct hctx hfI
  refine ⟨s', heq, ?_, halloc_pres, habe,
    List.mem_append.mpr (Or.inr (List.mem_cons_self _ _)), hfnotL,
    hc1, hc2, hc4, hc5⟩
  refine InvAt.mk hctx' ?_ ?_ ?_ ?_
  · have hno := h.no_adj_free
    rw [List.chain'_append] at hno ⊢
    obtain ⟨hC1, hC2, hBr⟩ := hno
    rw [List.chain'_cons'] at hC2
    obtain ⟨hHd, hCbs2⟩ := hC2
    refine ⟨hC1, ?_, ?_⟩
    · rw [List.chain'_cons']
      exact ⟨fun y _ => Or.inl rfl, hCbs2⟩
    · intro x hx y hy
      simp only [List.head?_cons, Option.mem_def, Option.some.injEq] at hy
      subst hy
      exact Or.inr rfl
  · intro b hb hba
    have hbne : b ≠ ((f, szf, 1) : Blk) := by
      intro hc
      rw [hc] at hba
      simp [blkAlloc] at hba
    have hold : b ∈ bs1 ++ (f, szf, 0) :: bs2 := mem_replace_mid hb hbne
    have hbfi := h.free_in_chain b hold hba
    have hbptr : blkPtr b ≠ f := by
      have hg := hctx.block_geo _ hfb
      simp only [blkPtr, blkSize, blkAlloc] at hg
      have hb12 : b ∈ bs1 ∨ b ∈ bs2 := by
        rcases List.mem_append.mp hb with h1 | h1
        · exact Or.inl h1
        · rcases List.mem_cons.mp h1 with h2 | h2
          · exact absurd h2 hbne
          · exact Or.inr h2
      rcases hside b hb12 with ⟨hs1, hs2⟩ | hs1 <;> omega
    unfold flUpd
    by_cases hci : get_size_class (blkSize b) = get_size_class szf
    · rw [if_pos hci]
      refine (List.mem_erase_of_ne hbptr).mpr ?_
      rw [← hci]
      exact hbfi
    · rw [if_neg hci]
      exact hbfi
  · intro p hp
    rcases List.mem_cons.mp hp with hpf | hp
    · rw [hpf]
      constructor
      · intro hc
        rw [hc2] at hc
        obtain ⟨rest, hrest⟩ := hctx.sentinel
        have hcontra : ((f, szf, 0) : Blk) = (s.memHp, 16, 1) := by
          refine BlocksRep.ptr_inj hctx.blocks hfb ?_ hc
          rw [hrest]
          exact List.mem_cons_self _ _
        simp only [Prod.mk.injEq] at hcontra
        exact absurd hcontra.2.2 (by norm_num)
      · exact ⟨szf, List.mem_append.mpr (Or.inr (List.mem_cons_self _ _))⟩
    · obtain ⟨hne, sz1, hp1⟩ := h.live_mem p hp
      rw [hc2]
      refine ⟨hne, sz1, ?_⟩
      refine mem_replace_mid hp1 ?_
      intro hc
      have hca := congrArg blkAlloc hc
      simp [blkAlloc] at hca
  · exact List.Nodup.cons hfnotL h.live_nodup

/-- The growth branch preserves the full invariant; the new extent becomes
live. -/
theorem malloc_grow_invat {s : MState} {L : List Nat} {bs : List Blk}
    {fl : Nat → List Nat} (h : InvAt s L bs fl) {bsz : Nat}
    (hb16 : 16 ≤ bsz) (hb8 : bsz % 8 = 0) (hok : s.brk + bsz ≤ s.maxAddr) :
    ∃ s', malloc_grow s bsz = some (some (s.brk + 8), s') ∧
      InvAt s' ((s.brk + 8) :: L) (bs ++ [(s.brk + 8, bsz, 1)]) fl ∧
      (∀ b ∈ bs, blkAlloc b = 1 → b ∈ bs ++ [(s.brk + 8, bsz, 1)]) ∧
      allocBytesEq bs s.mem s'.mem ∧
      ((s.brk + 8, bsz, 1) : Blk) ∈ bs ++ [(s.brk + 8, bsz, 1)] ∧
      s.brk + 8 ∉ L ∧
      s'.segLists = s.segLists ∧ s'.memHp = s.memHp ∧ s'.brk = s.brk + bsz ∧
      s'.maxAddr = s.maxAddr := by
  have hctx := h.toSegCtx
  have hbr := hctx.brk_lb
  have hfnotL : s.brk + 8 ∉ L := by
    intro hc
    obtain ⟨_, sz1, hp1⟩ := h.live_mem _ hc
    have := BlocksRep.mem_bounds hctx.blocks _ hp1
    simp only [blkPtr, blkSize] at this
    omega
  obtain ⟨s', heq, hc1, hc2, hc3, hc4, hc5, hctx', habe⟩ :=
    malloc_grow_correct hctx hb16 hb8 hok
  refine ⟨s', heq, ?_, fun b hb _ => List.mem_append.mpr (Or.inl hb), habe,
    List.mem_append.mpr (Or.inr (List.mem_cons_self _ _)), hfnotL,
    hc1, hc2, hc4, hc5⟩
  refine InvAt.mk hctx' ?_ ?_ ?_ ?_
  · rw [List.chain'_append]
    refine ⟨h.no_adj_free, List.chain'_singleton _, ?_⟩
    intro x hx y hy
    simp only [List.head?_cons, Option.mem_def, Option.some.injEq] at hy
    subst hy
    exact Or.inr rfl
  · intro b hb hba
    rcases List.mem_append.mp hb with hb1 | hb1
    · exact h.free_in_chain b hb1 hba
    · rcases List.mem_cons.mp hb1 with hb2 | hb2
      · rw [hb2] at hba
        simp [blkAlloc] at hba
      · cases hb2
  · intro p hp
    rcases List.mem_cons.mp hp with rfl | hp
    · rw [hc2]
      refine ⟨by omega, bsz, ?_⟩
      exact List.mem_append.mpr (Or.inr (List.mem_cons_self _ _))
    · obtain ⟨hne, sz1, hp1⟩ := h.live_mem p hp
      rw [hc2]
      exact ⟨hne, sz1, List.mem_append.mpr (Or.inl hp1)⟩
  · exact List.Nodup.cons hfnotL h.live_nodup

theorem BlocksRep.stop_align {m : Mem} {stop : Nat} {bs : List Blk} :
    ∀ {p : Nat}, BlocksRep m p stop bs → p % 8 = 0 → stop % 8 = 0 := by
  induction bs with
  | nil =>
    intro p h hp
    rw [BlocksRep.nil_iff] at h
    rw [← h]
    exact hp
  | cons c bs ih =>
    intro p h hp
    rw [BlocksRep.cons_iff] at h
    obtain ⟨_, _, h8, _, _, _, ht⟩ := h
    exact ih ht (by omega)

theorem SegCtx.brk_align {s : MState} {bs : List Blk} {fl : Nat → List Nat}
    (h : SegCtx s bs fl) : s.brk % 8 = 0 := by
  have h1 := BlocksRep.stop_align h.blocks h.hp_align
  omega

/-- Dispatch: with no fit found, `mm_malloc` is the growth branch. -/
theorem mm_malloc_eq_grow {s : MState} {n : Nat} (hn : n ≠ 0)
    (hfit : get_fit s (blockSizeOf n) = some none) :
    mm_malloc s n = malloc_grow s (blockSizeOf n) := by
  unfold mm_malloc
  rw [if_neg hn, hfit]

/-- Dispatch: a fit with a usable remainder takes the splitting branch. -/
theorem mm_malloc_eq_split {s : MState} {n f : Nat} (hn : n ≠ 0)
    (hfit : get_fit s (blockSizeOf n) = some (some f))
    (hge : MIN_BLOCK_SIZE ≤ sub64 (GET_SIZE s.mem (GET_HEADER f)) (blockSizeOf n)) :
    mm_malloc s n =
      malloc_split s f (blockSizeOf n)
        (sub64 (GET_SIZE s.mem (GET_HEADER f)) (blockSizeOf n)) := by
  unfold mm_malloc
  rw [if_neg hn, hfit]
  exact if_pos hge

/-- Dispatch: a fit with a too-small remainder takes the absorb branch. -/
theorem mm_malloc_eq_absorb {s : MState} {n f : Nat} (hn : n ≠ 0)
    (hfit : get_fit s (blockSizeOf n) = some (some f))
    (hlt : ¬ MIN_BLOCK_SIZE ≤ sub64 (GET_SIZE s.mem (GET_HEADER f)) (blockSizeOf n)) :
    mm_malloc s n = malloc_absorb s f := by
  unfold mm_malloc
  rw [if_neg hn, hfit]
  exact if_neg hlt

theorem blockSizeOf_ge (n : Nat) : 16 ≤ blockSizeOf n := by
  unfold blockSizeOf
  dsimp only
  split
  · norm_num [ALIGN, MIN_BLOCK_SIZE, DSIZE]
  · rename_i hng
    norm_num [MIN_BLOCK_SIZE, DSIZE] at hng ⊢
    omega

theorem blockSizeOf_mod8 (n : Nat) : blockSizeOf n % 8 = 0 := by
  unfold blockSizeOf
  dsimp only
  split <;> (unfold ALIGN; omega)

/-- Full correctness of `mm_malloc` under the invariant: it never diverges,
preserves the invariant with the returned payload (if any) added to the
live set, leaves every allocated block (bytes included) intact, and
returns null exactly for a zero request or a true out-of-memory (no
indexed free block fits and the provider cannot supply the needed block
size). -/
theorem mm_malloc_correct {s : MState} {L : List Nat} {bs : List Blk}
    {fl : Nat → List Nat} (h : InvAt s L bs fl) (n : Nat) :
    ∃ r s', mm_malloc s n = some (r, s') ∧
      (∃ bs' fl', InvAt s' (consOpt r L) bs' fl' ∧
        (∀ b ∈ bs, blkAlloc b = 1 → b ∈ bs') ∧
        allocBytesEq bs s.mem s'.mem ∧
        s'.segLists = s.segLists ∧ s'.memHp = s.memHp ∧ s.brk ≤ s'.brk ∧
        s'.maxAddr = s.maxAddr ∧
        (∀ q, r = some q → ∃ bq, (q, bq, 1) ∈ bs' ∧ blockSizeOf n ≤ bq ∧
          q ∉ L ∧ q % 8 = 0)) ∧
      (r = none → s' = s) ∧
      (r = none ↔ n = 0 ∨
        ((∀ b ∈ bs, blkAlloc b = 0 → blkSize b < blockSizeOf n) ∧
          s.maxAddr < s.brk + blockSizeOf n)) := by
  by_cases hn : n = 0
  · subst hn
    refine ⟨none, s, ?_, ⟨bs, fl, h, fun b hb _ => hb, allocBytesEq_refl _ _,
      rfl, rfl, le_refl _, rfl, ?_⟩, fun _ => rfl, ?_⟩
    · unfold mm_malloc
      rw [if_pos rfl]
    · intro q hq
      cases hq
    · exact ⟨fun _ => Or.inl rfl, fun _ => rfl⟩
  · obtain ⟨⟨hnone_mp, hnone_mpr⟩, hsome, rfit, hrfit⟩ :=
      get_fit_characterization h.toSegCtx h.free_in_chain (blockSizeOf n)
    cases rfit with
    | none =>
      have hmm := mm_malloc_eq_grow hn hrfit
      have hnofit := hnone_mp hrfit
      by_cases hok : s.brk + blockSizeOf n ≤ s.maxAddr
      · obtain ⟨s', heq, hinv, hpres, habe, hmemnew, hfnot, hc1, hc2, hc4, hc5⟩ :=
          malloc_grow_invat h (blockSizeOf_ge n) (blockSizeOf_mod8 n) hok
        refine ⟨some (s.brk + 8), s', by rw [hmm, heq],
          ⟨_, _, hinv, hpres, habe, hc1, hc2, by omega, hc5, ?_⟩,
          (by intro hcc; cases hcc), ?_⟩
        · intro q hq
          cases hq
          refine ⟨blockSizeOf n, hmemnew, le_refl _, hfnot, ?_⟩
          have hba := h.toSegCtx.brk_align
          omega
        · constructor
          · intro hcc
            cases hcc
          · rintro (hcc | ⟨_, hcc⟩)
            · exact absurd hcc hn
            · omega
      · have hgrowfail : malloc_grow s (blockSizeOf n) = some (none, s) := by
          unfold malloc_grow grow_heap mem_sbrk
          rw [if_neg (by have := blockSizeOf_ge n; omega : ¬ blockSizeOf n = 0),
            if_pos (by omega : s.brk + blockSizeOf n > s.maxAddr)]
        refine ⟨none, s, by rw [hmm, hgrowfail],
          ⟨bs, fl, h, fun b hb _ => hb, allocBytesEq_refl _ _,
            rfl, rfl, le_refl _, rfl, fun q hq => by cases hq⟩,
          fun _ => rfl, ?_⟩
        exact ⟨fun _ => Or.inr ⟨hnofit, by omega⟩, fun _ => rfl⟩
    | some f =>
      obtain ⟨szf, hfbs, hles, hfI⟩ := hsome f hrfit
      have htag := h.toSegCtx.read_tag hfbs
      have hszlt : szf < 2 ^ 32 := by
        have := h.toSegCtx.size_lt _ hfbs
        simpa [blkSize] using this
      have hfmod : f % 8 = 0 := by
        have := h.toSegCtx.block_geo _ hfbs
        simpa [blkPtr] using this.2.2.2.2.1
      have hsub : sub64 (GET_SIZE s.mem (GET_HEADER f)) (blockSizeOf n) =
          szf - blockSizeOf n := by
        rw [htag.1]
        exact sub64_eq_sub hles (by omega)
      obtain ⟨bs1, bs2, hdecomp⟩ := List.append_of_mem hfbs
      subst hdecomp
      by_cases hge : MIN_BLOCK_SIZE ≤
          sub64 (GET_SIZE s.mem (GET_HEADER f)) (blockSizeOf n)
      · have hrem : blockSizeOf n + 16 ≤ szf := by
          rw [hsub] at hge
          unfold MIN_BLOCK_SIZE DSIZE at hge
          omega
        have hmm := mm_malloc_eq_split hn hrfit hge
        rw [hsub] at hmm
        obtain ⟨s', heq, hinv, hpres, habe, hmemnew, hfnot, hc1, hc2, hc3, hc4⟩ :=
          malloc_split_invat h hfI (blockSizeOf_ge n) (blockSizeOf_mod8 n) hrem
        refine ⟨some f, s', by rw [hmm, heq],
          ⟨_, _, hinv, hpres, habe, hc1, hc2, by omega, hc4, ?_⟩,
          (by intro hcc; cases hcc), ?_⟩
        · intro q hq
          cases hq
          exact ⟨blockSizeOf n, hmemnew, le_refl _, hfnot, hfmod⟩
        · constructor
          · intro hcc
            cases hcc
          · rintro (hcc | ⟨hall, _⟩)
            · exact absurd hcc hn
            · have := hall _ hfbs rfl
              simp only [blkSize] at this
              omega
      · have hmm := mm_malloc_eq_absorb hn hrfit hge
        obtain ⟨s', heq, hinv, hpres, habe, hmemnew, hfnot, hc1, hc2, hc3, hc4⟩ :=
          malloc_absorb_invat h hfI
        refine ⟨some f, s', by rw [hmm, heq],
          ⟨_, _, hinv, hpres, habe, hc1, hc2, by omega, hc4, ?_⟩,
          (by intro hcc; cases hcc), ?_⟩
        · intro q hq
          cases hq
          exact ⟨szf, hmemnew, hles, hfnot, hfmod⟩
        · constructor
          · intro hcc
            cases hcc
          · rintro (hcc | ⟨hall, _⟩)
            · exact absurd hcc hn
            · have := hall _ hfbs rfl
              simp only [blkSize] at this
              omega

/-! ## Interval frames and the merge surgery of `coalesce` -/

/-- A block disjoint from every block of a nonempty tiling lies entirely
outside the tiled interval. -/
theorem BlocksRep.outside_of_ne {m : Mem} {stop : Nat} {mid : List Blk} :
    ∀ {sp : Nat}, BlocksRep m sp stop mid → ∀ b : Blk,
      (∀ c ∈ mid, blkPtr b + blkSize b ≤ blkPtr c ∨
        blkPtr c + blkSize c ≤ blkPtr b) →
      16 ≤ blkSize b → mid ≠ [] →
      blkPtr b + blkSize b ≤ sp ∨ stop ≤ blkPtr b := by
  induction mid with
  | nil =>
    intro sp _ b _ _ hne
    exact absurd rfl hne
  | cons c mid ih =>
    intro sp h b hdis h16 _
    rw [BlocksRep.cons_iff] at h
    obtain ⟨hcp, hsz, h8, ha, hhdr, hftr, ht⟩ := h
    rcases hdis c (List.mem_cons_self _ _) with hd | hd
    · left
      omega
    · by_cases hmide : mid = []


      · subst hmide
        rw [BlocksRep.nil_iff] at ht
        right
        omega
      · rcases ih ht b (fun d hd2 => hdis d (List.mem_cons_of_mem _ hd2)) h16
          hmide with hd2 | hd2
        · exfalso
          omega
        · exact Or.inr hd2

/-- Frame for writes confined to `[lo - 4, hi - 4)` with `lo` at or above
the heap start: the table slots are unchanged. -/
theorem SegCtx.slots_frame_interval {s : MState} {bs : List Blk}
    {fl : Nat → List Nat} (h : SegCtx s bs fl) {lo hi : Nat}
    (hlo : s.memHp ≤ lo) {m' : Mem}
    (hm : ∀ x, x < lo - 4 ∨ hi - 4 ≤ x → m' x = s.mem x) :
    ∀ j, j < 8 → GET_PTR m' (slotAddr s j) = slotHead s j := by
  intro j hj
  have hs := h.slot_lt_blocks hj
  unfold slotHead GET_PTR
  exact readBytes_congr (fun x hx1 hx2 => hm x (Or.inl (by omega)))

/-- Frame for writes confined to `[lo - 4, hi - 4)`: the bytes of a block
outside the interval are unchanged. -/
theorem SegCtx.block_frame_interval {s : MState} {bs : List Blk}
    {fl : Nat → List Nat} (_ : SegCtx s bs fl) {lo hi : Nat} {m' : Mem}
    (hm : ∀ x, x < lo - 4 ∨ hi - 4 ≤ x → m' x = s.mem x) {b : Blk}
    (hd : blkPtr b + blkSize b ≤ lo ∨ hi ≤ blkPtr b) :
    ∀ x, blkPtr b - 4 ≤ x → x < blkPtr b + blkSize b - 4 → m' x = s.mem x := by
  intro x hx1 hx2
  refine hm x ?_
  rcases hd with hd | hd
  · left; omega
  · right; omega

/-- Frame for writes confined to `[lo - 4, hi - 4)`: every chain whose
members' blocks avoid the interval stays represented. -/
theorem SegCtx.chains_frame_interval {s : MState} {bs : List Blk}
    {fl : Nat → List Nat} (h : SegCtx s bs fl) {lo hi : Nat}
    (hlo : s.memHp ≤ lo) {m' : Mem}
    (hm : ∀ x, x < lo - 4 ∨ hi - 4 ≤ x → m' x = s.mem x)
    (hmem : ∀ j, j < 8 → ∀ q ∈ fl j, ∀ szq, (q, szq, 0) ∈ bs →
      q + szq ≤ lo ∨ hi ≤ q) :
    ∀ j, j < 8 → ChainRep { s with mem := m' }
      (slotHead { s with mem := m' } j) (fl j) := by
  intro j hj
  have hslot : slotHead { s with mem := m' } j = slotHead s j :=
    h.slots_frame_interval hlo hm j hj
  rw [hslot]
  refine ChainRep.chain_frame (h.chains j hj) ?_ ?_
  · intro q hq
    obtain ⟨szq, hqb, _⟩ := h.chain_mem j hj q hq
    have hgq := h.block_geo _ hqb
    simp only [blkPtr, blkSize] at hgq
    have hd := hmem j hj q hq szq hqb
    exact readBytes_congr (fun x hx1 hx2 => hm x (by
      rcases hd with hd | hd
      · left; omega
      · right; omega))
  · intro q hq
    exact (ChainRep.mem_props (h.chains j hj) q hq).1

theorem BlocksRep.stop_unique {m : Mem} {bs : List Blk} :
    ∀ {p q1 q2 : Nat}, BlocksRep m p q1 bs → BlocksRep m p q2 bs → q1 = q2 := by
  induction bs with
  | nil =>
    intro p q1 q2 h1 h2
    rw [BlocksRep.nil_iff] at h1 h2
    omega
  | cons c bs ih =>
    intro p q1 q2 h1 h2
    rw [BlocksRep.cons_iff] at h1 h2
    exact ih h1.2.2.2.2.2.2 h2.2.2.2.2.2.2

/-- Merging a nonempty run of adjacent parsed blocks (none of them indexed,
none of them the sentinel) into a single free block: the two tag writes of
`coalesce_merge`. -/
theorem merge_retag {s : MState} {bsA bsB bsMid : List Blk}
    {fl : Nat → List Nat} {sp fs : Nat}
    (h : SegCtx s (bsA ++ (bsMid ++ bsB)) fl)
    (hA : BlocksRep s.mem s.memHp sp bsA)
    (hMid : BlocksRep s.mem sp (sp + fs) bsMid)
    (hmidne : bsMid ≠ [])
    (hmid : ∀ c ∈ bsMid, ∀ j, j < 8 → blkPtr c ∉ fl j)
    (hspgt : s.memHp < sp)
    (h16 : 16 ≤ fs) (h8 : fs % 8 = 0) (hfs32 : fs < 2 ^ 32) :
    SegCtx { s with mem := PUT (PUT s.mem (sp - 4) fs) (sp + fs - 8) fs }
      (bsA ++ (sp, fs, 0) :: bsB) fl ∧
    (∀ b ∈ bsA ++ (bsMid ++ bsB), (∀ c ∈ bsMid, b ≠ c) →
      ∀ x, blkPtr b - 4 ≤ x → x < blkPtr b + blkSize b - 4 →
        PUT (PUT s.mem (sp - 4) fs) (sp + fs - 8) fs x = s.mem x) := by
  have hhp := h.hp_eq
  obtain ⟨q1, hA', hRest⟩ := BlocksRep.append_iff.mp h.blocks
  have hq1 : q1 = sp := BlocksRep.stop_unique hA' hA
  rw [hq1] at hRest
  obtain ⟨q2, hMid', hB⟩ := BlocksRep.append_iff.mp hRest
  have hq2 : q2 = sp + fs := BlocksRep.stop_unique hMid' hMid
  subst hq2
  have hbound := hB.start_le
  have hm : ∀ x, x < sp - 4 ∨ sp + fs - 4 ≤ x →
      PUT (PUT s.mem (sp - 4) fs) (sp + fs - 8) fs x = s.mem x := by
    intro x hx
    unfold PUT
    rw [writeBytes_outside _ _ (by omega), writeBytes_outside _ _ (by omega)]
  have hdisj_of_ne : ∀ b ∈ bsA ++ (bsMid ++ bsB), (∀ c ∈ bsMid, b ≠ c) →
      blkPtr b + blkSize b ≤ sp ∨ sp + fs ≤ blkPtr b := by
    intro b hb hbne
    have hgb := BlocksRep.mem_bounds h.blocks b hb
    refine BlocksRep.outside_of_ne hMid b ?_ hgb.2.2.1 hmidne
    intro c hc
    refine BlocksRep.ranges_disjoint h.blocks b hb c
      (List.mem_append.mpr (Or.inr (List.mem_append.mpr (Or.inl hc)))) (hbne c hc)
  have hframe : ∀ b ∈ bsA ++ (bsMid ++ bsB), (∀ c ∈ bsMid, b ≠ c) →
      ∀ x, blkPtr b - 4 ≤ x → x < blkPtr b + blkSize b - 4 →
        PUT (PUT s.mem (sp - 4) fs) (sp + fs - 8) fs x = s.mem x := by
    intro b hb hbne
    exact h.block_frame_interval hm (hdisj_of_ne b hb hbne)
  have hnewhdr : GET (PUT (PUT s.mem (sp - 4) fs) (sp + fs - 8) fs)
      (sp - 4) = fs := by
    rw [GET_PUT_out _ _ (Or.inl (by omega)), GET_PUT, Nat.mod_eq_of_lt (by omega)]
  have hnewftr : GET (PUT (PUT s.mem (sp - 4) fs) (sp + fs - 8) fs)
      (sp + fs - 8) = fs := by
    rw [GET_PUT, Nat.mod_eq_of_lt (by omega)]
  refine ⟨?_, hframe⟩
  refine SegCtx.mk h.bp_eq h.hp_eq h.hp_align h.max_lt h.brk_le ?_ ?_ ?_ ?_
  · refine BlocksRep.append_iff.mpr ⟨sp, ?_, ?_⟩
    · exact BlocksRep.frame hA (by show (4:Nat) ≤ s.memHp; omega)
        (fun x hx1 hx2 => hm x (Or.inl (by omega)))
    · refine BlocksRep.cons_iff.mpr ⟨rfl, h16, h8, Nat.zero_le 1, ?_, ?_, ?_⟩
      · show GET _ (sp - 4) = fs + 0
        rw [Nat.add_zero]
        exact hnewhdr
      · show GET _ (sp + blkSize (sp, fs, 0) - 8) = fs + 0
        simp only [blkSize]
        rw [Nat.add_zero]
        exact hnewftr
      · show BlocksRep _ (sp + blkSize (sp, fs, 0)) (s.brk + 8) bsB
        simp only [blkSize]
        exact BlocksRep.frame hB (by omega)
          (fun x hx1 hx2 => hm x (Or.inr (by omega)))
  · obtain ⟨rest, hrest⟩ := h.sentinel
    cases bsA with
    | nil =>
      rw [BlocksRep.nil_iff] at hA
      omega
    | cons a tl =>
      rw [List.cons_append, List.cons.injEq] at hrest
      rw [hrest.1]
      exact ⟨tl ++ (sp, fs, 0) :: bsB, by rw [List.cons_append]⟩
  · refine h.chains_frame_interval (by omega) hm ?_
    intro j hj q hq szq hqb
    have hqnotmid : ∀ c ∈ bsMid, ((q, szq, 0) : Blk) ≠ c := by
      intro c hc hcc
      refine hmid c hc j hj ?_
      rw [← hcc]
      exact hq
    have := hdisj_of_ne (q, szq, 0) hqb hqnotmid
    simpa [blkPtr, blkSize] using this
  · intro j hj q hq
    obtain ⟨szq, hqb, hcl⟩ := h.chain_mem j hj q hq
    refine ⟨szq, ?_, hcl⟩
    have hqnotmid : ∀ c ∈ bsMid, ((q, szq, 0) : Blk) ≠ c := by
      intro c hc hcc
      refine hmid c hc j hj ?_
      rw [← hcc]
      exact hq
    rcases List.mem_append.mp hqb with h1 | h1
    · exact List.mem_append.mpr (Or.inl h1)
    · rcases List.mem_append.mp h1 with h2 | h2
      · exact absurd rfl (hqnotmid _ h2)
      · exact List.mem_append.mpr (Or.inr (List.mem_cons_of_mem _ h2))

/-- The endgame of `coalesce`: given the post-removal state with the run
of blocks to merge, `coalesce_merge` writes the combined free tag pair,
pushes the merged block onto its class, and the full invariant holds
provided the caller supplies the rebuilt adjacency, indexing and liveness
facts. -/
theorem free_endgame {s2 : MState} {L' : List Nat} {bsA' bsB' bsMid : List Blk}
    {fl2 : Nat → List Nat} {sp fs : Nat}
    (hctx2 : SegCtx s2 (bsA' ++ (bsMid ++ bsB')) fl2)
    (hA : BlocksRep s2.mem s2.memHp sp bsA')
    (hMid : BlocksRep s2.mem sp (sp + fs) bsMid)
    (hmidne : bsMid ≠ [])
    (hmid : ∀ c ∈ bsMid, ∀ j, j < 8 → blkPtr c ∉ fl2 j)
    (hspgt : s2.memHp < sp)
    (h16 : 16 ≤ fs) (h8 : fs % 8 = 0) (hfs32 : fs < 2 ^ 32)
    (hadj : List.Chain' (fun b c => blkAlloc b = 1 ∨ blkAlloc c = 1)
      (bsA' ++ (sp, fs, 0) :: bsB'))
    (hfree2 : ∀ b ∈ bsA' ++ (sp, fs, 0) :: bsB', blkAlloc b = 0 →
      b ≠ ((sp, fs, 0) : Blk) →
      blkPtr b ∈ fl2 (get_size_class (blkSize b)))
    (hlive2 : ∀ r ∈ L', r ≠ s2.memHp ∧ ∃ sz,
      (r, sz, 1) ∈ bsA' ++ (sp, fs, 0) :: bsB')
    (hnodup2 : L'.Nodup) :
    ∃ s', coalesce_merge s2 sp fs = s' ∧
      s'.segLists = s2.segLists ∧ s'.memHp = s2.memHp ∧ s'.memBp = s2.memBp ∧
      s'.brk = s2.brk ∧ s'.maxAddr = s2.maxAddr ∧
      InvAt s' L' (bsA' ++ (sp, fs, 0) :: bsB')
        (flUpd fl2 (get_size_class fs) (sp :: fl2 (get_size_class fs))) ∧
      (∀ b ∈ bsA' ++ (bsMid ++ bsB'), blkAlloc b = 1 → (∀ c ∈ bsMid, b ≠ c) →
        ∀ x, blkPtr b - 4 ≤ x → x < blkPtr b + blkSize b - 4 →
          s'.mem x = s2.mem x) := by
  obtain ⟨hctxM, hframeM⟩ := merge_retag hctx2 hA hMid hmidne hmid hspgt h16 h8
    hfs32
  have hspfl : ∀ j, j < 8 → sp ∉ fl2 j := by
    cases bsMid with
    | nil => exact absurd rfl hmidne
    | cons c0 mid' =>
      rw [BlocksRep.cons_iff] at hMid
      intro j hj
      rw [← hMid.1]
      exact hmid c0 (List.mem_cons_self _ _) j hj
  have hnewmem : ((sp, fs, 0) : Blk) ∈ bsA' ++ (sp, fs, 0) :: bsB' :=
    List.mem_append.mpr (Or.inr (List.mem_cons_self _ _))
  obtain ⟨sA, hAeq, hA1, hA2, hA3, hA4, hA5, hctxA, habeA⟩ :=
    seg_list_add_correct hctxM hnewmem hspfl
  have htrans : ∀ b ∈ bsA' ++ (bsMid ++ bsB'), (∀ c ∈ bsMid, b ≠ c) →
      b ∈ bsA' ++ (sp, fs, 0) :: bsB' := by
    intro b hb hbne
    rcases List.mem_append.mp hb with h1 | h1
    · exact List.mem_append.mpr (Or.inl h1)
    · rcases List.mem_append.mp h1 with h2 | h2
      · exact absurd rfl (hbne _ h2)
      · exact List.mem_append.mpr (Or.inr (List.mem_cons_of_mem _ h2))
  refine ⟨sA, ?_, hA1, hA2, hA3, hA4, hA5, ?_, ?_⟩
  · -- evaluate coalesce_merge
    unfold coalesce_merge
    dsimp only
    rw [PACK_zero]
    rw [show GET_HEADER sp = sp - 4 from rfl]
    rw [show GET_FOOTER (PUT s2.mem (sp - 4) fs) sp = sp + fs - 8 from by
      unfold GET_FOOTER GET_SIZE
      rw [show GET_HEADER sp = sp - 4 from rfl, GET_PUT,
        Nat.mod_eq_of_lt (by omega)]
      omega]
    exact hAeq
  · refine InvAt.mk hctxA hadj ?_ ?_ hnodup2
    · intro b hb hba
      by_cases hbm : b = ((sp, fs, 0) : Blk)
      · subst hbm
        simp only [blkPtr, blkSize]
        unfold flUpd
        rw [if_pos rfl]
        exact List.mem_cons_self _ _
      · have := hfree2 b hb hba hbm
        unfold flUpd
        by_cases hci : get_size_class (blkSize b) = get_size_class fs
        · rw [if_pos hci]
          exact List.mem_cons_of_mem _ (hci ▸ this)
        · rw [if_neg hci]
          exact this
    · intro r hr
      obtain ⟨hne, sz, hmem⟩ := hlive2 r hr
      exact ⟨by rw [hA2]; exact hne, sz, hmem⟩
  · intro b hb hba hbne x hx1 hx2
    have hstep1 := hframeM b hb hbne x hx1 hx2
    have hstep2 := habeA b (htrans b hb hbne) hba x hx1 hx2
    rw [hstep2]
    exact hstep1

/-! ## `mm_init` establishes the invariant -/

theorem initSlots_zero (base : Nat) : ∀ n x, initSlots (fun _ => 0) base n x = 0 := by
  intro n
  induction n with
  | zero => intro x; rfl
  | succ n ih =>
    intro x
    show PUT (initSlots (fun _ => 0) base n) (base + SIZE_T_SIZE * n) 0 x = 0
    unfold PUT writeBytes
    split
    · simp
    · exact ih x

theorem readBytes_zero : ∀ (n a : Nat), readBytes (fun _ => 0) a n = 0 := by
  intro n
  induction n with
  | zero => intro a; rfl
  | succ n ih =>
    intro a
    show (fun _ => (0 : Nat)) a % 256 + 256 * readBytes (fun _ => 0) (a + 1) n = 0
    rw [ih (a + 1)]
    simp

/-- Explicit evaluation of a successful `mm_init`: the table at `base`
(eight zeroed slots), the sentinel block tagged at header `base + 68` and
footer `base + 80`, heap pointer `base + 72`, break `base + 80`. -/
theorem mm_init_eval {base maxA : Nat} (hgrow : base + 80 ≤ maxA) :
    mm_init (initialState base maxA) = (0,
      { mem := (PUT (PUT (initSlots (fun _ => 0) base SEG_LIST_COUNT)
          (base + 68) (PACK MIN_BLOCK_SIZE 1)) (base + 80)
          (PACK MIN_BLOCK_SIZE 1)),
        segLists := base, memHp := base + 72, memBp := base + 80,
        brk := base + 80, maxAddr := maxA }) := by
  have h80 : ALIGN (SIZE_T_SIZE * SEG_LIST_COUNT) + MIN_BLOCK_SIZE = 80 := by
    decide
  have hsb : mem_sbrk (initialState base maxA)
      (ALIGN (SIZE_T_SIZE * SEG_LIST_COUNT) + MIN_BLOCK_SIZE) =
      (some base, { initialState base maxA with brk := base + 80 }) := by
    rw [h80]
    unfold mem_sbrk initialState
    dsimp only
    rw [if_neg (by omega)]
  unfold mm_init
  dsimp only
  rw [hsb]
  dsimp only
  rw [show ({ initialState base maxA with brk := base + 80 } : MState).mem =
    (fun _ => (0 : Nat)) from rfl]
  rw [show base + SIZE_T_SIZE * SEG_LIST_COUNT + DSIZE = base + 72 from by
    norm_num [SIZE_T_SIZE, SEG_LIST_COUNT, DSIZE, ALIGN]]
  rw [show GET_HEADER (base + 72) = base + 68 from by unfold GET_HEADER; omega]
  have hget : GET (PUT (initSlots (fun _ => 0) base SEG_LIST_COUNT) (base + 68)
      (PACK MIN_BLOCK_SIZE 1)) (base + 68) = 17 := by
    rw [GET_PUT, show PACK MIN_BLOCK_SIZE 1 = 17 from by decide]
    norm_num
  rw [show GET_FOOTER (PUT (initSlots (fun _ => 0) base SEG_LIST_COUNT)
      (base + 68) (PACK MIN_BLOCK_SIZE 1)) (base + 72) = base + 80 from by
    unfold GET_FOOTER GET_SIZE GET_HEADER
    rw [show base + 72 - 4 = base + 68 from by omega, hget]
    omega]
  rfl

/-- A successful return flag of `mm_init` is exactly the provider having
80 bytes of room. -/
theorem mm_init_ok_iff {base maxA : Nat} :
    (mm_init (initialState base maxA)).1 = 0 ↔ base + 80 ≤ maxA := by
  constructor
  · intro h
    by_contra hc
    push_neg at hc
    have hsb : mem_sbrk (initialState base maxA)
        (ALIGN (SIZE_T_SIZE * SEG_LIST_COUNT) + MIN_BLOCK_SIZE) =
        (none, initialState base maxA) := by
      rw [show ALIGN (SIZE_T_SIZE * SEG_LIST_COUNT) + MIN_BLOCK_SIZE = 80 from
        by decide]
      unfold mem_sbrk initialState
      dsimp only
      rw [if_pos (by omega)]
    unfold mm_init at h
    dsimp only at h
    rw [hsb] at h
    dsimp only at h
    cases h
  · intro h
    rw [mm_init_eval h]

/-- A successful `mm_init` establishes the full invariant with the single
sentinel block and empty class lists. -/
theorem mm_init_invat {base maxA : Nat} (h8 : base % 8 = 0) (hm : maxA < 2 ^ 32)
    (hgrow : base + 80 ≤ maxA) :
    InvAt (mm_init (initialState base maxA)).2 []
      [(base + 72, 16, 1)] (fun _ => []) := by
  rw [mm_init_eval hgrow]
  dsimp only
  have hpack : PACK MIN_BLOCK_SIZE 1 = 17 := by decide
  rw [hpack]
  have hhdr : GET (PUT (PUT (initSlots (fun _ => 0) base SEG_LIST_COUNT)
      (base + 68) 17) (base + 80) 17) (base + 68) = 17 := by
    rw [GET_PUT_out _ _ (Or.inl (by omega)), GET_PUT]
    norm_num
  have hftr : GET (PUT (PUT (initSlots (fun _ => 0) base SEG_LIST_COUNT)
      (base + 68) 17) (base + 80) 17) (base + 80) = 17 := by
    rw [GET_PUT]
    norm_num
  have hslot : ∀ j, j < 8 → GET_PTR (PUT (PUT (initSlots (fun _ => 0) base
      SEG_LIST_COUNT) (base + 68) 17) (base + 80) 17) (base + 8 * j) = 0 := by
    intro j hj
    rw [GET_PTR_PUT_out _ _ (Or.inl (by omega)),
      GET_PTR_PUT_out _ _ (Or.inl (by omega))]
    unfold GET_PTR
    rw [readBytes_congr (fun x _ _ => initSlots_zero base SEG_LIST_COUNT x)]
    exact readBytes_zero 8 _
  refine InvAt.mk (SegCtx.mk rfl rfl
    (by show (base + 72) % 8 = 0; omega) hm
    (by show base + 80 ≤ maxA; omega) ?_ ⟨[], rfl⟩
    ?_ ?_) ?_ ?_ ?_ ?_
  · show BlocksRep _ (base + 72) (base + 80 + 8) _
    refine BlocksRep.cons _ _ _ _ _ (by omega) (by omega) (by omega) ?_ ?_ ?_
    · rw [show base + 72 - 4 = base + 68 from by omega]
      exact hhdr
    · rw [show base + 72 + 16 - 8 = base + 80 from by omega]
      exact hftr
    · rw [BlocksRep.nil_iff]
  · intro j hj
    show ChainRep _ (GET_PTR _ (base + 8 * j)) []
    rw [hslot j hj, ChainRep.chain_nil_iff]
  · intro j hj q hq
    cases hq
  · exact List.chain'_singleton _
  · intro b hb hba
    rcases List.mem_cons.mp hb with rfl | hb2
    · cases hba
    · cases hb2
  · intro p hp
    cases hp
  · exact List.nodup_nil

/-! ## Caller stores into live payloads preserve the invariant -/

/-- A caller byte store strictly inside the payload of a live block keeps
the invariant: the write misses every tag, every table slot, and every
other block. -/
theorem store_invat {s : MState} {L : List Nat} {bs : List Blk}
    {fl : Nat → List Nat} (h : InvAt s L bs fl) {p i v : Nat} (hp : p ∈ L)
    (hi : i < GET_SIZE s.mem (GET_HEADER p) - 8) :
    InvAt (storeByte s p i v) L bs fl := by
  obtain ⟨hne, szp, hpb⟩ := h.live_mem p hp
  have hctx := h.toSegCtx
  have htag := hctx.read_tag hpb
  have hg := hctx.block_geo _ hpb
  simp only [blkPtr, blkSize, blkAlloc] at hg
  rw [htag.1] at hi
  have hm : ∀ x, x < p - 4 ∨ p + szp - 4 ≤ x →
      (storeByte s p i v).mem x = s.mem x := by
    intro x hx
    show (if x = p + i then v % 256 else s.mem x) = s.mem x
    rw [if_neg (by omega)]
  have htags : ∀ a, a + 4 ≤ p + i ∨ p + i + 1 ≤ a →
      GET (storeByte s p i v).mem a = GET s.mem a := by
    intro a ha
    refine readBytes_congr ?_
    intro x hx1 hx2
    show (if x = p + i then v % 256 else s.mem x) = s.mem x
    rw [if_neg (by omega)]
  have hnofl : ∀ j, j < 8 → p ∉ fl j := by
    intro j hj hc
    obtain ⟨sz0, hb0, _⟩ := hctx.chain_mem j hj p hc
    have heq := BlocksRep.ptr_inj hctx.blocks hb0 hpb rfl
    simp only [Prod.mk.injEq] at heq
    exact absurd heq.2.2 (by norm_num)
  refine InvAt.mk (SegCtx.mk hctx.bp_eq hctx.hp_eq hctx.hp_align hctx.max_lt
    hctx.brk_le ?_ hctx.sentinel ?_ hctx.chain_mem) h.no_adj_free
    h.free_in_chain (fun q hq => h.live_mem q hq) h.live_nodup
  · refine BlocksRep.frame_tags hctx.blocks ?_
    intro b hb
    by_cases hbp : blkPtr b = p
    · have hbeq : b = (p, szp, 1) := BlocksRep.ptr_inj hctx.blocks hb hpb hbp
      rw [hbeq]
      simp only [blkPtr, blkSize]
      exact ⟨htags _ (by omega), htags _ (by omega)⟩
    · have hout := hctx.others_frame_outside hpb hm b hb hbp
      have hgb := hctx.block_geo b hb
      constructor
      · exact readBytes_congr (fun x hx1 hx2 => hout x (by omega) (by omega))
      · exact readBytes_congr (fun x hx1 hx2 => hout x (by omega) (by omega))
  · exact hctx.chains_frame_outside hpb hm hnofl

/-! ## `mm_free` and `coalesce` preserve the invariant -/

/-- A free block is never the sentinel. -/
theorem SegCtx.free_ne_hp {s : MState} {bs : List Blk} {fl : Nat → List Nat}
    (h : SegCtx s bs fl) {q sz : Nat} (hq : (q, sz, 0) ∈ bs) : q ≠ s.memHp := by
  intro hc
  obtain ⟨rest, hrest⟩ := h.sentinel
  have hmem : ((s.memHp, 16, 1) : Blk) ∈ bs := by
    rw [hrest]
    exact List.mem_cons_self _ _
  have heq := BlocksRep.ptr_inj h.blocks hq hmem hc
  simp only [Prod.mk.injEq] at heq
  exact absurd heq.2.2 (by norm_num)

/-- An allocated block is in no class chain. -/
theorem SegCtx.alloc_notin_chains {s : MState} {bs : List Blk}
    {fl : Nat → List Nat} (h : SegCtx s bs fl) {q sz : Nat}
    (hq : (q, sz, 1) ∈ bs) : ∀ j, j < 8 → q ∉ fl j := by
  intro j hj hc
  obtain ⟨sz0, hb0, _⟩ := h.chain_mem j hj q hc
  have heq := BlocksRep.ptr_inj h.blocks hb0 hq rfl
  simp only [Prod.mk.injEq] at heq
  exact absurd heq.2.2 (by norm_num)

/-- Splicing a member out of one class keeps every other indexed pointer
indexed (the erased list keeps it because chains have no duplicates). -/
theorem flUpd_erase_mem {fl : Nat → List Nat} {i q : Nat}
    (hnd : (fl i).Nodup) {r j : Nat} (hr : r ∈ fl j) (hrq : r ≠ q) :
    r ∈ flUpd fl i ((fl i).erase q) j := by
  unfold flUpd
  by_cases hji : j = i
  · subst hji
    rw [if_pos rfl]
    exact (List.Nodup.mem_erase_iff hnd).mpr ⟨hrq, hr⟩
  · rw [if_neg hji]
    exact hr

/-- Conversely, membership after the splice implies membership before. -/
theorem flUpd_erase_mem_rev {fl : Nat → List Nat} {i q r j : Nat}
    (h : r ∈ flUpd fl i ((fl i).erase q) j) : r ∈ fl j := by
  unfold flUpd at h
  by_cases hji : j = i
  · rw [if_pos hji] at h
    rw [hji]
    exact List.mem_of_mem_erase h
  · rw [if_neg hji] at h
    exact h

/-- `coalesce` case: allocated left neighbour, ineligible successor.  Only
the released block itself is retagged free and indexed. -/
theorem free_invat_an {s : MState} {L : List Nat} {bsA : List Blk}
    {q0 szq p szp : Nat} {bsB : List Blk} {fl : Nat → List Nat}
    (h : InvAt s L (bsA ++ (q0, szq, 1) :: (p, szp, 1) :: bsB) fl)
    (hp : p ∈ L)
    (hnext : bsB = [] ∨ ∃ r0 szr bsB2, bsB = (r0, szr, 1) :: bsB2) :
    ∃ s', mm_free s p = some s' ∧
      s'.segLists = s.segLists ∧ s'.memHp = s.memHp ∧ s'.memBp = s.memBp ∧
      s'.brk = s.brk ∧ s'.maxAddr = s.maxAddr ∧
      InvAt s' (L.erase p) (bsA ++ (q0, szq, 1) :: (p, szp, 0) :: bsB)
        (flUpd fl (get_size_class szp) (p :: fl (get_size_class szp))) ∧
      (∀ b ∈ bsA ++ (q0, szq, 1) :: (p, szp, 1) :: bsB, blkAlloc b = 1 →
        blkPtr b ≠ p → ∀ x, blkPtr b - 4 ≤ x → x < blkPtr b + blkSize b - 4 →
          s'.mem x = s.mem x) := by
  have hctx := h.toSegCtx
  have hqb : ((q0, szq, 1) : Blk) ∈ bsA ++ (q0, szq, 1) :: (p, szp, 1) :: bsB :=
    List.mem_append.mpr (Or.inr (List.mem_cons_self _ _))
  have hpb : ((p, szp, 1) : Blk) ∈ bsA ++ (q0, szq, 1) :: (p, szp, 1) :: bsB :=
    List.mem_append.mpr (Or.inr (List.mem_cons_of_mem _ (List.mem_cons_self _ _)))
  have hgq := hctx.block_geo _ hqb
  have hgp := hctx.block_geo _ hpb
  simp only [blkPtr, blkSize, blkAlloc] at hgq hgp
  have hhp := hctx.hp_eq
  have hbp := hctx.bp_eq
  -- structural split of the tiling
  obtain ⟨j1, hA1, hR1⟩ := BlocksRep.append_iff.mp hctx.blocks
  rw [BlocksRep.cons_iff] at hR1
  obtain ⟨hj1q, _, _, _, _, _, hT1⟩ := hR1
  rw [BlocksRep.cons_iff] at hT1
  obtain ⟨hadj, _, _, _, _, _, htB⟩ := hT1
  simp only [blkPtr, blkSize] at hj1q hadj htB
  subst hj1q
  -- evaluation of the two neighbour steps
  have hpne0 : p ≠ 0 := by omega
  have hszread : GET_SIZE s.mem (GET_HEADER p) = szp := (hctx.read_tag hpb).1
  have hprev : GET_PREV s.mem p = q0 := by
    unfold GET_PREV
    rw [show p - 8 = q0 + szq - 8 from by omega]
    rw [show GET_SIZE s.mem (q0 + szq - 8) = szq from
      GET_SIZE_of_tag hgq.2.2.2.2.2.2.2 hgq.2.2.2.1 (by norm_num)]
    omega
  have hpstep : coalesce_prev_step s p szp = some (s, p, szp) := by
    unfold coalesce_prev_step
    rw [hprev]
    rw [if_neg (fun hc => by
      have h1 := (hctx.read_tag hqb).2
      rw [hc.2] at h1
      cases h1)]
  have hnexteval : GET_NEXT s.mem p = p + szp := by
    unfold GET_NEXT
    rw [show GET_SIZE s.mem (p - 4) = szp from hszread]
  have hncond : ¬ (INSIDE_HEAP s (GET_NEXT s.mem p) ∧
      GET_ALLOC s.mem (GET_HEADER (GET_NEXT s.mem p)) = 0) := by
    rw [hnexteval]
    rcases hnext with hB | ⟨r0, szr, bsB2, hB⟩
    · subst hB
      rw [BlocksRep.nil_iff] at htB
      intro hc
      have := hc.1.2
      omega
    · subst hB
      rw [BlocksRep.cons_iff] at htB
      have hpr : p + szp = r0 := by
        have h0 := htB.1
        simp only [blkPtr, blkSize] at h0
        omega
      have hrb : ((r0, szr, 1) : Blk) ∈
          bsA ++ (q0, szq, 1) :: (p, szp, 1) :: (r0, szr, 1) :: bsB2 :=
        List.mem_append.mpr (Or.inr (List.mem_cons_of_mem _
          (List.mem_cons_of_mem _ (List.mem_cons_self _ _))))
      intro hc
      have h1 := (hctx.read_tag hrb).2
      rw [hpr] at hc
      rw [hc.2] at h1
      cases h1
  have hnstep : coalesce_next_step s p s szp = some (s, szp) := by
    unfold coalesce_next_step
    rw [if_neg hncond]
  -- the merged run is the single released block
  have hctx2 : SegCtx s ((bsA ++ [(q0, szq, 1)]) ++
      ([((p : Nat), (szp : Nat), (1 : Nat))] ++ bsB)) fl := by
    rw [List.append_assoc]
    exact hctx
  have hA : BlocksRep s.mem s.memHp p (bsA ++ [(q0, szq, 1)]) := by
    refine BlocksRep.append_iff.mpr ⟨q0, hA1, ?_⟩
    refine BlocksRep.cons_iff.mpr ⟨rfl, by show (16 : Nat) ≤ szq; omega,
      by show szq % 8 = 0; omega, by show (1 : Nat) ≤ 1; omega,
      hgq.2.2.2.2.2.2.1, hgq.2.2.2.2.2.2.2, ?_⟩
    show BlocksRep s.mem (q0 + szq) p []
    rw [BlocksRep.nil_iff]
    omega
  have hMid : BlocksRep s.mem p (p + szp) [((p : Nat), (szp : Nat), (1 : Nat))] := by
    refine BlocksRep.cons_iff.mpr ⟨rfl, by show (16 : Nat) ≤ szp; omega,
      by show szp % 8 = 0; omega, by show (1 : Nat) ≤ 1; omega,
      hgp.2.2.2.2.2.2.1, hgp.2.2.2.2.2.2.2, ?_⟩
    show BlocksRep s.mem (p + szp) (p + szp) []
    exact BlocksRep.nil _
  have hmid : ∀ c ∈ [((p : Nat), (szp : Nat), (1 : Nat))], ∀ j, j < 8 →
      blkPtr c ∉ fl j := by
    intro c hc j hj
    rcases List.mem_cons.mp hc with rfl | hc2
    · exact hctx.alloc_notin_chains hpb j hj
    · cases hc2
  have hadjC : List.Chain' (fun b c => blkAlloc b = 1 ∨ blkAlloc c = 1)
      ((bsA ++ [(q0, szq, 1)]) ++ (p, szp, 0) :: bsB) := by
    have hno := h.no_adj_free
    rw [List.append_assoc]
    show List.Chain' _ (bsA ++ (q0, szq, 1) :: (p, szp, 0) :: bsB)
    rw [List.chain'_append] at hno ⊢
    obtain ⟨hC1, hC2, hBr⟩ := hno
    rw [List.chain'_cons'] at hC2
    obtain ⟨_, hC3⟩ := hC2
    rw [List.chain'_cons'] at hC3
    obtain ⟨hHd, hCtail⟩ := hC3
    refine ⟨hC1, ?_, ?_⟩
    · rw [List.chain'_cons']
      refine ⟨fun y hy => ?_, ?_⟩
      · simp only [List.head?_cons, Option.mem_def, Option.some.injEq] at hy
        subst hy
        exact Or.inl rfl
      · rw [List.chain'_cons']
        refine ⟨fun y hy => ?_, hCtail⟩
        rcases hnext with hB | ⟨r0, szr, bsB2, hB⟩
        · subst hB
          cases hy
        · subst hB
          simp only [List.head?_cons, Option.mem_def, Option.some.injEq] at hy
          subst hy
          exact Or.inr rfl
    · intro x hx y hy
      simp only [List.head?_cons, Option.mem_def, Option.some.injEq] at hy
      subst hy
      exact hBr x hx _ (by simp)
  have hfree2 : ∀ b ∈ (bsA ++ [(q0, szq, 1)]) ++ (p, szp, 0) :: bsB,
      blkAlloc b = 0 → b ≠ ((p, szp, 0) : Blk) →
      blkPtr b ∈ fl (get_size_class (blkSize b)) := by
    intro b hb hba hbne
    refine h.free_in_chain b ?_ hba
    rcases List.mem_append.mp hb with h1 | h1
    · rcases List.mem_append.mp h1 with h2 | h2
      · exact List.mem_append.mpr (Or.inl h2)
      · rcases List.mem_cons.mp h2 with rfl | h3
        · exact List.mem_append.mpr (Or.inr (List.mem_cons_self _ _))
        · cases h3
    · rcases List.mem_cons.mp h1 with rfl | h2
      · exact absurd rfl hbne
      · exact List.mem_append.mpr (Or.inr (List.mem_cons_of_mem _
          (List.mem_cons_of_mem _ h2)))
  have hlive2 : ∀ r ∈ L.erase p, r ≠ s.memHp ∧ ∃ sz,
      (r, sz, 1) ∈ (bsA ++ [(q0, szq, 1)]) ++ (p, szp, 0) :: bsB := by
    intro r hr
    have hr' : r ∈ L := List.mem_of_mem_erase hr
    have hrp : r ≠ p := ((List.Nodup.mem_erase_iff h.live_nodup).mp hr).1
    obtain ⟨hne, sz, hmem⟩ := h.live_mem r hr'
    refine ⟨hne, sz, ?_⟩
    rcases List.mem_append.mp hmem with h1 | h1
    · exact List.mem_append.mpr (Or.inl (List.mem_append.mpr (Or.inl h1)))
    · rcases List.mem_cons.mp h1 with heq | h2
      · rw [heq]
        exact List.mem_append.mpr (Or.inl (List.mem_append.mpr (Or.inr
          (List.mem_cons_self _ _))))
      · rcases List.mem_cons.mp h2 with heq | h3
        · exfalso
          have := congrArg blkPtr heq
          simp only [blkPtr] at this
          exact hrp this
        · exact List.mem_append.mpr (Or.inr (List.mem_cons_of_mem _ h3))
  obtain ⟨s', hmerge, hs1, hs2, hs3, hs4, hs5, hinv, hbytes⟩ :=
    free_endgame hctx2 hA hMid (by simp) hmid (by omega) (by omega) (by omega)
      (by have := hctx.size_lt _ hpb; simpa [blkSize] using this)
      hadjC hfree2 hlive2 (List.Nodup.erase _ h.live_nodup)
  refine ⟨s', ?_, hs1, hs2, hs3, hs4, hs5, ?_, ?_⟩
  · unfold mm_free
    rw [if_neg hpne0, hszread]
    unfold coalesce
    rw [if_neg (by push_neg; exact ⟨hpne0, by omega⟩)]
    rw [hpstep]
    show (match coalesce_next_step s p s szp with
      | none => none
      | some (s2, free_size) => some (coalesce_merge s2 p free_size)) = some s'
    rw [hnstep]
    show some (coalesce_merge s p szp) = some s'
    rw [hmerge]
  · have hgoal := hinv
    rw [List.append_assoc] at hgoal
    exact hgoal
  · intro b hb hba hbne x hx1 hx2
    refine hbytes b ?_ hba ?_ x hx1 hx2
    · rw [List.append_assoc]
      exact hb
    · intro c hc
      rcases List.mem_cons.mp hc with rfl | hc2
      · intro hcc
        exact hbne (by rw [hcc]; rfl)
      · cases hc2

/-- `coalesce` case: free left neighbour, ineligible successor.  The
predecessor is removed from its class, the run grows leftward, and the
merged block is indexed under the combined size. -/
theorem free_invat_fn {s : MState} {L : List Nat} {bsA : List Blk}
    {q0 szq p szp : Nat} {bsB : List Blk} {fl : Nat → List Nat}
    (h : InvAt s L (bsA ++ (q0, szq, 0) :: (p, szp, 1) :: bsB) fl)
    (hp : p ∈ L)
    (hnext : bsB = [] ∨ ∃ r0 szr bsB2, bsB = (r0, szr, 1) :: bsB2) :
    ∃ s', mm_free s p = some s' ∧
      s'.segLists = s.segLists ∧ s'.memHp = s.memHp ∧ s'.memBp = s.memBp ∧
      s'.brk = s.brk ∧ s'.maxAddr = s.maxAddr ∧
      InvAt s' (L.erase p) (bsA ++ (q0, szp + szq, 0) :: bsB)
        (flUpd (flUpd fl (get_size_class szq) ((fl (get_size_class szq)).erase q0))
          (get_size_class (szp + szq))
          (q0 :: flUpd fl (get_size_class szq) ((fl (get_size_class szq)).erase q0)
            (get_size_class (szp + szq)))) ∧
      (∀ b ∈ bsA ++ (q0, szq, 0) :: (p, szp, 1) :: bsB, blkAlloc b = 1 →
        blkPtr b ≠ p → ∀ x, blkPtr b - 4 ≤ x → x < blkPtr b + blkSize b - 4 →
          s'.mem x = s.mem x) := by
  have hctx := h.toSegCtx
  have hqb : ((q0, szq, 0) : Blk) ∈ bsA ++ (q0, szq, 0) :: (p, szp, 1) :: bsB :=
    List.mem_append.mpr (Or.inr (List.mem_cons_self _ _))
  have hpb : ((p, szp, 1) : Blk) ∈ bsA ++ (q0, szq, 0) :: (p, szp, 1) :: bsB :=
    List.mem_append.mpr (Or.inr (List.mem_cons_of_mem _ (List.mem_cons_self _ _)))
  have hgq := hctx.block_geo _ hqb
  have hgp := hctx.block_geo _ hpb
  simp only [blkPtr, blkSize, blkAlloc] at hgq hgp
  have hhp := hctx.hp_eq
  have hbp := hctx.bp_eq
  have hmax := hctx.max_lt
  have hbrkle := hctx.brk_le
  -- structural split of the tiling (on the original memory)
  obtain ⟨j1, hA1, hR1⟩ := BlocksRep.append_iff.mp hctx.blocks
  rw [BlocksRep.cons_iff] at hR1
  obtain ⟨hj1q, _, _, _, _, _, hT1⟩ := hR1
  rw [BlocksRep.cons_iff] at hT1
  obtain ⟨hadj, _, _, _, _, _, htB⟩ := hT1
  simp only [blkPtr, blkSize] at hj1q hadj htB
  subst hj1q
  have hpne0 : p ≠ 0 := by omega
  have hszread : GET_SIZE s.mem (GET_HEADER p) = szp := (hctx.read_tag hpb).1
  have hqszread : GET_SIZE s.mem (GET_HEADER q0) = szq := (hctx.read_tag hqb).1
  have hprev : GET_PREV s.mem p = q0 := by
    unfold GET_PREV
    rw [show p - 8 = q0 + szq - 8 from by omega]
    rw [show GET_SIZE s.mem (q0 + szq - 8) = szq from
      GET_SIZE_of_tag hgq.2.2.2.2.2.2.2 hgq.2.2.2.1 (by norm_num)]
    omega
  -- the predecessor is eligible: remove it from its class
  have hqfl : q0 ∈ fl (get_size_class szq) := by
    have h0 := h.free_in_chain _ hqb rfl
    simp only [blkPtr, blkSize] at h0
    exact h0
  obtain ⟨s1, hrm, hr1, hr2, hr3, hr4, hr5, hctx1, habe1⟩ :=
    seg_list_remove_correct hctx hqb hqfl
  have hcond : INSIDE_HEAP s q0 ∧ GET_ALLOC s.mem (GET_HEADER q0) = 0 :=
    ⟨⟨by omega, by omega⟩, (hctx.read_tag hqb).2⟩
  have hg1q := hctx1.block_geo _ hqb
  have hg1p := hctx1.block_geo _ hpb
  simp only [blkPtr, blkSize, blkAlloc] at hg1q hg1p
  have hprev1 : GET_PREV s1.mem p = q0 := by
    unfold GET_PREV
    rw [show p - 8 = q0 + szq - 8 from by omega]
    rw [show GET_SIZE s1.mem (q0 + szq - 8) = szq from
      GET_SIZE_of_tag hg1q.2.2.2.2.2.2.2 hg1q.2.2.2.1 (by norm_num)]
    omega
  have hpstep : coalesce_prev_step s p szp = some (s1, q0, szp + szq) := by
    unfold coalesce_prev_step
    rw [hprev]
    rw [if_pos hcond]
    rw [hrm]
    dsimp only
    rw [hprev1, hqszread]
  have hnexteval : GET_NEXT s.mem p = p + szp := by
    unfold GET_NEXT
    rw [show GET_SIZE s.mem (p - 4) = szp from hszread]
  have hncond : ¬ (INSIDE_HEAP s (GET_NEXT s.mem p) ∧
      GET_ALLOC s.mem (GET_HEADER (GET_NEXT s.mem p)) = 0) := by
    rw [hnexteval]
    rcases hnext with hB | ⟨r0, szr, bsB2, hB⟩
    · subst hB
      rw [BlocksRep.nil_iff] at htB
      intro hc
      have := hc.1.2
      omega
    · subst hB
      rw [BlocksRep.cons_iff] at htB
      have hpr : p + szp = r0 := by
        have h0 := htB.1
        simp only [blkPtr, blkSize] at h0
        omega
      have hrb : ((r0, szr, 1) : Blk) ∈
          bsA ++ (q0, szq, 0) :: (p, szp, 1) :: (r0, szr, 1) :: bsB2 :=
        List.mem_append.mpr (Or.inr (List.mem_cons_of_mem _
          (List.mem_cons_of_mem _ (List.mem_cons_self _ _))))
      intro hc
      have h1 := (hctx.read_tag hrb).2
      rw [hpr] at hc
      rw [hc.2] at h1
      cases h1
  have hnstep : coalesce_next_step s p s1 (szp + szq) = some (s1, szp + szq) := by
    unfold coalesce_next_step
    rw [if_neg hncond]
  -- split the post-removal tiling and rebuild the run to merge
  obtain ⟨j2, hA2, hR2⟩ := BlocksRep.append_iff.mp hctx1.blocks
  rw [BlocksRep.cons_iff] at hR2
  obtain ⟨hj2q, _, _, _, _, _, _⟩ := hR2
  simp only [blkPtr] at hj2q
  subst hj2q
  have hMid : BlocksRep s1.mem q0 (q0 + (szp + szq))
      [((q0 : Nat), (szq : Nat), (0 : Nat)), ((p : Nat), (szp : Nat), (1 : Nat))] := by
    refine BlocksRep.cons_iff.mpr ⟨rfl, by show (16 : Nat) ≤ szq; omega,
      by show szq % 8 = 0; omega, by show (0 : Nat) ≤ 1; omega,
      hg1q.2.2.2.2.2.2.1, hg1q.2.2.2.2.2.2.2, ?_⟩
    show BlocksRep s1.mem (q0 + szq) (q0 + (szp + szq))
      [((p : Nat), (szp : Nat), (1 : Nat))]
    refine BlocksRep.cons_iff.mpr ⟨by show (p : Nat) = q0 + szq; omega,
      by show (16 : Nat) ≤ szp; omega, by show szp % 8 = 0; omega,
      by show (1 : Nat) ≤ 1; omega, ?_, ?_, ?_⟩
    · show GET s1.mem (q0 + szq - 4) = szp + 1
      rw [show q0 + szq - 4 = p - 4 from by omega]
      exact hg1p.2.2.2.2.2.2.1
    · show GET s1.mem (q0 + szq + szp - 8) = szp + 1
      rw [show q0 + szq + szp - 8 = p + szp - 8 from by omega]
      exact hg1p.2.2.2.2.2.2.2
    · show BlocksRep s1.mem (q0 + szq + szp) (q0 + (szp + szq)) []
      rw [BlocksRep.nil_iff]
      omega
  have hctx2 : SegCtx s1 (bsA ++
      ([((q0 : Nat), (szq : Nat), (0 : Nat)), ((p : Nat), (szp : Nat), (1 : Nat))] ++
        bsB))
      (flUpd fl (get_size_class szq) ((fl (get_size_class szq)).erase q0)) := hctx1
  have hndq : (fl (get_size_class szq)).Nodup :=
    ChainRep.nodup (hctx.chains _ (get_size_class_lt szq))
  have hmid : ∀ c ∈ [((q0 : Nat), (szq : Nat), (0 : Nat)),
      ((p : Nat), (szp : Nat), (1 : Nat))], ∀ j, j < 8 →
      blkPtr c ∉ flUpd fl (get_size_class szq) ((fl (get_size_class szq)).erase q0)
        j := by
    intro c hc j hj hcin
    rcases List.mem_cons.mp hc with rfl | hc2
    · obtain ⟨sz0, hb0, hcl0⟩ := hctx1.chain_mem j hj _ hcin
      have heq := BlocksRep.ptr_inj hctx1.blocks hb0 hqb rfl
      simp only [Prod.mk.injEq] at heq
      rw [heq.2.1] at hcl0
      subst hcl0
      unfold flUpd at hcin
      rw [if_pos rfl] at hcin
      exact ((List.Nodup.mem_erase_iff hndq).mp hcin).1 rfl
    · rcases List.mem_cons.mp hc2 with rfl | hc3
      · exact hctx1.alloc_notin_chains hpb j hj hcin
      · cases hc3
  have hadjC : List.Chain' (fun b c => blkAlloc b = 1 ∨ blkAlloc c = 1)
      (bsA ++ ((q0 : Nat), szp + szq, (0 : Nat)) :: bsB) := by
    have hno := h.no_adj_free
    rw [List.chain'_append] at hno ⊢
    obtain ⟨hC1, hC2, hBr⟩ := hno
    rw [List.chain'_cons'] at hC2
    obtain ⟨_, hC3⟩ := hC2
    rw [List.chain'_cons'] at hC3
    obtain ⟨hHd, hCtail⟩ := hC3
    refine ⟨hC1, ?_, ?_⟩
    · rw [List.chain'_cons']
      refine ⟨fun y hy => ?_, hCtail⟩
      rcases hnext with hB | ⟨r0, szr, bsB2, hB⟩
      · subst hB
        cases hy
      · subst hB
        simp only [List.head?_cons, Option.mem_def, Option.some.injEq] at hy
        subst hy
        exact Or.inr rfl
    · intro x hx y hy
      simp only [List.head?_cons, Option.mem_def, Option.some.injEq] at hy
      subst hy
      have hxq := hBr x hx (((q0 : Nat), (szq : Nat), (0 : Nat)) : Blk) (by simp)
      rcases hxq with h1 | h1
      · exact Or.inl h1
      · exact absurd h1 Nat.zero_ne_one
  have hfree2 : ∀ b ∈ bsA ++ ((q0 : Nat), szp + szq, (0 : Nat)) :: bsB,
      blkAlloc b = 0 → b ≠ ((q0, szp + szq, 0) : Blk) →
      blkPtr b ∈ flUpd fl (get_size_class szq) ((fl (get_size_class szq)).erase q0)
        (get_size_class (blkSize b)) := by
    intro b hb hba hbne
    have hbor : b ∈ bsA ∨ b ∈ bsB := by
      rcases List.mem_append.mp hb with h1 | h1
      · exact Or.inl h1
      · rcases List.mem_cons.mp h1 with heq | h2
        · exact absurd heq hbne
        · exact Or.inr h2
    have hborig : b ∈ bsA ++ ((q0 : Nat), (szq : Nat), (0 : Nat)) ::
        ((p : Nat), (szp : Nat), (1 : Nat)) :: bsB := by
      rcases hbor with h1 | h1
      · exact List.mem_append.mpr (Or.inl h1)
      · exact List.mem_append.mpr (Or.inr (List.mem_cons_of_mem _
          (List.mem_cons_of_mem _ h1)))
    have hbfl := h.free_in_chain b hborig hba
    have hbq0 : blkPtr b ≠ q0 := by
      rcases hbor with h1 | h1
      · have hm1 := BlocksRep.mem_bounds hA1 b h1
        omega
      · have hm1 := BlocksRep.mem_bounds htB b h1
        omega
    exact flUpd_erase_mem hndq hbfl hbq0
  have hlive2 : ∀ r ∈ L.erase p, r ≠ s1.memHp ∧ ∃ sz,
      (r, sz, 1) ∈ bsA ++ ((q0 : Nat), szp + szq, (0 : Nat)) :: bsB := by
    intro r hr
    have hr' : r ∈ L := List.mem_of_mem_erase hr
    have hrp : r ≠ p := ((List.Nodup.mem_erase_iff h.live_nodup).mp hr).1
    obtain ⟨hne, sz, hmem⟩ := h.live_mem r hr'
    refine ⟨by rw [hr2]; exact hne, sz, ?_⟩
    rcases List.mem_append.mp hmem with h1 | h1
    · exact List.mem_append.mpr (Or.inl h1)
    · rcases List.mem_cons.mp h1 with heq | h2
      · exact absurd (congrArg blkAlloc heq) Nat.one_ne_zero
      · rcases List.mem_cons.mp h2 with heq | h3
        · exfalso
          have := congrArg blkPtr heq
          simp only [blkPtr] at this
          exact hrp this
        · exact List.mem_append.mpr (Or.inr (List.mem_cons_of_mem _ h3))
  obtain ⟨s', hmerge, hs1, hs2, hs3, hs4, hs5, hinv, hbytes⟩ :=
    free_endgame hctx2 hA2 hMid (by simp) hmid
      (by have hne := hctx1.free_ne_hp hqb; have hhp1 := hctx1.hp_eq; omega)
      (by omega) (by omega) (by omega)
      hadjC hfree2 hlive2 (List.Nodup.erase _ h.live_nodup)
  refine ⟨s', ?_, hs1.trans hr1, hs2.trans hr2, hs3.trans hr3, hs4.trans hr4,
    hs5.trans hr5, hinv, ?_⟩
  · unfold mm_free
    rw [if_neg hpne0, hszread]
    unfold coalesce
    rw [if_neg (by push_neg; exact ⟨hpne0, by omega⟩)]
    rw [hpstep]
    show (match coalesce_next_step s p s1 (szp + szq) with
      | none => none
      | some (s2, free_size) => some (coalesce_merge s2 q0 free_size)) = some s'
    rw [hnstep]
    show some (coalesce_merge s1 q0 (szp + szq)) = some s'
    rw [hmerge]
  · intro b hb hba hbne x hx1 hx2
    have hmidne2 : ∀ c ∈ [((q0 : Nat), (szq : Nat), (0 : Nat)),
        ((p : Nat), (szp : Nat), (1 : Nat))], b ≠ c := by
      intro c hc
      rcases List.mem_cons.mp hc with rfl | hc2
      · intro hcc
        rw [hcc] at hba
        exact absurd hba Nat.zero_ne_one
      · rcases List.mem_cons.mp hc2 with rfl | hc3
        · intro hcc
          exact hbne (by rw [hcc]; rfl)
        · cases hc3
    have h1 := hbytes b hb hba hmidne2 x hx1 hx2
    have h2 := habe1 b hb hba x hx1 hx2
    exact h1.trans h2

/-- `coalesce` case: allocated left neighbour, free successor.  The
successor is removed from its class, absorbed, and the merged block is
indexed under the combined size. -/
theorem free_invat_af {s : MState} {L : List Nat} {bsA : List Blk}
    {q0 szq p szp r0 szr : Nat} {bsB : List Blk} {fl : Nat → List Nat}
    (h : InvAt s L (bsA ++ (q0, szq, 1) :: (p, szp, 1) :: (r0, szr, 0) :: bsB) fl)
    (hp : p ∈ L) :
    ∃ s', mm_free s p = some s' ∧
      s'.segLists = s.segLists ∧ s'.memHp = s.memHp ∧ s'.memBp = s.memBp ∧
      s'.brk = s.brk ∧ s'.maxAddr = s.maxAddr ∧
      InvAt s' (L.erase p) (bsA ++ (q0, szq, 1) :: (p, szp + szr, 0) :: bsB)
        (flUpd (flUpd fl (get_size_class szr) ((fl (get_size_class szr)).erase r0))
          (get_size_class (szp + szr))
          (p :: flUpd fl (get_size_class szr) ((fl (get_size_class szr)).erase r0)
            (get_size_class (szp + szr)))) ∧
      (∀ b ∈ bsA ++ (q0, szq, 1) :: (p, szp, 1) :: (r0, szr, 0) :: bsB,
        blkAlloc b = 1 → blkPtr b ≠ p → ∀ x, blkPtr b - 4 ≤ x →
          x < blkPtr b + blkSize b - 4 → s'.mem x = s.mem x) := by
  have hctx := h.toSegCtx
  have hqb : ((q0, szq, 1) : Blk) ∈
      bsA ++ (q0, szq, 1) :: (p, szp, 1) :: (r0, szr, 0) :: bsB :=
    List.mem_append.mpr (Or.inr (List.mem_cons_self _ _))
  have hpb : ((p, szp, 1) : Blk) ∈
      bsA ++ (q0, szq, 1) :: (p, szp, 1) :: (r0, szr, 0) :: bsB :=
    List.mem_append.mpr (Or.inr (List.mem_cons_of_mem _ (List.mem_cons_self _ _)))
  have hrb : ((r0, szr, 0) : Blk) ∈
      bsA ++ (q0, szq, 1) :: (p, szp, 1) :: (r0, szr, 0) :: bsB :=
    List.mem_append.mpr (Or.inr (List.mem_cons_of_mem _
      (List.mem_cons_of_mem _ (List.mem_cons_self _ _))))
  have hgq := hctx.block_geo _ hqb
  have hgp := hctx.block_geo _ hpb
  have hgr := hctx.block_geo _ hrb
  simp only [blkPtr, blkSize, blkAlloc] at hgq hgp hgr
  have hhp := hctx.hp_eq
  have hbp := hctx.bp_eq
  have hmax := hctx.max_lt
  have hbrkle := hctx.brk_le
  -- structural split of the tiling (on the original memory)
  obtain ⟨j1, hA1, hR1⟩ := BlocksRep.append_iff.mp hctx.blocks
  rw [BlocksRep.cons_iff] at hR1
  obtain ⟨hj1q, _, _, _, _, _, hT1⟩ := hR1
  rw [BlocksRep.cons_iff] at hT1
  obtain ⟨hadj, _, _, _, _, _, hT2⟩ := hT1
  rw [BlocksRep.cons_iff] at hT2
  obtain ⟨hnadj, _, _, _, _, _, htB⟩ := hT2
  simp only [blkPtr, blkSize] at hj1q hadj hnadj htB
  subst hj1q
  have hpne0 : p ≠ 0 := by omega
  have hszread : GET_SIZE s.mem (GET_HEADER p) = szp := (hctx.read_tag hpb).1
  have hrszread : GET_SIZE s.mem (GET_HEADER r0) = szr := (hctx.read_tag hrb).1
  have hprev : GET_PREV s.mem p = q0 := by
    unfold GET_PREV
    rw [show p - 8 = q0 + szq - 8 from by omega]
    rw [show GET_SIZE s.mem (q0 + szq - 8) = szq from
      GET_SIZE_of_tag hgq.2.2.2.2.2.2.2 hgq.2.2.2.1 (by norm_num)]
    omega
  have hpstep : coalesce_prev_step s p szp = some (s, p, szp) := by
    unfold coalesce_prev_step
    rw [hprev]
    rw [if_neg (fun hc => by
      have h1 := (hctx.read_tag hqb).2
      rw [hc.2] at h1
      cases h1)]
  have hnr : GET_NEXT s.mem p = r0 := by
    unfold GET_NEXT
    rw [show GET_SIZE s.mem (p - 4) = szp from hszread]
    omega
  -- the successor is eligible: remove it from its class
  have hrfl : r0 ∈ fl (get_size_class szr) := by
    have h0 := h.free_in_chain _ hrb rfl
    simp only [blkPtr, blkSize] at h0
    exact h0
  obtain ⟨s2, hrm, hr1, hr2, hr3, hr4, hr5, hctx1, habe1⟩ :=
    seg_list_remove_correct hctx hrb hrfl
  have hcondn : INSIDE_HEAP s r0 ∧ GET_ALLOC s.mem (GET_HEADER r0) = 0 :=
    ⟨⟨by omega, by omega⟩, (hctx.read_tag hrb).2⟩
  have hnstep : coalesce_next_step s p s szp = some (s2, szp + szr) := by
    unfold coalesce_next_step
    rw [hnr]
    rw [if_pos hcondn]
    rw [hrm]
    dsimp only
    rw [hrszread]
  -- split the post-removal tiling and rebuild the run to merge
  have hg2q := hctx1.block_geo _ hqb
  have hg2p := hctx1.block_geo _ hpb
  have hg2r := hctx1.block_geo _ hrb
  simp only [blkPtr, blkSize, blkAlloc] at hg2q hg2p hg2r
  obtain ⟨j2, hA2, hR2⟩ := BlocksRep.append_iff.mp hctx1.blocks
  rw [BlocksRep.cons_iff] at hR2
  obtain ⟨hj2q, _, _, _, _, _, _⟩ := hR2
  simp only [blkPtr] at hj2q
  subst hj2q
  have hA : BlocksRep s2.mem s2.memHp p
      (bsA ++ [((q0 : Nat), (szq : Nat), (1 : Nat))]) := by
    refine BlocksRep.append_iff.mpr ⟨q0, hA2, ?_⟩
    refine BlocksRep.cons_iff.mpr ⟨rfl, by show (16 : Nat) ≤ szq; omega,
      by show szq % 8 = 0; omega, by show (1 : Nat) ≤ 1; omega,
      hg2q.2.2.2.2.2.2.1, hg2q.2.2.2.2.2.2.2, ?_⟩
    show BlocksRep s2.mem (q0 + szq) p []
    rw [BlocksRep.nil_iff]
    omega
  have hMid : BlocksRep s2.mem p (p + (szp + szr))
      [((p : Nat), (szp : Nat), (1 : Nat)), ((r0 : Nat), (szr : Nat), (0 : Nat))] := by
    refine BlocksRep.cons_iff.mpr ⟨rfl, by show (16 : Nat) ≤ szp; omega,
      by show szp % 8 = 0; omega, by show (1 : Nat) ≤ 1; omega,
      hg2p.2.2.2.2.2.2.1, hg2p.2.2.2.2.2.2.2, ?_⟩
    show BlocksRep s2.mem (p + szp) (p + (szp + szr))
      [((r0 : Nat), (szr : Nat), (0 : Nat))]
    refine BlocksRep.cons_iff.mpr ⟨by show (r0 : Nat) = p + szp; omega,
      by show (16 : Nat) ≤ szr; omega, by show szr % 8 = 0; omega,
      by show (0 : Nat) ≤ 1; omega, ?_, ?_, ?_⟩
    · show GET s2.mem (p + szp - 4) = szr + 0
      rw [show p + szp - 4 = r0 - 4 from by omega]
      exact hg2r.2.2.2.2.2.2.1
    · show GET s2.mem (p + szp + szr - 8) = szr + 0
      rw [show p + szp + szr - 8 = r0 + szr - 8 from by omega]
      exact hg2r.2.2.2.2.2.2.2
    · show BlocksRep s2.mem (p + szp + szr) (p + (szp + szr)) []
      rw [BlocksRep.nil_iff]
      omega
  have hctx2 : SegCtx s2 ((bsA ++ [((q0 : Nat), (szq : Nat), (1 : Nat))]) ++
      ([((p : Nat), (szp : Nat), (1 : Nat)), ((r0 : Nat), (szr : Nat), (0 : Nat))] ++
        bsB))
      (flUpd fl (get_size_class szr) ((fl (get_size_class szr)).erase r0)) := by
    rw [List.append_assoc]
    exact hctx1
  have hndr : (fl (get_size_class szr)).Nodup :=
    ChainRep.nodup (hctx.chains _ (get_size_class_lt szr))
  have hmid : ∀ c ∈ [((p : Nat), (szp : Nat), (1 : Nat)),
      ((r0 : Nat), (szr : Nat), (0 : Nat))], ∀ j, j < 8 →
      blkPtr c ∉ flUpd fl (get_size_class szr) ((fl (get_size_class szr)).erase r0)
        j := by
    intro c hc j hj hcin
    rcases List.mem_cons.mp hc with rfl | hc2
    · exact hctx1.alloc_notin_chains hpb j hj hcin
    · rcases List.mem_cons.mp hc2 with rfl | hc3
      · obtain ⟨sz0, hb0, hcl0⟩ := hctx1.chain_mem j hj _ hcin
        have heq := BlocksRep.ptr_inj hctx1.blocks hb0 hrb rfl
        simp only [Prod.mk.injEq] at heq
        rw [heq.2.1] at hcl0
        subst hcl0
        unfold flUpd at hcin
        rw [if_pos rfl] at hcin
        exact ((List.Nodup.mem_erase_iff hndr).mp hcin).1 rfl
      · cases hc3
  have hadjC : List.Chain' (fun b c => blkAlloc b = 1 ∨ blkAlloc c = 1)
      ((bsA ++ [((q0 : Nat), (szq : Nat), (1 : Nat))]) ++
        ((p : Nat), szp + szr, (0 : Nat)) :: bsB) := by
    have hno := h.no_adj_free
    rw [List.chain'_append] at hno
    obtain ⟨hC1, hC2, hBr⟩ := hno
    rw [List.chain'_cons'] at hC2
    obtain ⟨_, hC3⟩ := hC2
    rw [List.chain'_cons'] at hC3
    obtain ⟨_, hC4⟩ := hC3
    rw [List.chain'_cons'] at hC4
    obtain ⟨hrhd, hCtail⟩ := hC4
    rw [List.chain'_append]
    refine ⟨?_, ?_, ?_⟩
    · rw [List.chain'_append]
      refine ⟨hC1, List.chain'_singleton _, ?_⟩
      intro x hx y hy
      simp only [List.head?_cons, Option.mem_def, Option.some.injEq] at hy
      subst hy
      exact hBr x hx _ (by simp)
    · rw [List.chain'_cons']
      refine ⟨fun y hy => ?_, hCtail⟩
      have hry := hrhd y hy
      rcases hry with h1 | h1
      · exact absurd h1 Nat.zero_ne_one
      · exact Or.inr h1
    · intro x hx y hy
      rw [List.getLast?_concat] at hx
      simp only [Option.mem_def, Option.some.injEq] at hx hy
      rw [List.head?_cons] at hy
      simp only [Option.some.injEq] at hy
      subst hx
      subst hy
      exact Or.inl rfl
  have hfree2 : ∀ b ∈ (bsA ++ [((q0 : Nat), (szq : Nat), (1 : Nat))]) ++
      ((p : Nat), szp + szr, (0 : Nat)) :: bsB,
      blkAlloc b = 0 → b ≠ ((p, szp + szr, 0) : Blk) →
      blkPtr b ∈ flUpd fl (get_size_class szr) ((fl (get_size_class szr)).erase r0)
        (get_size_class (blkSize b)) := by
    intro b hb hba hbne
    have hbor : b ∈ bsA ∨ b ∈ bsB := by
      rcases List.mem_append.mp hb with h1 | h1
      · rcases List.mem_append.mp h1 with h2 | h2
        · exact Or.inl h2
        · rcases List.mem_cons.mp h2 with heq | h3
          · exfalso
            rw [heq] at hba
            exact absurd hba Nat.one_ne_zero
          · cases h3
      · rcases List.mem_cons.mp h1 with heq | h2
        · exact absurd heq hbne
        · exact Or.inr h2
    have hborig : b ∈ bsA ++ ((q0 : Nat), (szq : Nat), (1 : Nat)) ::
        ((p : Nat), (szp : Nat), (1 : Nat)) ::
        ((r0 : Nat), (szr : Nat), (0 : Nat)) :: bsB := by
      rcases hbor with h1 | h1
      · exact List.mem_append.mpr (Or.inl h1)
      · exact List.mem_append.mpr (Or.inr (List.mem_cons_of_mem _
          (List.mem_cons_of_mem _ (List.mem_cons_of_mem _ h1))))
    have hbfl := h.free_in_chain b hborig hba
    have hbr0 : blkPtr b ≠ r0 := by
      rcases hbor with h1 | h1
      · have hm1 := BlocksRep.mem_bounds hA1 b h1
        omega
      · have hm1 := BlocksRep.mem_bounds htB b h1
        omega
    exact flUpd_erase_mem hndr hbfl hbr0
  have hlive2 : ∀ r ∈ L.erase p, r ≠ s2.memHp ∧ ∃ sz,
      (r, sz, 1) ∈ (bsA ++ [((q0 : Nat), (szq : Nat), (1 : Nat))]) ++
        ((p : Nat), szp + szr, (0 : Nat)) :: bsB := by
    intro r hr
    have hr' : r ∈ L := List.mem_of_mem_erase hr
    have hrp : r ≠ p := ((List.Nodup.mem_erase_iff h.live_nodup).mp hr).1
    obtain ⟨hne, sz, hmem⟩ := h.live_mem r hr'
    refine ⟨by rw [hr2]; exact hne, sz, ?_⟩
    rcases List.mem_append.mp hmem with h1 | h1
    · exact List.mem_append.mpr (Or.inl (List.mem_append.mpr (Or.inl h1)))
    · rcases List.mem_cons.mp h1 with heq | h2
      · rw [heq]
        exact List.mem_append.mpr (Or.inl (List.mem_append.mpr (Or.inr
          (List.mem_cons_self _ _))))
      · rcases List.mem_cons.mp h2 with heq | h3
        · exfalso
          have := congrArg blkPtr heq
          simp only [blkPtr] at this
          exact hrp this
        · rcases List.mem_cons.mp h3 with heq | h4
          · exact absurd (congrArg blkAlloc heq) Nat.one_ne_zero
          · exact List.mem_append.mpr (Or.inr (List.mem_cons_of_mem _ h4))
  obtain ⟨s', hmerge, hs1, hs2, hs3, hs4, hs5, hinv, hbytes⟩ :=
    free_endgame hctx2 hA hMid (by simp) hmid
      (by have hhp1 := hctx1.hp_eq; omega)
      (by omega) (by omega) (by omega)
      hadjC hfree2 hlive2 (List.Nodup.erase _ h.live_nodup)
  refine ⟨s', ?_, hs1.trans hr1, hs2.trans hr2, hs3.trans hr3, hs4.trans hr4,
    hs5.trans hr5, ?_, ?_⟩
  · unfold mm_free
    rw [if_neg hpne0, hszread]
    unfold coalesce
    rw [if_neg (by push_neg; exact ⟨hpne0, by omega⟩)]
    rw [hpstep]
    show (match coalesce_next_step s p s szp with
      | none => none
      | some (s2, free_size) => some (coalesce_merge s2 p free_size)) = some s'
    rw [hnstep]
    show some (coalesce_merge s2 p (szp + szr)) = some s'
    rw [hmerge]
  · have hgoal := hinv
    rw [List.append_assoc] at hgoal
    exact hgoal
  · intro b hb hba hbne x hx1 hx2
    have hmidne2 : ∀ c ∈ [((p : Nat), (szp : Nat), (1 : Nat)),
        ((r0 : Nat), (szr : Nat), (0 : Nat))], b ≠ c := by
      intro c hc
      rcases List.mem_cons.mp hc with rfl | hc2
      · intro hcc
        exact hbne (by rw [hcc]; rfl)
      · rcases List.mem_cons.mp hc2 with rfl | hc3
        · intro hcc
          rw [hcc] at hba
          exact absurd hba Nat.zero_ne_one
        · cases hc3
    have hb' : b ∈ (bsA ++ [((q0 : Nat), (szq : Nat), (1 : Nat))]) ++
        ([((p : Nat), (szp : Nat), (1 : Nat)),
          ((r0 : Nat), (szr : Nat), (0 : Nat))] ++ bsB) := by
      rw [List.append_assoc]
      exact hb
    have h1 := hbytes b hb' hba hmidne2 x hx1 hx2
    have h2 := habe1 b hb hba x hx1 hx2
    exact h1.trans h2

/-! ## Elementary facts about the block-size computation and searches -/


theorem GET_SIZE_mod8 (m : Mem) (p : Nat) : GET_SIZE m p % 8 = 0 := by
  unfold GET_SIZE
  omega

theorem GET_SIZE_lt (m : Mem) (p : Nat) : GET_SIZE m p < 2 ^ 32 :=
  lt_of_le_of_lt (Nat.div_mul_le_self _ _) (GET_lt m p)

theorem get_fit_loop_sound {s : MState} {size : Nat} :
    ∀ {fuel j r : Nat}, get_fit_loop s size j fuel = some (some r) →
      INSIDE_HEAP s r ∧ r ≠ 0 ∧ GET_ALLOC s.mem (GET_HEADER r) = 0 ∧
        size ≤ GET_SIZE s.mem (GET_HEADER r) := by
  intro fuel
  induction fuel with
  | zero => intro j r h; cases h
  | succ fuel ih =>
    intro j r h
    unfold get_fit_loop at h
    split at h
    · split at h
      · rename_i hin hfit
        cases h
        exact ⟨hin.1, hin.2, hfit.1, hfit.2⟩
      · exact ih h
    · cases h

theorem get_fit_go_sound {s : MState} {size : Nat} :
    ∀ {n i r : Nat}, get_fit_go s size i n = some (some r) →
      INSIDE_HEAP s r ∧ r ≠ 0 ∧ GET_ALLOC s.mem (GET_HEADER r) = 0 ∧
        size ≤ GET_SIZE s.mem (GET_HEADER r) := by
  intro n
  induction n with
  | zero => intro i r h; cases h
  | succ n ih =>
    intro i r h
    unfold get_fit_go at h
    split at h
    · split at h
      · cases h
      · rename_i heq
        cases h
        exact get_fit_loop_sound heq
      · exact ih h
    · cases h

/-- Soundness of the fit search: a returned block is a non-null in-heap
payload whose header is free and large enough. -/
theorem get_fit_sound {s : MState} {size r : Nat}
    (h : get_fit s size = some (some r)) :
    INSIDE_HEAP s r ∧ r ≠ 0 ∧ GET_ALLOC s.mem (GET_HEADER r) = 0 ∧
      size ≤ GET_SIZE s.mem (GET_HEADER r) :=
  get_fit_go_sound h

/-- A failed `mem_sbrk` mutates nothing. -/
theorem mem_sbrk_none_eq {s s1 : MState} {incr : Nat}
    (h : mem_sbrk s incr = (none, s1)) : s1 = s := by
  unfold mem_sbrk at h
  split at h
  · cases h; rfl
  · simp at h

/-- A failed `grow_heap` mutates nothing. -/
theorem grow_heap_none_eq {s s1 : MState} {sz : Nat}
    (h : grow_heap s sz = (none, s1)) : s1 = s := by
  unfold grow_heap at h
  split at h
  · cases h; rfl
  · split at h
    · rename_i heq
      cases h
      exact mem_sbrk_none_eq heq
    · simp only at h
      simp at h

/-- The splitting branch hands back exactly the fit pointer. -/
theorem malloc_split_result {s s' : MState} {f b r : Nat} {o : Option Nat}
    (h : malloc_split s f b r = some (o, s')) : o = some f := by
  unfold malloc_split at h
  split at h
  · cases h
  · cases h
    rfl

/-- The absorb branch hands back exactly the fit pointer. -/
theorem malloc_absorb_result {s s' : MState} {f : Nat} {o : Option Nat}
    (h : malloc_absorb s f = some (o, s')) : o = some f := by
  unfold malloc_absorb at h
  split at h
  · cases h
  · cases h
    rfl

/-- A failed growth branch mutates nothing. -/
theorem malloc_grow_none_eq {s s1 : MState} {b : Nat}
    (h : malloc_grow s b = some (none, s1)) : s1 = s := by
  unfold malloc_grow at h
  split at h
  · rename_i heq
    cases h
    exact grow_heap_none_eq heq
  · simp at h

/-- A failed `mm_malloc` (null result) leaves the state untouched: the only
null-returning paths are the zero-size early return and the failed region
growth, and a failed `mem_sbrk` mutates nothing. -/
theorem mm_malloc_none_eq {s s1 : MState} {n : Nat}
    (h : mm_malloc s n = some (none, s1)) : s1 = s := by
  unfold mm_malloc at h
  split at h
  · cases h; rfl
  · split at h
    · cases h
    · split at h
      · exact Option.noConfusion (malloc_split_result h)
      · exact Option.noConfusion (malloc_absorb_result h)
    · exact malloc_grow_none_eq h

/-!
Claim C10 (error handling of `mm_realloc` when the internal allocation
fails).  The proof needs no heap invariant: `get_fit` mutates nothing and
a failed `mem_sbrk` returns the state unchanged, so a null `mm_malloc`
propagates the *original* state through `mm_realloc`.
-/

/-- Claim C10: for non-null `ptr` and `newSize > 0`, if the internal
allocation of `mm_realloc` fails then `mm_realloc` returns null and the
entire allocator state is exactly the input state: the old block keeps its
tag and payload, nothing is released, and the index and heap bounds are
untouched. -/
theorem mm_realloc_alloc_failure_atomic {s s1 : MState} {p n : Nat}
    (hp : p ≠ 0) (hn : n ≠ 0) (h : mm_malloc s n = some (none, s1)) :
    mm_realloc s p n = some (none, s) := by
  have hs := mm_malloc_none_eq h
  subst hs
  unfold mm_realloc
  rw [if_neg hp, if_neg hn, h]

/-- Witness for C10 at a concrete exhausted heap. -/
theorem mm_realloc_alloc_failure_atomic_witness :
    mm_realloc exSfull 72 8 = some (none, exSfull) :=
  mm_realloc_alloc_failure_atomic (by decide) (by decide) rfl

/-!
Claim C9 (index removal before header rewrite).  The claim fails on the
absorb (exact-fit) branch of `mm_malloc`, lines 135–137: there `place` is
called on the candidate *before* `seg_list_remove`, rewriting the header
of a block that is still the head of its class list.  The rewrite sets the
allocated bit but leaves the size field unchanged, so the subsequent
removal still keys to the correct class; the splitting branch
(lines 127–134) and `coalesce` (lines 319–333) do remove first.
-/

/-- Counterexample to claim C9 as stated: in the state `exS3` (a reachable
state with the free 16-byte block 88 heading class 0), a request of 8
bytes takes the absorb branch — the fit is exact, the remainder is below
`MIN_BLOCK_SIZE` — and the intermediate state produced by `place`, before
any `seg_list_remove`, has block 88's header already rewritten while 88 is
still reachable from index slot 0. -/
theorem absorb_place_before_remove_counterexample :
    get_fit exS3 (blockSizeOf 8) = some (some 88) ∧
    sub64 (GET_SIZE exS3.mem (GET_HEADER 88)) (blockSizeOf 8) < MIN_BLOCK_SIZE ∧
    GET (place exS3 88 (GET_SIZE exS3.mem (GET_HEADER 88))).mem (GET_HEADER 88) ≠
      GET exS3.mem (GET_HEADER 88) ∧
    classList (place exS3 88 (GET_SIZE exS3.mem (GET_HEADER 88))) 0 = some [88] := by
  decide

/-- Claim C9 as amended: blocks are removed from the index before their
header or size field is rewritten in the splitting and coalescing paths,
while in the absorb (exact-fit) path `place` rewrites the header (setting
the allocated bit) before removal; that early rewrite never changes the
size field, hence also not the size class under which the pending
`seg_list_remove` will look the block up. -/
theorem absorb_place_preserves_size_class {s : MState} {size fit : Nat}
    (hfit : get_fit s size = some (some fit)) (hhp : 8 ≤ s.memHp) :
    GET_SIZE (place s fit (GET_SIZE s.mem (GET_HEADER fit))).mem (GET_HEADER fit) =
      GET_SIZE s.mem (GET_HEADER fit) ∧
    get_size_class
        (GET_SIZE (place s fit (GET_SIZE s.mem (GET_HEADER fit))).mem (GET_HEADER fit)) =
      get_size_class (GET_SIZE s.mem (GET_HEADER fit)) := by
  obtain ⟨hin, hne, _, _⟩ := get_fit_sound hfit
  have h8 : GET_SIZE s.mem (GET_HEADER fit) % 8 = 0 := GET_SIZE_mod8 _ _
  have hlt : GET_SIZE s.mem (GET_HEADER fit) < 2 ^ 32 := GET_SIZE_lt _ _
  have hfit8 : 8 ≤ fit := le_trans hhp hin.1
  by_cases hz : GET_SIZE s.mem (GET_HEADER fit) = 0
  · have hpl : place s fit (GET_SIZE s.mem (GET_HEADER fit)) = s := by
      unfold place
      rw [if_pos (Or.inr hz)]
    rw [hpl]
    exact ⟨rfl, rfl⟩
  · have hsz8 : 8 ≤ GET_SIZE s.mem (GET_HEADER fit) := by omega
    have hne' : ¬(fit = 0 ∨ GET_SIZE s.mem (GET_HEADER fit) = 0) := by
      push_neg
      exact ⟨hne, hz⟩
    unfold place
    rw [if_neg hne']
    simp only
    have hm1 : GET (PUT s.mem (GET_HEADER fit) (PACK (GET_SIZE s.mem (GET_HEADER fit)) 1))
        (GET_HEADER fit) = GET_SIZE s.mem (GET_HEADER fit) + 1 := by
      rw [GET_PUT, PACK_eq h8 (le_refl 1)]
      exact Nat.mod_eq_of_lt (by omega)
    have hszm1 : GET_SIZE (PUT s.mem (GET_HEADER fit) (PACK (GET_SIZE s.mem (GET_HEADER fit)) 1))
        (GET_HEADER fit) = GET_SIZE s.mem (GET_HEADER fit) :=
      GET_SIZE_of_tag hm1 h8 (le_refl 1)
    have hfoot : GET_FOOTER
        (PUT s.mem (GET_HEADER fit) (PACK (GET_SIZE s.mem (GET_HEADER fit)) 1)) fit =
        fit + GET_SIZE s.mem (GET_HEADER fit) - 8 := by
      unfold GET_FOOTER
      rw [hszm1]
    rw [hfoot]
    have hdis : GET_HEADER fit + 4 ≤ fit + GET_SIZE s.mem (GET_HEADER fit) - 8 := by
      have hh : GET_HEADER fit = fit - 4 := rfl
      omega
    have hout : GET (PUT
        (PUT s.mem (GET_HEADER fit) (PACK (GET_SIZE s.mem (GET_HEADER fit)) 1))
        (fit + GET_SIZE s.mem (GET_HEADER fit) - 8)
        (PACK (GET_SIZE s.mem (GET_HEADER fit)) 1)) (GET_HEADER fit) =
        GET_SIZE s.mem (GET_HEADER fit) + 1 := by
      rw [GET_PUT_out _ _ (Or.inl hdis)]
      exact hm1
    have : GET_SIZE (PUT
        (PUT s.mem (GET_HEADER fit) (PACK (GET_SIZE s.mem (GET_HEADER fit)) 1))
        (fit + GET_SIZE s.mem (GET_HEADER fit) - 8)
        (PACK (GET_SIZE s.mem (GET_HEADER fit)) 1)) (GET_HEADER fit) =
        GET_SIZE s.mem (GET_HEADER fit) :=
      GET_SIZE_of_tag hout h8 (le_refl 1)
    rw [this]
    exact ⟨rfl, rfl⟩


/-!
Claim C7 (the growth path requests exactly the computed block size).
-/

/-- Claim C7: when the fit search finds no candidate, `mm_malloc` asks the
region provider for exactly the computed block size (the break advances by
precisely `blockSizeOf n`, never the larger `CHUNKSIZE`), tags the new
block allocated with exactly that size (header and footer), and returns
its payload `old_break + DSIZE`; when the provider cannot grow, it returns
null with the state unchanged. -/
theorem malloc_grow_requests_exact {s : MState} {n : Nat}
    (hn : n ≠ 0) (hmax : s.maxAddr < 2 ^ 32)
    (hfit : get_fit s (blockSizeOf n) = some none) :
    (s.brk + blockSizeOf n ≤ s.maxAddr →
      ∃ s1, mm_malloc s n = some (some (s.brk + DSIZE), s1) ∧
        s1.brk = s.brk + blockSizeOf n ∧
        GET s1.mem (GET_HEADER (s.brk + DSIZE)) = blockSizeOf n + 1 ∧
        GET s1.mem (s.brk + DSIZE + blockSizeOf n - 8) = blockSizeOf n + 1) ∧
    (s.maxAddr < s.brk + blockSizeOf n → mm_malloc s n = some (none, s)) := by
  have hb16 := blockSizeOf_ge n
  have hb8 := blockSizeOf_mod8 n
  have hbne : blockSizeOf n ≠ 0 := by omega
  constructor
  · intro hgrow
    have hblt : blockSizeOf n < 2 ^ 32 := by omega
    have hsbrk : mem_sbrk s (blockSizeOf n) =
        (some s.brk, { s with brk := s.brk + blockSizeOf n }) := by
      unfold mem_sbrk
      rw [if_neg (by omega)]
    rw [mm_malloc_eq_grow hn hfit]
    unfold malloc_grow grow_heap
    rw [if_neg hbne, hsbrk]
    simp only
    have hhdr : GET_HEADER (s.brk + DSIZE) = s.brk + 4 := by
      simp [GET_HEADER, DSIZE]
    have hpack0 : PACK (blockSizeOf n) 0 = blockSizeOf n := by
      rw [PACK_eq hb8 (by omega)]
      omega
    have hpack1 : PACK (blockSizeOf n) 1 = blockSizeOf n + 1 :=
      PACK_eq hb8 (le_refl 1)
    have hm1get : GET (PUT s.mem (GET_HEADER (s.brk + DSIZE)) (PACK (blockSizeOf n) 0))
        (GET_HEADER (s.brk + DSIZE)) = blockSizeOf n := by
      rw [GET_PUT, hpack0, Nat.mod_eq_of_lt hblt]
    have hm1sz : GET_SIZE (PUT s.mem (GET_HEADER (s.brk + DSIZE)) (PACK (blockSizeOf n) 0))
        (GET_HEADER (s.brk + DSIZE)) = blockSizeOf n := by
      unfold GET_SIZE
      rw [hm1get]
      omega
    have hfoot : GET_FOOTER (PUT s.mem (GET_HEADER (s.brk + DSIZE)) (PACK (blockSizeOf n) 0))
        (s.brk + DSIZE) = s.brk + DSIZE + blockSizeOf n - 8 := by
      unfold GET_FOOTER
      rw [hm1sz]
    rw [hfoot]
    refine ⟨_, rfl, ?_, ?_, ?_⟩
    · simp [place]
      split <;> rfl
    · -- header of the placed block
      unfold place
      rw [if_neg (by push_neg; exact ⟨by simp [DSIZE], hbne⟩)]
      simp only
      have hm3get : GET (PUT
          (PUT (PUT s.mem (GET_HEADER (s.brk + DSIZE)) (PACK (blockSizeOf n) 0))
            (s.brk + DSIZE + blockSizeOf n - 8) (PACK (blockSizeOf n) 0))
          (GET_HEADER (s.brk + DSIZE)) (PACK (blockSizeOf n) 1))
          (GET_HEADER (s.brk + DSIZE)) = blockSizeOf n + 1 := by
        rw [GET_PUT, hpack1, Nat.mod_eq_of_lt (by omega)]
      have hm3sz : GET_SIZE (PUT
          (PUT (PUT s.mem (GET_HEADER (s.brk + DSIZE)) (PACK (blockSizeOf n) 0))
            (s.brk + DSIZE + blockSizeOf n - 8) (PACK (blockSizeOf n) 0))
          (GET_HEADER (s.brk + DSIZE)) (PACK (blockSizeOf n) 1))
          (GET_HEADER (s.brk + DSIZE)) = blockSizeOf n := by
        unfold GET_SIZE
        rw [hm3get]
        omega
      have hfoot3 : GET_FOOTER (PUT
          (PUT (PUT s.mem (GET_HEADER (s.brk + DSIZE)) (PACK (blockSizeOf n) 0))
            (s.brk + DSIZE + blockSizeOf n - 8) (PACK (blockSizeOf n) 0))
          (GET_HEADER (s.brk + DSIZE)) (PACK (blockSizeOf n) 1))
          (s.brk + DSIZE) = s.brk + DSIZE + blockSizeOf n - 8 := by
        unfold GET_FOOTER
        rw [hm3sz]
      rw [hfoot3]
      rw [GET_PUT_out _ _ (Or.inl (by rw [hhdr]; simp [DSIZE]; omega))]
      exact hm3get
    · -- footer of the placed block
      unfold place
      rw [if_neg (by push_neg; exact ⟨by simp [DSIZE], hbne⟩)]
      simp only
      have hm3sz : GET_SIZE (PUT
          (PUT (PUT s.mem (GET_HEADER (s.brk + DSIZE)) (PACK (blockSizeOf n) 0))
            (s.brk + DSIZE + blockSizeOf n - 8) (PACK (blockSizeOf n) 0))
          (GET_HEADER (s.brk + DSIZE)) (PACK (blockSizeOf n) 1))
          (GET_HEADER (s.brk + DSIZE)) = blockSizeOf n := by
        unfold GET_SIZE
        rw [GET_PUT, PACK_eq hb8 (le_refl 1), Nat.mod_eq_of_lt (by omega)]
        omega
      have hfoot3 : GET_FOOTER (PUT
          (PUT (PUT s.mem (GET_HEADER (s.brk + DSIZE)) (PACK (blockSizeOf n) 0))
            (s.brk + DSIZE + blockSizeOf n - 8) (PACK (blockSizeOf n) 0))
          (GET_HEADER (s.brk + DSIZE)) (PACK (blockSizeOf n) 1))
          (s.brk + DSIZE) = s.brk + DSIZE + blockSizeOf n - 8 := by
        unfold GET_FOOTER
        rw [hm3sz]
      rw [hfoot3]
      rw [GET_PUT, PACK_eq hb8 (le_refl 1), Nat.mod_eq_of_lt (by omega)]
  · intro hfail
    rw [mm_malloc_eq_grow hn hfit]
    unfold malloc_grow grow_heap
    rw [if_neg hbne]
    unfold mem_sbrk
    rw [if_pos (by omega)]

/-- Witness for C7 on a concrete state (fresh heap, no fit available):
both the success arm and (vacuously) the failure arm. -/
theorem malloc_grow_requests_exact_witness :
    (exS0.brk + blockSizeOf 8 ≤ exS0.maxAddr →
      ∃ s1, mm_malloc exS0 8 = some (some (exS0.brk + DSIZE), s1) ∧
        s1.brk = exS0.brk + blockSizeOf 8 ∧
        GET s1.mem (GET_HEADER (exS0.brk + DSIZE)) = blockSizeOf 8 + 1 ∧
        GET s1.mem (exS0.brk + DSIZE + blockSizeOf 8 - 8) = blockSizeOf 8 + 1) ∧
    (exS0.maxAddr < exS0.brk + blockSizeOf 8 → mm_malloc exS0 8 = some (none, exS0)) :=
  malloc_grow_requests_exact (by decide) (by decide) (by decide)

/-- Witness for the amended C9, on the concrete absorb-path state. -/
theorem absorb_place_preserves_size_class_witness :
    GET_SIZE (place exS3 88 (GET_SIZE exS3.mem (GET_HEADER 88))).mem (GET_HEADER 88) =
      GET_SIZE exS3.mem (GET_HEADER 88) ∧
    get_size_class
        (GET_SIZE (place exS3 88 (GET_SIZE exS3.mem (GET_HEADER 88))).mem (GET_HEADER 88)) =
      get_size_class (GET_SIZE exS3.mem (GET_HEADER 88)) :=
  @absorb_place_preserves_size_class exS3 (blockSizeOf 8) 88 (by decide) (by decide)

end Mm
